import Mathlib

/-!
A Lean 4 model of the `jumprope-rs` text rope library, shallowly embedding
the Rust sources (`src/fast_str_tools.rs`, `src/utils.rs`, `src/gapbuffer.rs`,
`src/jumprope.rs`, `src/buffered.rs`).

Modelling conventions:

* Bytes are `Nat` values below 256; strings are lists of bytes (`List Nat`).
  Unicode scalar values are `Nat`s; `utf8Str` is the UTF-8 encoding of a list
  of scalar values.
* `usize`/`u16` arithmetic is modelled on `Nat`.  At the few sites where the
  Rust code can wrap (release mode) and the wrapped value is observable we
  use explicit `% 2 ^ 64` arithmetic (`usizeSub`); elsewhere the claims'
  hypotheses keep all subtractions in range so `Nat` subtraction coincides
  with the machine value.
* Rust panics / failed asserts are modelled by returning an (unreachable
  under the stated hypotheses) junk value, noted at each site.
* The `wchar_conversion` feature is compiled in (the claims reference it),
  and `NODE_STR_SIZE` is the release-mode value 392.
* `char_to_byte_idx` is modelled by the scalar algorithm
  `char_to_byte_idx_naive` (fast_str_tools.rs:69); the chunked / SIMD
  implementations selected at runtime are required by the module contract to
  be byte-for-byte equivalent to that scalar fallback.

The file is organized as: all definitions first, then all theorems.
-/

set_option maxHeartbeats 1000000
set_option maxRecDepth 8000

namespace Jumprope

/-! # Part 1: definitions -/


/-- A byte starts a UTF-8 scalar iff its top two bits are not `10`
(`(byte & 0xC0) != 0x80`, see `count_chars_in_bytes`). -/
def isCharBoundary (b : Nat) : Bool := b &&& 0xC0 != 0x80

/-- The test `(byte & 0xf0) == 0xf0` from `count_utf16_surrogates_in_bytes`. -/
def isSurrogateByte (b : Nat) : Bool := b &&& 0xF0 == 0xF0

/-- `count_chars_in_bytes` (fast_str_tools.rs:204): count bytes whose top two
bits are not `10`. -/
def countCharsInBytes (text : List Nat) : Nat := text.countP isCharBoundary

/-- `count_utf16_surrogates_in_bytes` (fast_str_tools.rs:148). -/
def countUtf16SurrogatesInBytes (text : List Nat) : Nat :=
  text.countP isSurrogateByte

/-- Standard UTF-8 encoding of a Unicode scalar value. -/
def utf8Encode (c : Nat) : List Nat :=
  if c < 0x80 then [c]
  else if c < 0x800 then [0xC0 + c / 64, 0x80 + c % 64]
  else if c < 0x10000 then [0xE0 + c / 4096, 0x80 + c / 64 % 64, 0x80 + c % 64]
  else [0xF0 + c / 262144, 0x80 + c / 4096 % 64, 0x80 + c / 64 % 64,
    0x80 + c % 64]

/-- UTF-8 encoding of a list of scalar values. -/
def utf8Str (s : List Nat) : List Nat := (s.map utf8Encode).flatten

/-- A Unicode scalar value: in range and not a surrogate code point. -/
def ValidScalar (c : Nat) : Prop := c < 0x110000 ∧ (c < 0xD800 ∨ 0xE000 ≤ c)

instance (c : Nat) : Decidable (ValidScalar c) := by
  unfold ValidScalar; infer_instance

def ValidStr (s : List Nat) : Prop := ∀ c ∈ s, ValidScalar c

instance (s : List Nat) : Decidable (ValidStr s) := by
  unfold ValidStr; infer_instance

/-- `char::len_utf16` in Rust: scalars at or above `0x10000` need a
surrogate pair. -/
def utf16Len (c : Nat) : Nat := if c < 0x10000 then 1 else 2

/-- Scalars in Unicode range (weaker than `ValidScalar`: surrogate code
points are allowed here, they never arise under `ValidStr`). -/
def InRangeStr (s : List Nat) : Prop := ∀ c ∈ s, c < 0x110000

/-- The scan loop: consume bytes while `char_count <= char_idx`, counting
boundary bytes (`as usize` casts become `Bool.toNat`).  Returns
(bytes consumed, final char count). -/
def charToByteLoop (charIdx : Nat) : List Nat → Nat → Nat → Nat × Nat
  | [], i, cc => (i, cc)
  | b :: rest, i, cc =>
    if cc ≤ charIdx then
      charToByteLoop charIdx rest (i + 1) (cc + (isCharBoundary b).toNat)
    else (i, cc)

def charToByteIdx (text : List Nat) (charIdx : Nat) : Nat :=
  if (charToByteLoop charIdx text 0 0).1 = text.length ∧
      (charToByteLoop charIdx text 0 0).2 ≤ charIdx then
    (charToByteLoop charIdx text 0 0).1
  else (charToByteLoop charIdx text 0 0).1 - 1

/-- The reverse scan loop of `str_chars_to_bytes_rev`.  The `panic!` on
running out of bytes is modelled by returning `0` (unreachable under the
theorems' hypotheses). -/
def charsToBytesRevLoop : List Nat → Nat → Nat → Nat
  | [], _, _ => 0
  | b :: rest, remaining, i =>
    if isCharBoundary b then
      if remaining - 1 = 0 then i + 1
      else charsToBytesRevLoop rest (remaining - 1) (i + 1)
    else charsToBytesRevLoop rest remaining (i + 1)

def strCharsToBytesRev (s : List Nat) (charLen : Nat) : Nat :=
  if charLen = 0 then 0 else charsToBytesRevLoop s.reverse charLen 0


/-! ## Gap buffer (`src/gapbuffer.rs`) -/

/-- Byte length of a UTF-8 sequence given its lead byte (used by the
decoder). -/
def utf8SeqLen (b : Nat) : Nat :=
  if b < 0x80 then 1 else if b < 0xE0 then 2 else if b < 0xF0 then 3 else 4

/-- Decode a UTF-8 byte list into scalar values (junk on invalid input; the
inverse of `utf8Str` on valid encodings).  Models Rust `str::chars()`. -/
def utf8DecodeAux : Nat → List Nat → List Nat
  | 0, _ => []
  | _, [] => []
  | fuel + 1, b :: rest =>
    if b < 0x80 then b :: utf8DecodeAux fuel rest
    else if b < 0xE0 then
      ((b - 0xC0) * 64 + (rest.headD 0 - 0x80)) :: utf8DecodeAux fuel (rest.drop 1)
    else if b < 0xF0 then
      ((b - 0xE0) * 4096 + (rest.headD 0 - 0x80) * 64 +
        ((rest.drop 1).headD 0 - 0x80)) :: utf8DecodeAux fuel (rest.drop 2)
    else
      ((b - 0xF0) * 262144 + (rest.headD 0 - 0x80) * 4096 +
        ((rest.drop 1).headD 0 - 0x80) * 64 +
        ((rest.drop 2).headD 0 - 0x80)) :: utf8DecodeAux fuel (rest.drop 3)

def utf8Decode (l : List Nat) : List Nat := utf8DecodeAux l.length l

/-- Loop of `utf16_code_unit_to_char_idx` (fast_str_tools.rs:167), on the
decoded scalars. -/
def utf16ToCharLoop (u : Nat) : List Nat → Nat → Nat → Nat × Nat
  | [], ci, ui => (ci, ui)
  | c :: rest, ci, ui =>
    if u ≤ ui then (ci, ui)
    else utf16ToCharLoop u rest (ci + 1) (ui + utf16Len c)

def utf16CodeUnitToCharIdx (s : List Nat) (u : Nat) : Nat :=
  if u < (utf16ToCharLoop u s 0 0).2 then (utf16ToCharLoop u s 0 0).1 - 1
  else (utf16ToCharLoop u s 0 0).1

/-- `GapBuffer<LEN>` (gapbuffer.rs:5).  `LEN` is `data.length`; the `u16`
fields are modelled as `Nat` (all in-range in well-formed buffers). -/
structure GapBuffer where
  data : List Nat
  gapStartBytes : Nat
  gapStartChars : Nat
  gapStartSurrogatePairs : Nat
  gapLen : Nat
  allAscii : Bool
deriving DecidableEq

/-- `slice.copy_within(src..srcEnd, dst)`: memmove semantics on lists. -/
def copyWithin (l : List Nat) (src srcEnd dst : Nat) : List Nat :=
  l.take dst ++ (l.drop src).take (srcEnd - src) ++
    l.drop (dst + (srcEnd - src))

def GapBuffer.new (len : Nat) : GapBuffer :=
  ⟨List.replicate len 0, 0, 0, 0, len, true⟩

/-- In bytes (gapbuffer.rs:51). -/
def GapBuffer.lenBytes (b : GapBuffer) : Nat := b.data.length - b.gapLen

def GapBuffer.isEmpty (b : GapBuffer) : Bool := b.gapLen == b.data.length

def GapBuffer.startAsStr (b : GapBuffer) : List Nat :=
  b.data.take b.gapStartBytes

def GapBuffer.endAsStr (b : GapBuffer) : List Nat :=
  b.data.drop (b.gapStartBytes + b.gapLen)

/-- The observable contents: the two halves around the gap. -/
def GapBuffer.content (b : GapBuffer) : List Nat := b.startAsStr ++ b.endAsStr

def GapBuffer.countInternalChars (b : GapBuffer) (s : List Nat) : Nat :=
  if b.allAscii then s.length else countCharsInBytes s

def GapBuffer.intCountSurrogatePairs (b : GapBuffer) (s : List Nat) : Nat :=
  if b.allAscii then 0 else countUtf16SurrogatesInBytes s

def GapBuffer.intStrGetByteOffset (b : GapBuffer) (s : List Nat)
    (charPos : Nat) : Nat :=
  if b.allAscii then charPos else charToByteIdx s charPos

def GapBuffer.intCharsToBytesBackwards (b : GapBuffer) (s : List Nat)
    (charLen : Nat) : Nat :=
  if b.allAscii then charLen else strCharsToBytesRev s charLen

/-- `move_gap` (gapbuffer.rs:80).  The debug-only gap zeroing is omitted
(release semantics; the gap bytes are never observable). -/
def GapBuffer.moveGap (b : GapBuffer) (newStartBytes : Nat) : GapBuffer :=
  let currentStart := b.gapStartBytes
  if newStartBytes = currentStart then b
  else
    let len := b.gapLen
    if newStartBytes < currentStart then
      let s := (b.data.drop newStartBytes).take (currentStart - newStartBytes)
      let charLen := b.countInternalChars s
      let pairs := b.intCountSurrogatePairs s
      { b with
        gapStartSurrogatePairs := b.gapStartSurrogatePairs - pairs,
        gapStartChars := b.gapStartChars - charLen,
        data := copyWithin b.data newStartBytes currentStart
          (newStartBytes + len),
        gapStartBytes := newStartBytes }
    else
      let s := (b.data.drop (currentStart + len)).take
        (newStartBytes - currentStart)
      let charLen := b.countInternalChars s
      let pairs := b.intCountSurrogatePairs s
      { b with
        gapStartSurrogatePairs := b.gapStartSurrogatePairs + pairs,
        gapStartChars := b.gapStartChars + charLen,
        data := copyWithin b.data (currentStart + len)
          (newStartBytes + len) currentStart,
        gapStartBytes := newStartBytes }

/-- `insert_in_gap` (gapbuffer.rs:128).  The `assert!(len <= gap_len)` holds
at every call site reached under the theorems' hypotheses. -/
def GapBuffer.insertInGap (b : GapBuffer) (s : List Nat) : GapBuffer :=
  let len := s.length
  let charLen := countCharsInBytes s
  { b with
    data := b.data.take b.gapStartBytes ++ s ++
      b.data.drop (b.gapStartBytes + len),
    gapStartBytes := b.gapStartBytes + len,
    gapStartChars := b.gapStartChars + charLen,
    gapLen := b.gapLen - len,
    gapStartSurrogatePairs :=
      if len ≠ charLen then
        b.gapStartSurrogatePairs + countUtf16SurrogatesInBytes s
      else b.gapStartSurrogatePairs,
    allAscii := if len ≠ charLen then false else b.allAscii }

/-- `try_insert` (gapbuffer.rs:147); `none` models `Err(())`. -/
def GapBuffer.tryInsert (b : GapBuffer) (bytePos : Nat) (s : List Nat) :
    Option GapBuffer :=
  if s.length > b.gapLen then none
  else some ((b.moveGap bytePos).insertInGap s)

/-- `new_from_str` (gapbuffer.rs:39); the `unwrap` cannot fail at the call
sites reached under the theorems' hypotheses. -/
def GapBuffer.newFromStr (len : Nat) (s : List Nat) : GapBuffer :=
  ((GapBuffer.new len).tryInsert 0 s).getD (GapBuffer.new len)

/-- `remove_at_gap` (gapbuffer.rs:160), without the debug-only zeroing. -/
def GapBuffer.removeAtGap (b : GapBuffer) (delBytes : Nat) : GapBuffer :=
  { b with gapLen := b.gapLen + delBytes }

/-- `remove_chars` (gapbuffer.rs:185).  Returns the buffer and the number of
bytes removed. -/
def GapBuffer.removeChars (b : GapBuffer) (pos delLen : Nat) :
    GapBuffer × Nat :=
  if delLen = 0 then (b, 0)
  else
    let gapChars := b.gapStartChars
    let gapStartBytes0 := b.gapStartBytes
    if pos ≤ gapChars ∧ pos + delLen ≥ gapChars then
      if pos < gapChars then
        let rmStartBytes := b.intCharsToBytesBackwards b.startAsStr
          (gapChars - pos)
        let b1 : GapBuffer :=
          { b with
            gapStartSurrogatePairs :=
              if b.allAscii then b.gapStartSurrogatePairs
              else b.gapStartSurrogatePairs -
                countUtf16SurrogatesInBytes
                  ((b.data.drop (gapStartBytes0 - rmStartBytes)).take
                    rmStartBytes),
            gapLen := b.gapLen + rmStartBytes,
            gapStartChars := pos,
            gapStartBytes := b.gapStartBytes - rmStartBytes }
        let delLen1 := delLen - (gapChars - pos)
        if delLen1 = 0 then (b1, rmStartBytes)
        else
          let rmEndBytes := b1.intStrGetByteOffset b1.endAsStr delLen1
          (b1.removeAtGap rmEndBytes, rmStartBytes + rmEndBytes)
      else
        let rmEndBytes := b.intStrGetByteOffset b.endAsStr delLen
        (b.removeAtGap rmEndBytes, rmEndBytes)
    else
      let gapBytes :=
        if pos < gapChars then b.intStrGetByteOffset b.startAsStr pos
        else b.intStrGetByteOffset b.endAsStr (pos - gapChars) +
          b.gapStartBytes
      let b1 := b.moveGap gapBytes
      let rmEndBytes := b1.intStrGetByteOffset b1.endAsStr delLen
      (b1.removeAtGap rmEndBytes, rmEndBytes)

/-- `count_bytes` (gapbuffer.rs:254). -/
def GapBuffer.countBytes (b : GapBuffer) (charPos : Nat) : Nat :=
  if b.allAscii then charPos
  else
    let gapChars := b.gapStartChars
    let gapBytes := b.gapStartBytes
    if charPos = gapChars then gapBytes
    else if charPos < gapChars then
      b.intStrGetByteOffset b.startAsStr charPos
    else gapBytes + b.intStrGetByteOffset b.endAsStr (charPos - gapChars)

/-- `count_chars_in_wchars` (gapbuffer.rs:271). -/
def GapBuffer.countCharsInWchars (b : GapBuffer) (wcharPos : Nat) : Nat :=
  if b.allAscii then wcharPos
  else
    let gapChars := b.gapStartChars
    let gapPairs := b.gapStartSurrogatePairs
    let gapWchars := gapChars + gapPairs
    if wcharPos = gapWchars then gapChars
    else if wcharPos < gapWchars then
      if b.gapStartSurrogatePairs = 0 then wcharPos
      else utf16CodeUnitToCharIdx (utf8Decode b.startAsStr) wcharPos
    else gapChars +
      utf16CodeUnitToCharIdx (utf8Decode b.endAsStr) (wcharPos - gapWchars)

/-- `count_surrogate_pairs` (gapbuffer.rs:294). -/
def GapBuffer.countSurrogatePairs (b : GapBuffer) (charPos : Nat) : Nat :=
  if b.allAscii then 0
  else
    let gapChars := b.gapStartChars
    if charPos = gapChars then b.gapStartSurrogatePairs
    else if charPos < gapChars then
      if b.gapStartSurrogatePairs = 0 then 0
      else
        let bytes := b.intStrGetByteOffset b.startAsStr charPos
        countUtf16SurrogatesInBytes (b.data.take bytes)
    else
      let bytes := b.intStrGetByteOffset b.endAsStr (charPos - gapChars)
      let base := b.gapStartBytes + b.gapLen
      b.gapStartSurrogatePairs +
        countUtf16SurrogatesInBytes ((b.data.drop base).take bytes)

/-- `take_rest` (gapbuffer.rs:319): logically empties the suffix and returns
it. -/
def GapBuffer.takeRest (b : GapBuffer) : GapBuffer × List Nat :=
  let lastIdx := b.gapStartBytes + b.gapLen
  ({ b with gapLen := b.data.length - b.gapStartBytes },
    b.data.drop lastIdx)

/-- The well-formedness invariant of a gap buffer (the properties audited by
`GapBuffer::check` plus the structural facts the implementation maintains),
relative to the scalar contents `pre`/`suf` of the two halves. -/
def GapBuffer.WF (b : GapBuffer) (pre suf : List Nat) : Prop :=
  b.startAsStr = utf8Str pre ∧
  b.endAsStr = utf8Str suf ∧
  b.gapStartBytes = (utf8Str pre).length ∧
  b.gapStartChars = pre.length ∧
  b.gapStartSurrogatePairs = pre.countP (fun c => decide (0x10000 ≤ c)) ∧
  b.gapStartBytes + b.gapLen ≤ b.data.length ∧
  b.data.length = b.gapStartBytes + b.gapLen + (utf8Str suf).length ∧
  ValidStr pre ∧ ValidStr suf ∧
  (b.allAscii = true → ∀ c ∈ pre ++ suf, c < 0x80)

instance (b : GapBuffer) (pre suf : List Nat) : Decidable (b.WF pre suf) := by
  unfold GapBuffer.WF; infer_instance



/-! ## The skip-list rope (`jumprope.rs`)

The heap of nodes is modelled as a list with the head node at index 0 and
pointers as indices (`Option Nat`, `none` for null).  The `SmallRng` is
modelled as an arbitrary stream `rng : Nat → Nat` of draws together with a
cursor `rngIdx` into it; `rng.gen::<u8>()` reads `rng rngIdx % 256` and
advances the cursor.  The theorems below quantify over every stream, so in
particular they hold for the stream produced by the seeded generator. -/

def NODE_STR_SIZE : Nat := 392

def MAX_HEIGHT : Nat := 20

def BIAS : Nat := 65

structure SkipEntry where
  node : Option Nat
  skipChars : Nat
  skipPairs : Nat
deriving DecidableEq

structure Node where
  str : GapBuffer
  height : Nat
  nexts : List SkipEntry
deriving DecidableEq

/-- `Node::new_with_height` (jumprope.rs:204). -/
def Node.newWithHeight (height : Nat) (content : List Nat) : Node :=
  ⟨GapBuffer.newFromStr NODE_STR_SIZE content, height,
    List.replicate (MAX_HEIGHT + 1) ⟨none, 0, 0⟩⟩

/-- `Node::num_chars` (jumprope.rs:267): `first_next().skip_chars`. -/
def Node.numChars (n : Node) : Nat :=
  (n.nexts.getD 0 ⟨none, 0, 0⟩).skipChars

/-- `Node::num_surrogate_pairs` (jumprope.rs:272). -/
def Node.numSurrogatePairs (n : Node) : Nat :=
  (n.nexts.getD 0 ⟨none, 0, 0⟩).skipPairs

/-- The loop of `random_height` (jumprope.rs:163): while `h < MAX_HEIGHT`
and the next byte draw is `< BIAS`, increment `h`.  Returns the height and
the advanced stream index.  The fuel `MAX_HEIGHT` covers the at most
`MAX_HEIGHT - 1` iterations exactly. -/
def randomHeightAux (rng : Nat → Nat) : Nat → Nat → Nat → Nat × Nat
  | idx, h, 0 => (h, idx)
  | idx, h, fuel + 1 =>
    if h < MAX_HEIGHT then
      if rng idx % 256 < BIAS then randomHeightAux rng (idx + 1) (h + 1) fuel
      else (h, idx + 1)
    else (h, idx)

def randomHeight (rng : Nat → Nat) (idx : Nat) : Nat × Nat :=
  randomHeightAux rng idx 1 MAX_HEIGHT

structure JumpRope where
  rng : Nat → Nat
  rngIdx : Nat
  numBytes : Nat
  heap : List Node

/-- Dereference a node pointer (out-of-range access yields a junk node;
never reached under the theorems' hypotheses). -/
def JumpRope.node (r : JumpRope) (a : Nat) : Node :=
  r.heap.getD a (Node.newWithHeight 1 [])

def JumpRope.setNode (r : JumpRope) (a : Nat) (n : Node) : JumpRope :=
  { r with heap := r.heap.set a n }

def JumpRope.head (r : JumpRope) : Node := r.node 0

/-- `JumpRope::new_with_rng` (jumprope.rs:346). -/
def JumpRope.newWithRng (rng : Nat → Nat) (idx : Nat) : JumpRope :=
  ⟨rng, idx, 0, [Node.newWithHeight 1 []]⟩

/-- `JumpRope::len_chars` (jumprope.rs:420). -/
def JumpRope.lenChars (r : JumpRope) : Nat :=
  (r.head.nexts.getD (r.head.height - 1) ⟨none, 0, 0⟩).skipChars

/-- `JumpRope::len_wchars` (jumprope.rs:429). -/
def JumpRope.lenWchars (r : JumpRope) : Nat :=
  let e := r.head.nexts.getD (r.head.height - 1) ⟨none, 0, 0⟩
  e.skipPairs + e.skipChars

/-- `JumpRope::len_bytes` (jumprope.rs:1223). -/
def JumpRope.lenBytes (r : JumpRope) : Nat := r.numBytes

/-- `JumpRope::is_empty` (jumprope.rs:1226). -/
def JumpRope.ropeIsEmpty (r : JumpRope) : Bool := r.numBytes == 0

/-- A recorded cursor entry (the `SkipEntry`s inside a `RopeCursor`; their
node pointers always name real nodes when read). -/
structure CursorEntry where
  node : Nat
  skipChars : Nat
  skipPairs : Nat
deriving DecidableEq

/-- The descent loop shared verbatim by `mut_cursor_at_char`
(jumprope.rs:457-495) and `old_cursor_at_char` (jumprope.rs:525-562).
Arguments: node address `e`, level `height`, remaining character offset,
surrogate pairs passed so far, the cursor being built, and fuel bounding
the rightward hops (each hop advances to a later node). -/
def cursorWalkChar (r : JumpRope) (stickEnd : Bool) :
    Nat → Nat → Nat → Nat → List CursorEntry → Nat →
    List CursorEntry × Nat × Nat × Nat
  | e, _, offset, pairs, iter, 0 => (iter, e, offset, pairs)
  | e, height, offset, pairs, iter, fuel + 1 =>
    let en := r.node e
    let next := en.nexts.getD height ⟨none, 0, 0⟩
    let skip := next.skipChars
    if offset > skip ∨ (¬stickEnd ∧ offset = skip ∧ next.node ≠ none) then
      cursorWalkChar r stickEnd (next.node.getD 0) height (offset - skip)
        (pairs + next.skipPairs) iter fuel
    else
      let iter := iter.set height ⟨e, offset, pairs⟩
      if height ≠ 0 then
        cursorWalkChar r stickEnd e (height - 1) offset pairs iter fuel
      else (iter, e, offset, pairs)

/-- The surrogate-pair fixup at the bottom of the character cursor walk
(jumprope.rs:486-490): every entry below the head height is rewritten to
`pairs - entry.skip_pairs`. -/
def fixupPairs (iter : List CursorEntry) (headHeight pairs : Nat) :
    List CursorEntry :=
  iter.mapIdx fun i e =>
    if i < headHeight then { e with skipPairs := pairs - e.skipPairs } else e

/-- `mut_cursor_at_char` (jumprope.rs:439), reduced to the `RopeCursor` it
builds (the rng/byte-count borrows are threaded separately). -/
def JumpRope.mutCursorAtChar (r : JumpRope) (charPos : Nat)
    (stickEnd : Bool) : List CursorEntry :=
  match cursorWalkChar r stickEnd 0 (r.head.height - 1) charPos 0
      (List.replicate (MAX_HEIGHT + 1) ⟨0, 0, 0⟩)
      (r.heap.length + MAX_HEIGHT + 1) with
  | (iter, e, offset, pairs0) =>
    let pairs := pairs0 + (r.node e).str.countSurrogatePairs offset
    if pairs > 0 then fixupPairs iter r.head.height pairs else iter

/-- `old_cursor_at_char` (jumprope.rs:512).  Its loop body is identical to
`mut_cursor_at_char`; the only source-level difference is the initial node
pointers of the entries at and above the head height, which none of the
functions modelled here ever read. -/
def JumpRope.oldCursorAtChar (r : JumpRope) (charPos : Nat)
    (stickEnd : Bool) : List CursorEntry :=
  r.mutCursorAtChar charPos stickEnd

/-- The descent loop of `cursor_at_wchar` (jumprope.rs:582-613). -/
def cursorWalkWchar (r : JumpRope) (stickEnd : Bool) :
    Nat → Nat → Nat → Nat → List CursorEntry → Nat →
    List CursorEntry × Nat × Nat × Nat
  | e, _, offset, charPos, iter, 0 => (iter, e, offset, charPos)
  | e, height, offset, charPos, iter, fuel + 1 =>
    let en := r.node e
    let next := en.nexts.getD height ⟨none, 0, 0⟩
    let skip := next.skipChars + next.skipPairs
    if offset > skip ∨ (¬stickEnd ∧ offset = skip ∧ next.node ≠ none) then
      cursorWalkWchar r stickEnd (next.node.getD 0) height (offset - skip)
        (charPos + next.skipChars) iter fuel
    else
      let iter := iter.set height ⟨e, charPos, offset⟩
      if height ≠ 0 then
        cursorWalkWchar r stickEnd e (height - 1) offset charPos iter fuel
      else (iter, e, offset, charPos)

/-- The fixup at the bottom of the wchar cursor walk (jumprope.rs:605-609).
Note `entry.skip_pairs -= skip_chars` uses the freshly written
`skip_chars`. -/
def fixupWchar (iter : List CursorEntry) (headHeight charPos : Nat) :
    List CursorEntry :=
  iter.mapIdx fun i e =>
    if i < headHeight then
      ⟨e.node, charPos - e.skipChars, e.skipPairs - (charPos - e.skipChars)⟩
    else e

/-- `cursor_at_wchar` (jumprope.rs:570). -/
def JumpRope.cursorAtWchar (r : JumpRope) (wcharPos : Nat)
    (stickEnd : Bool) : List CursorEntry :=
  match cursorWalkWchar r stickEnd 0 (r.head.height - 1) wcharPos 0
      (List.replicate (MAX_HEIGHT + 1) ⟨0, 0, 0⟩)
      (r.heap.length + MAX_HEIGHT + 1) with
  | (iter, e, offset, charPos0) =>
    let charPos := charPos0 + (r.node e).str.countCharsInWchars offset
    fixupWchar iter r.head.height charPos

/-- `JumpRope::chars_to_wchars` (jumprope.rs:1363):
`old_cursor_at_char(chars, true).wchar_pos(head.height)`. -/
def JumpRope.charsToWchars (r : JumpRope) (chars : Nat) : Nat :=
  let c := r.oldCursorAtChar chars true
  let e := c.getD (r.head.height - 1) ⟨0, 0, 0⟩
  e.skipChars + e.skipPairs

/-- `JumpRope::wchars_to_chars` (jumprope.rs:1373):
`cursor_at_wchar(wchars, true).global_char_pos(head.height)`. -/
def JumpRope.wcharsToChars (r : JumpRope) (wchars : Nat) : Nat :=
  let c := r.cursorAtWchar wchars true
  (c.getD (r.head.height - 1) ⟨0, 0, 0⟩).skipChars

/-- Exact `usize::wrapping_add` with an `isize` cast to `usize`
(two's-complement addition modulo `2^64`). -/
def usizeWrapAddInt (a : Nat) (d : Int) : Nat :=
  (((a : Int) + d) % (2 ^ 64 : Int)).toNat

/-- Exact `usize` subtraction in release mode (wrapping). -/
def usizeSub (a b : Nat) : Nat := (2 ^ 64 + a - b) % 2 ^ 64

/-- The loop of `RopeCursor::update_offsets` (jumprope.rs:294): for each
level below `height`, bump the skip counts of the entry on the heap that
the cursor points at. -/
def updateOffsetsLoop (cursor : List CursorEntry) (byChars byPairs : Int) :
    JumpRope → Nat → Nat → JumpRope
  | r, _, 0 => r
  | r, i, k + 1 =>
    let a := (cursor.getD i ⟨0, 0, 0⟩).node
    let nd := r.node a
    let entry := nd.nexts.getD i ⟨none, 0, 0⟩
    let entry := { entry with
      skipChars := usizeWrapAddInt entry.skipChars byChars,
      skipPairs := usizeWrapAddInt entry.skipPairs byPairs }
    let r := r.setNode a { nd with nexts := nd.nexts.set i entry }
    updateOffsetsLoop cursor byChars byPairs r (i + 1) k

def updateOffsets (r : JumpRope) (cursor : List CursorEntry) (height : Nat)
    (byChars byPairs : Int) : JumpRope :=
  updateOffsetsLoop cursor byChars byPairs r 0 height

/-- `RopeCursor::move_within_node` (jumprope.rs:311). -/
def moveWithinNode (cursor : List CursorEntry) (height : Nat)
    (byChars byPairs : Int) : List CursorEntry :=
  cursor.mapIdx fun i e =>
    if i < height then
      { e with skipChars := usizeWrapAddInt e.skipChars byChars,
               skipPairs := usizeWrapAddInt e.skipPairs byPairs }
    else e

/-- The head-raising loop of `insert_node_at` (jumprope.rs:658-672).
Copies the head entry and cursor entry down a level, then bumps the head
height stored in the node at `cursor[MAX_HEIGHT]`. -/
def insertRaiseLoop (newHeight : Nat) :
    JumpRope → List CursorEntry → Nat → Nat →
    JumpRope × List CursorEntry × Nat
  | r, cursor, headHeight, 0 => (r, cursor, headHeight)
  | r, cursor, headHeight, fuel + 1 =>
    if headHeight ≤ newHeight then
      let ha := (cursor.getD headHeight ⟨0, 0, 0⟩).node
      let hd := r.node ha
      let hd2 : Node := { hd with
        nexts := hd.nexts.set headHeight
          (hd.nexts.getD (headHeight - 1) ⟨none, 0, 0⟩) }
      let r := r.setNode ha hd2
      let cursor := cursor.set headHeight
        (cursor.getD (headHeight - 1) ⟨0, 0, 0⟩)
      let headHeight := headHeight + 1
      let hA := (cursor.getD MAX_HEIGHT ⟨0, 0, 0⟩).node
      let hn := r.node hA
      let r := r.setNode hA { hn with height := headHeight }
      insertRaiseLoop newHeight r cursor headHeight fuel
    else (r, cursor, headHeight)

/-- The splicing loop of `insert_node_at` (jumprope.rs:674-696), for
levels `0 ≤ i < new_height`. -/
def insertLinkLoop (newAddr numChars numPairs : Nat) (updateCursor : Bool) :
    JumpRope → List CursorEntry → Nat → Nat →
    JumpRope × List CursorEntry
  | r, cursor, _, 0 => (r, cursor)
  | r, cursor, i, k + 1 =>
    let ce := cursor.getD i ⟨0, 0, 0⟩
    let prevNode := r.node ce.node
    let prevSkip := prevNode.nexts.getD i ⟨none, 0, 0⟩
    let nn := r.node newAddr
    let newEntry : SkipEntry :=
      ⟨prevSkip.node, numChars + prevSkip.skipChars - ce.skipChars,
        numPairs + prevSkip.skipPairs - ce.skipPairs⟩
    let r := r.setNode newAddr { nn with nexts := nn.nexts.set i newEntry }
    let prevNode := r.node ce.node
    let prevEntry : SkipEntry := ⟨some newAddr, ce.skipChars, ce.skipPairs⟩
    let r := r.setNode ce.node
      { prevNode with nexts := prevNode.nexts.set i prevEntry }
    let cursor :=
      if updateCursor then cursor.set i ⟨newAddr, numChars, numPairs⟩
      else cursor
    insertLinkLoop newAddr numChars numPairs updateCursor r cursor (i + 1) k

/-- The counting loop of `insert_node_at` (jumprope.rs:698-712), for
levels `new_height ≤ i < head_height`. -/
def insertCountLoop (numChars numPairs : Nat) (updateCursor : Bool) :
    JumpRope → List CursorEntry → Nat → Nat →
    JumpRope × List CursorEntry
  | r, cursor, _, 0 => (r, cursor)
  | r, cursor, i, k + 1 =>
    let ce := cursor.getD i ⟨0, 0, 0⟩
    let nd := r.node ce.node
    let entry := nd.nexts.getD i ⟨none, 0, 0⟩
    let entry2 : SkipEntry :=
      { entry with skipChars := entry.skipChars + numChars,
                   skipPairs := entry.skipPairs + numPairs }
    let r := r.setNode ce.node { nd with nexts := nd.nexts.set i entry2 }
    let ce2 : CursorEntry :=
      { ce with skipChars := ce.skipChars + numChars,
                skipPairs := ce.skipPairs + numPairs }
    let cursor := if updateCursor then cursor.set i ce2 else cursor
    insertCountLoop numChars numPairs updateCursor r cursor (i + 1) k

/-- `insert_node_at` (jumprope.rs:637): allocate a node of random height at
the end of the heap, raise the head if needed, splice the node in, and
bump the byte count. -/
def insertNodeAt (r : JumpRope) (cursor : List CursorEntry)
    (contents : List Nat) (numChars : Nat) (updateCursor : Bool)
    (numPairs : Nat) : JumpRope × List CursorEntry :=
  match randomHeight r.rng r.rngIdx with
  | (newHeight, idx1) =>
    let newAddr := r.heap.length
    let r := { r with
      rngIdx := idx1,
      heap := r.heap ++ [Node.newWithHeight newHeight contents] }
    let headHeight := (r.node (cursor.getD MAX_HEIGHT ⟨0, 0, 0⟩).node).height
    match insertRaiseLoop newHeight r cursor headHeight (MAX_HEIGHT + 1) with
    | (r, cursor, headHeight) =>
      match insertLinkLoop newAddr numChars numPairs updateCursor r cursor 0
          newHeight with
      | (r, cursor) =>
        match insertCountLoop numChars numPairs updateCursor r cursor
            newHeight (headHeight - newHeight) with
        | (r, cursor) =>
          ({ r with numBytes := r.numBytes + contents.length }, cursor)

/-- The boundary-backtracking loop of the chunking code in
`insert_at_cursor` (jumprope.rs:861-867): slide `byte_pos` down while it
points at a UTF-8 continuation byte. -/
def slideBack (bytes : List Nat) : Nat → Nat
  | 0 => 0
  | p + 1 =>
    if isCharBoundary (bytes.getD (p + 1) 0) then p + 1
    else slideBack bytes p

/-- The chunking loop of `insert_at_cursor` (jumprope.rs:850-883): split
the contents into pieces of at most `NODE_STR_SIZE` bytes at character
boundaries and insert a node for each. -/
def insertChunksLoop :
    JumpRope → List CursorEntry → List Nat → Nat → Nat → Nat →
    JumpRope × List CursorEntry
  | r, cursor, _, _, _, 0 => (r, cursor)
  | r, cursor, remainder, numInsChars, numInsPairs, fuel + 1 =>
    if remainder.length ≤ NODE_STR_SIZE then
      insertNodeAt r cursor remainder numInsChars true numInsPairs
    else
      let bytePos := slideBack remainder NODE_STR_SIZE
      let slice := remainder.take bytePos
      let charPos := countCharsInBytes slice
      let pairs := countUtf16SurrogatesInBytes slice
      match insertNodeAt r cursor slice charPos true pairs with
      | (r, cursor) =>
        insertChunksLoop r cursor (remainder.drop bytePos)
          (numInsChars - charPos) (numInsPairs - pairs) fuel

/-- `insert_at_cursor` (jumprope.rs:718). -/
def insertAtCursor (r : JumpRope) (cursor : List CursorEntry)
    (contents : List Nat) : JumpRope × List CursorEntry :=
  if contents.isEmpty then (r, cursor)
  else
    let offsetChars := (cursor.getD 0 ⟨0, 0, 0⟩).skipChars
    let headHeight := (r.node (cursor.getD MAX_HEIGHT ⟨0, 0, 0⟩).node).height
    let e := (cursor.getD 0 ⟨0, 0, 0⟩).node
    let numInsertedBytes := contents.length
    let numInsertedChars := countCharsInBytes contents
    let numInsertedPairs :=
      if numInsertedBytes ≠ numInsertedChars then
        countUtf16SurrogatesInBytes contents
      else 0
    let en := r.node e
    if en.str.gapStartChars = offsetChars ∧
        en.str.gapLen ≥ numInsertedBytes then
      let r := r.setNode e { en with str := en.str.insertInGap contents }
      let r := updateOffsets r cursor headHeight numInsertedChars
        numInsertedPairs
      let cursor := moveWithinNode cursor headHeight numInsertedChars
        numInsertedPairs
      ({ r with numBytes := r.numBytes + numInsertedBytes }, cursor)
    else
      let offsetBytes :=
        if offsetChars > 0 then en.str.countBytes offsetChars else 0
      let currentLenBytes := en.str.lenBytes
      let insertHere :=
        decide (currentLenBytes + numInsertedBytes ≤ NODE_STR_SIZE)
      match
        (if insertHere = false ∧ offsetBytes = currentLenBytes then
          match (en.nexts.getD 0 ⟨none, 0, 0⟩).node with
          | some nextAddr =>
            let nextNode := r.node nextAddr
            if nextNode.str.lenBytes + numInsertedBytes ≤ NODE_STR_SIZE then
              (nextAddr, 0,
                cursor.mapIdx fun i ce =>
                  if i < nextNode.height then ⟨nextAddr, 0, 0⟩ else ce,
                true)
            else (e, offsetBytes, cursor, insertHere)
          | none => (e, offsetBytes, cursor, insertHere)
        else (e, offsetBytes, cursor, insertHere)) with
      | (e, offsetBytes, cursor, insertHere) =>
        if insertHere then
          let en := r.node e
          let str2 := (en.str.tryInsert offsetBytes contents).getD en.str
          let r := r.setNode e { en with str := str2 }
          let r := { r with numBytes := r.numBytes + numInsertedBytes }
          let r := updateOffsets r cursor headHeight numInsertedChars
            numInsertedPairs
          let cursor := moveWithinNode cursor headHeight numInsertedChars
            numInsertedPairs
          (r, cursor)
        else
          let en := r.node e
          let str2 := en.str.moveGap offsetBytes
          let r := r.setNode e { en with str := str2 }
          let numEndBytes := str2.lenBytes - offsetBytes
          let numEndChars := en.numChars - offsetChars
          let numEndPairs :=
            en.numSurrogatePairs - str2.gapStartSurrogatePairs
          let r :=
            if numEndBytes > 0 then
              let r := updateOffsets r cursor headHeight
                (-(numEndChars : Int)) (-(numEndPairs : Int))
              { r with numBytes := r.numBytes - numEndBytes }
            else r
          match insertChunksLoop r cursor contents numInsertedChars
              numInsertedPairs (contents.length + 1) with
          | (r, cursor) =>
            if numEndBytes > 0 then
              let en2 := r.node e
              match en2.str.takeRest with
              | (str3, endStr) =>
                let r := r.setNode e { en2 with str := str3 }
                insertNodeAt r cursor endStr numEndChars false numEndPairs
            else (r, cursor)

/-- The unlinking loop of `del_at_cursor` (jumprope.rs:940-947). -/
def delUnlinkLoop (cursor : List CursorEntry)
    (nodeAddr removed removedPairs : Nat) :
    JumpRope → Nat → Nat → JumpRope
  | r, _, 0 => r
  | r, i, k + 1 =>
    let ce := cursor.getD i ⟨0, 0, 0⟩
    let prev := r.node ce.node
    let s := prev.nexts.getD i ⟨none, 0, 0⟩
    let dn := (r.node nodeAddr).nexts.getD i ⟨none, 0, 0⟩
    let s2 : SkipEntry :=
      ⟨dn.node, s.skipChars + (dn.skipChars - removed),
        s.skipPairs + (dn.skipPairs - removedPairs)⟩
    let r := r.setNode ce.node { prev with nexts := prev.nexts.set i s2 }
    delUnlinkLoop cursor nodeAddr removed removedPairs r (i + 1) k

/-- The level-count loop of `del_at_cursor` (jumprope.rs:956-962), for
levels `height ≤ i < cursor.height()`. -/
def delCountLoop (cursor : List CursorEntry) (removed removedPairs : Nat) :
    JumpRope → Nat → Nat → JumpRope
  | r, _, 0 => r
  | r, i, k + 1 =>
    let ce := cursor.getD i ⟨0, 0, 0⟩
    let nd := r.node ce.node
    let s := nd.nexts.getD i ⟨none, 0, 0⟩
    let s2 : SkipEntry :=
      { s with skipChars := s.skipChars - removed,
               skipPairs := s.skipPairs - removedPairs }
    let r := r.setNode ce.node { nd with nexts := nd.nexts.set i s2 }
    delCountLoop cursor removed removedPairs r (i + 1) k

/-- The main loop of `del_at_cursor` (jumprope.rs:903-965).  Each
iteration removes at least one character, so `length` bounds the
iteration count; `removed = 0` is the `assert!(removed > 0)` panic,
modelled by returning the state unchanged. -/
def delAtCursorLoop (cursor : List CursorEntry) :
    JumpRope → Nat → Nat → Nat → Nat → JumpRope
  | r, _, _, _, 0 => r
  | r, offsetChars, nodeAddr, length, fuel + 1 =>
    if length = 0 then r
    else
      let s := (r.node nodeAddr).nexts.getD 0 ⟨none, 0, 0⟩
      match
        (if offsetChars = s.skipChars then (s.node.getD 0, 0)
         else (nodeAddr, offsetChars)) with
      | (nodeAddr, offsetChars) =>
        let nd := r.node nodeAddr
        let numChars := nd.numChars
        let removed := min length (numChars - offsetChars)
        if removed = 0 then r
        else
          let removedPairs :=
            nd.str.countSurrogatePairs (offsetChars + removed) -
              nd.str.countSurrogatePairs offsetChars
          let height := nd.height
          let headAddr := (cursor.getD MAX_HEIGHT ⟨0, 0, 0⟩).node
          match
            (if removed < numChars ∨ nodeAddr = headAddr then
              match nd.str.removeChars offsetChars removed with
              | (str2, removedBytes) =>
                let nexts2 := nd.nexts.mapIdx fun i se =>
                  if i < height then
                    { se with skipChars := se.skipChars - removed,
                              skipPairs := se.skipPairs - removedPairs }
                  else se
                let nd2 : Node := { nd with str := str2, nexts := nexts2 }
                let r := r.setNode nodeAddr nd2
                ({ r with numBytes := r.numBytes - removedBytes }, nodeAddr)
            else
              let r := delUnlinkLoop cursor nodeAddr removed removedPairs
                r 0 height
              let r := { r with numBytes := r.numBytes - nd.str.lenBytes }
              (r, ((r.node nodeAddr).nexts.getD 0 ⟨none, 0, 0⟩).node.getD 0))
          with
          | (r, nodeAddr) =>
            let cursorHeight :=
              (r.node (cursor.getD MAX_HEIGHT ⟨0, 0, 0⟩).node).height
            let r := delCountLoop cursor removed removedPairs r height
              (cursorHeight - height)
            delAtCursorLoop cursor r offsetChars nodeAddr (length - removed)
              fuel

/-- `del_at_cursor` (jumprope.rs:898). -/
def delAtCursor (r : JumpRope) (cursor : List CursorEntry) (length : Nat) :
    JumpRope :=
  if length = 0 then r
  else
    delAtCursorLoop cursor r (cursor.getD 0 ⟨0, 0, 0⟩).skipChars
      (cursor.getD 0 ⟨0, 0, 0⟩).node length (length + 1)

/-- `JumpRope::insert` (jumprope.rs:1137). -/
def JumpRope.insert (r : JumpRope) (pos : Nat) (contents : List Nat) :
    JumpRope :=
  if contents.isEmpty then r
  else
    let pos := min pos r.lenChars
    let cursor := r.mutCursorAtChar pos true
    (insertAtCursor r cursor contents).1

/-- `JumpRope::remove` (jumprope.rs:1164). -/
def JumpRope.remove (r : JumpRope) (rangeStart rangeEnd : Nat) : JumpRope :=
  let rangeEnd := min rangeEnd r.lenChars
  if rangeStart ≥ rangeEnd then r
  else
    let cursor := r.mutCursorAtChar rangeStart true
    delAtCursor r cursor (rangeEnd - rangeStart)

/-- `JumpRope::replace` (jumprope.rs:1190): one shared cursor for the
delete and the insert. -/
def JumpRope.replace (r : JumpRope) (rangeStart rangeEnd : Nat)
    (content : List Nat) : JumpRope :=
  let len := r.lenChars
  let pos := min rangeStart len
  let delLen := min rangeEnd len - pos
  let cursor := r.mutCursorAtChar pos true
  let r := if delLen > 0 then delAtCursor r cursor delLen else r
  if ¬content.isEmpty then (insertAtCursor r cursor content).1 else r

/-- `JumpRope::new` / `new_from_seed` (jumprope.rs:372, 392): without the
`ddos_protection` feature this is a seeded `SmallRng`, abstracted here as
the stream parameter. -/
def JumpRope.new (rng : Nat → Nat) : JumpRope := JumpRope.newWithRng rng 0

/-- `JumpRope::new_from_str` (jumprope.rs:396) and `From<&str>`
(jumprope.rs:1002). -/
def JumpRope.fromStr (rng : Nat → Nat) (s : List Nat) : JumpRope :=
  (JumpRope.new rng).insert 0 s

/-- The `Display` implementation (jumprope.rs:1069): concatenate both
halves of every node along the level-0 chain, starting at the head. -/
def toStringLoop (r : JumpRope) : Option Nat → Nat → List Nat
  | none, _ => []
  | some _, 0 => []
  | some a, fuel + 1 =>
    let n := r.node a
    n.str.startAsStr ++ n.str.endAsStr ++
      toStringLoop r (n.nexts.getD 0 ⟨none, 0, 0⟩).node fuel

def JumpRope.toStringBytes (r : JumpRope) : List Nat :=
  toStringLoop r (some 0) (r.heap.length + 1)

/-! ## The buffered wrapper (`buffered.rs`) -/

inductive Kind where
  | Ins : Kind
  | Del : Kind
deriving DecidableEq

/-- `BufferedOp` (buffered.rs:50): the single pending operation. -/
structure BufferedOp where
  kind : Kind
  insContent : List Nat
  rangeStart : Nat
  rangeEnd : Nat
deriving DecidableEq

/-- `Op` (buffered.rs:58). -/
inductive Op where
  | Ins : Nat → List Nat → Op
  | Del : Nat → Nat → Op
deriving DecidableEq

/-- `BufferedOp::new` (buffered.rs:64). -/
def BufferedOp.new : BufferedOp := ⟨Kind.Ins, [], 0, 0⟩

/-- `BufferedOp::is_empty` (buffered.rs:72): `Range::is_empty`. -/
def BufferedOp.isEmpty (op : BufferedOp) : Bool :=
  ¬ op.rangeStart < op.rangeEnd

/-- `BufferedOp::len` (buffered.rs:78): `Range::len`, which is
`end - start` (`0` when `start > end`). -/
def BufferedOp.len (op : BufferedOp) : Nat := op.rangeEnd - op.rangeStart

/-- `BufferedOp::clear` (buffered.rs:82): the tag is kept. -/
def BufferedOp.clear (op : BufferedOp) : BufferedOp :=
  { op with insContent := [], rangeStart := 0, rangeEnd := 0 }

/-- `BufferedOp::try_append` (buffered.rs:88); `none` models `Err(())`. -/
def BufferedOp.tryAppend (op : BufferedOp) (o : Op) : Option BufferedOp :=
  if op.isEmpty then
    match o with
    | Op.Ins pos content =>
      some ⟨Kind.Ins, op.insContent ++ content, pos,
        pos + countCharsInBytes content⟩
    | Op.Del s e => some ⟨Kind.Del, op.insContent, s, e⟩
  else
    match op.kind, o with
    | Kind.Ins, Op.Ins pos content =>
      if pos = op.rangeEnd then
        some { op with
          insContent := op.insContent ++ content,
          rangeEnd := op.rangeEnd + countCharsInBytes content }
      else none
    | Kind.Ins, Op.Del s e =>
      if e = op.rangeEnd ∧ s ≥ op.rangeStart then
        if s = op.rangeStart then
          some { op with insContent := [], rangeEnd := op.rangeStart }
        else
          let charOffset := s - op.rangeStart
          let byteOffset :=
            if op.rangeEnd - op.rangeStart = op.insContent.length then
              charOffset
            else charToByteIdx op.insContent charOffset
          some { op with
            rangeEnd := s,
            insContent := op.insContent.take byteOffset }
      else none
    | Kind.Del, Op.Del s e =>
      if s ≤ op.rangeStart ∧ e ≥ op.rangeStart then
        some { op with
          rangeEnd := op.rangeEnd + (e - op.rangeStart),
          rangeStart := s }
      else none
    | _, _ => none

/-- The `JumpRopeBuf` state: the rope plus the pending op
(buffered.rs:47). -/
structure JumpRopeBuf where
  rope : JumpRope
  op : BufferedOp

/-- `JumpRopeBuf::flush_mut` (buffered.rs:174). -/
def JumpRopeBuf.flushMut (b : JumpRopeBuf) : JumpRopeBuf :=
  if ¬ b.op.isEmpty then
    match b.op.kind with
    | Kind.Ins =>
      ⟨b.rope.insert b.op.rangeStart b.op.insContent, b.op.clear⟩
    | Kind.Del =>
      ⟨b.rope.remove b.op.rangeStart b.op.rangeEnd, b.op.clear⟩
  else b

/-- `JumpRopeBuf::internal_push_op` (buffered.rs:193).  After a flush the
pending op is empty, so the retried `try_append` cannot fail; the
`unwrap` is modelled by `getD`. -/
def JumpRopeBuf.internalPushOp (b : JumpRopeBuf) (o : Op) : JumpRopeBuf :=
  match b.op.tryAppend o with
  | some op2 => ⟨b.rope, op2⟩
  | none =>
    let b2 := b.flushMut
    ⟨b2.rope, (b2.op.tryAppend o).getD b2.op⟩

/-- `JumpRopeBuf::insert` (buffered.rs:210). -/
def JumpRopeBuf.insert (b : JumpRopeBuf) (pos : Nat) (content : List Nat) :
    JumpRopeBuf :=
  b.internalPushOp (Op.Ins pos content)

/-- `JumpRopeBuf::remove` (buffered.rs:217). -/
def JumpRopeBuf.remove (b : JumpRopeBuf) (rangeStart rangeEnd : Nat) :
    JumpRopeBuf :=
  b.internalPushOp (Op.Del rangeStart rangeEnd)

/-- `JumpRopeBuf::len_chars` (buffered.rs:227).  The `Del` branch is a
plain `usize` subtraction, which wraps in release mode. -/
def JumpRopeBuf.lenChars (b : JumpRopeBuf) : Nat :=
  match b.op.kind with
  | Kind.Ins => b.rope.lenChars + b.op.len
  | Kind.Del => usizeSub b.rope.lenChars b.op.len

/-- `JumpRopeBuf::is_empty` (buffered.rs:249). -/
def JumpRopeBuf.bufIsEmpty (b : JumpRopeBuf) : Bool :=
  let lenChars := b.rope.lenChars
  match b.op.kind with
  | Kind.Ins => lenChars == 0 && b.op.isEmpty
  | Kind.Del => usizeSub lenChars b.op.len == 0

/-- `JumpRopeBuf::into_inner` (buffered.rs:259). -/
def JumpRopeBuf.intoInner (b : JumpRopeBuf) : JumpRope :=
  b.flushMut.rope

/-- `JumpRopeBuf::new_from_str` / `From` (buffered.rs:170, 327). -/
def JumpRopeBuf.fromStr (rng : Nat → Nat) (s : List Nat) : JumpRopeBuf :=
  ⟨JumpRope.fromStr rng s, BufferedOp.new⟩



/-- A rope whose heap holds the head node alone: the shape produced by the
operations below while the contents fit in one gap buffer. -/
def JumpRope.single (rng : Nat → Nat) (idx nb : Nat) (b : GapBuffer)
    (C P : Nat) : JumpRope :=
  ⟨rng, idx, nb,
    [⟨b, 1, (⟨none, C, P⟩ : SkipEntry) ::
      List.replicate MAX_HEIGHT ⟨none, 0, 0⟩⟩]⟩

/-- The cursor produced by `mut_cursor_at_char` on a single-node rope when
no surrogate pairs precede the position. -/
def singleCursor (pos : Nat) : List CursorEntry :=
  ⟨0, pos, 0⟩ :: List.replicate MAX_HEIGHT ⟨0, 0, 0⟩


/-- The level-0 chain of a rope, as the list of visited node addresses:
`chainOk r p o` says that following the level-0 `next` pointers from `o`
visits exactly the nodes of `p` and ends at null. -/
def chainOk (r : JumpRope) : List Nat → Option Nat → Prop
  | [], o => o = none
  | a :: rest, o => o = some a ∧ a < r.heap.length ∧
      chainOk r rest ((r.node a).nexts.getD 0 ⟨none, 0, 0⟩).node

/-- The characters a node contributes to `Display`. -/
def nodeStr (r : JumpRope) (a : Nat) : List Nat :=
  (r.node a).str.startAsStr ++ (r.node a).str.endAsStr

/-- The string spelled by a list of node addresses. -/
def spell (r : JumpRope) (p : List Nat) : List Nat :=
  (p.map (nodeStr r)).flatten


/-- What the height-raising and bookkeeping loops of `insert_node_at`
leave untouched: the heap size, every node's string, every node's level-0
next pointer, and every node's `nexts` array length. -/
def Level0Frame (r r2 : JumpRope) : Prop :=
  r2.heap.length = r.heap.length ∧
  (∀ x, (r2.node x).str = (r.node x).str) ∧
  (∀ x, ((r2.node x).nexts.getD 0 ⟨none, 0, 0⟩).node =
    ((r.node x).nexts.getD 0 ⟨none, 0, 0⟩).node) ∧
  (∀ x, (r2.node x).nexts.length = (r.node x).nexts.length)


/-- A finite segment of the level-0 chain: following the level-0 pointers
from `o` visits exactly the nodes of `p` and arrives at `e`. -/
def chainSeg (r : JumpRope) : List Nat → Option Nat → Option Nat → Prop
  | [], o, e => o = e
  | a :: rest, o, e => o = some a ∧ a < r.heap.length ∧
      chainSeg r rest ((r.node a).nexts.getD 0 ⟨none, 0, 0⟩).node e

end Jumprope

namespace Jumprope

/-! # Part 2: theorems -/

theorem isCharBoundary_iff (b : Nat) (hb : b < 256) :
    isCharBoundary b = !(decide (128 ≤ b) && decide (b < 192)) := by
  revert hb
  revert b
  decide

theorem isSurrogateByte_iff (b : Nat) (hb : b < 256) :
    isSurrogateByte b = decide (240 ≤ b) := by
  revert hb
  revert b
  decide

theorem utf8Encode_ne_nil (c : Nat) : utf8Encode c ≠ [] := by
  unfold utf8Encode
  split_ifs <;> simp

theorem utf8Encode_len_le (c : Nat) : (utf8Encode c).length ≤ 4 := by
  unfold utf8Encode
  split_ifs <;> simp

theorem utf8Encode_len_pos (c : Nat) : 0 < (utf8Encode c).length := by
  unfold utf8Encode
  split_ifs <;> simp

theorem utf8Encode_lt_256 (c : Nat) (hc : c < 0x110000) :
    ∀ b ∈ utf8Encode c, b < 256 := by
  unfold utf8Encode
  split_ifs with h1 h2 h3 <;> intro b hb <;> simp at hb
  · omega
  · have : c / 64 < 32 := by omega
    have : c % 64 < 64 := Nat.mod_lt _ (by norm_num)
    omega
  · have : c / 4096 < 16 := by omega
    have : c / 64 % 64 < 64 := Nat.mod_lt _ (by norm_num)
    have : c % 64 < 64 := Nat.mod_lt _ (by norm_num)
    omega
  · have : c / 262144 < 5 := by omega
    have : c / 4096 % 64 < 64 := Nat.mod_lt _ (by norm_num)
    have : c / 64 % 64 < 64 := Nat.mod_lt _ (by norm_num)
    have : c % 64 < 64 := Nat.mod_lt _ (by norm_num)
    omega

/-- Every encoded scalar (in Unicode range) contributes exactly one
char-boundary byte: the lead byte is a boundary and all continuation bytes
are not. -/
theorem utf8Encode_boundary_shape (c : Nat) (hc : c < 0x110000) :
    ∃ b t, utf8Encode c = b :: t ∧ isCharBoundary b = true ∧
      ∀ x ∈ t, isCharBoundary x = false := by
  have hcont : ∀ x : Nat, x < 64 → isCharBoundary (0x80 + x) = false := by
    decide
  have hhya : ∀ b : Nat, b < 128 → isCharBoundary b = true := by decide
  have hhyb : ∀ x : Nat, x < 32 → isCharBoundary (0xC0 + x) = true := by decide
  have hhyc : ∀ x : Nat, x < 16 → isCharBoundary (0xE0 + x) = true := by decide
  have hhyd : ∀ x : Nat, x < 5 → isCharBoundary (0xF0 + x) = true := by decide
  unfold utf8Encode
  split_ifs with h1 h2 h3
  · exact ⟨c, [], rfl, hhya c h1, by simp⟩
  · refine ⟨_, _, rfl, hhyb _ (by omega), ?_⟩
    intro x hx
    simp at hx
    subst hx
    exact hcont _ (Nat.mod_lt _ (by norm_num))
  · refine ⟨_, _, rfl, hhyc _ (by omega), ?_⟩
    intro x hx
    simp at hx
    rcases hx with hx | hx <;> subst hx <;>
      exact hcont _ (Nat.mod_lt _ (by norm_num))
  · refine ⟨_, _, rfl, hhyd _ (by omega), ?_⟩
    intro x hx
    simp at hx
    rcases hx with hx | hx | hx <;> subst hx <;>
      exact hcont _ (Nat.mod_lt _ (by norm_num))

theorem countCharsInBytes_append (a b : List Nat) :
    countCharsInBytes (a ++ b) = countCharsInBytes a + countCharsInBytes b :=
  List.countP_append _ _ _

theorem countCharsInBytes_encode (c : Nat) (hc : c < 0x110000) :
    countCharsInBytes (utf8Encode c) = 1 := by
  obtain ⟨b, t, henc, hb, ht⟩ := utf8Encode_boundary_shape c hc
  rw [henc]
  unfold countCharsInBytes
  rw [List.countP_cons_of_pos _ _ hb]
  have : t.countP isCharBoundary = 0 := by
    rw [List.countP_eq_zero]
    intro x hx
    simp [ht x hx]
  omega

theorem utf8Str_nil : utf8Str [] = [] := rfl

theorem utf8Str_cons (c : Nat) (s : List Nat) :
    utf8Str (c :: s) = utf8Encode c ++ utf8Str s := by
  simp [utf8Str]

theorem utf8Str_append (a b : List Nat) :
    utf8Str (a ++ b) = utf8Str a ++ utf8Str b := by
  simp [utf8Str]

theorem ValidStr.inRange {s : List Nat} (h : ValidStr s) : InRangeStr s :=
  fun c hc => (h c hc).1

/-- `count_chars` counts scalars: on an encoded string it returns the number
of scalar values. -/
theorem countCharsInBytes_utf8Str (s : List Nat) (hs : InRangeStr s) :
    countCharsInBytes (utf8Str s) = s.length := by
  induction s with
  | nil => rfl
  | cons c s ih =>
    rw [utf8Str_cons, countCharsInBytes_append,
      countCharsInBytes_encode c (hs c (by simp)),
      ih (fun x hx => hs x (by simp [hx]))]
    simp [Nat.add_comm]

theorem utf8Encode_length_eq_four (c : Nat) :
    (utf8Encode c).length = 4 ↔ 0x10000 ≤ c := by
  unfold utf8Encode
  split_ifs <;> simp <;> omega

theorem utf16Len_eq_two (c : Nat) : utf16Len c = 2 ↔ 0x10000 ≤ c := by
  unfold utf16Len
  split_ifs with h <;> simp <;> omega

theorem utf8Encode_no_surrogate_byte (c : Nat) (hc : c < 0x10000) :
    ∀ b ∈ utf8Encode c, isSurrogateByte b = false := by
  have hlow : ∀ b : Nat, b < 240 → isSurrogateByte b = false := by decide
  intro b hb
  unfold utf8Encode at hb
  split_ifs at hb with h1 h2
  · simp at hb; subst hb; exact hlow _ (by omega)
  · simp at hb
    have hm : c % 64 < 64 := Nat.mod_lt _ (by norm_num)
    rcases hb with hb | hb <;> subst hb <;> exact hlow _ (by omega)
  · simp at hb
    have hm1 : c / 64 % 64 < 64 := Nat.mod_lt _ (by norm_num)
    have hm2 : c % 64 < 64 := Nat.mod_lt _ (by norm_num)
    have hd : c / 4096 < 16 := by omega
    rcases hb with hb | hb | hb <;> subst hb <;> exact hlow _ (by omega)

theorem utf8Encode_surrogate_byte (c : Nat) (h1 : 0x10000 ≤ c)
    (h2 : c < 0x110000) :
    ∃ b t, utf8Encode c = b :: t ∧ isSurrogateByte b = true ∧
      ∀ x ∈ t, isSurrogateByte x = false := by
  have hlow : ∀ b : Nat, b < 240 → isSurrogateByte b = false := by decide
  have hhi : ∀ x : Nat, x < 5 → isSurrogateByte (0xF0 + x) = true := by decide
  unfold utf8Encode
  rw [if_neg (by omega), if_neg (by omega), if_neg (by omega)]
  refine ⟨_, _, rfl, hhi _ (by omega), ?_⟩
  intro x hx
  simp at hx
  rcases hx with hx | hx | hx <;> subst hx <;>
    exact hlow _ (by
      have : c / 4096 % 64 < 64 := Nat.mod_lt _ (by norm_num)
      have : c / 64 % 64 < 64 := Nat.mod_lt _ (by norm_num)
      have : c % 64 < 64 := Nat.mod_lt _ (by norm_num)
      omega)

theorem countSurr_append (a b : List Nat) :
    countUtf16SurrogatesInBytes (a ++ b) =
      countUtf16SurrogatesInBytes a + countUtf16SurrogatesInBytes b :=
  List.countP_append _ _ _

theorem countSurr_encode (c : Nat) (hc : c < 0x110000) :
    countUtf16SurrogatesInBytes (utf8Encode c) =
      if 0x10000 ≤ c then 1 else 0 := by
  by_cases h : 0x10000 ≤ c
  · obtain ⟨b, t, henc, hb, ht⟩ := utf8Encode_surrogate_byte c h hc
    rw [henc, if_pos h]
    unfold countUtf16SurrogatesInBytes
    rw [List.countP_cons_of_pos _ _ hb]
    have : t.countP isSurrogateByte = 0 := by
      rw [List.countP_eq_zero]
      intro x hx
      simp [ht x hx]
    omega
  · rw [if_neg h]
    unfold countUtf16SurrogatesInBytes
    rw [List.countP_eq_zero]
    intro x hx
    simp [utf8Encode_no_surrogate_byte c (by omega) x hx]

/-- The number of surrogate pairs counted over the UTF-8 bytes equals the
number of scalars at or above `U+10000`. -/
theorem countSurr_utf8Str (s : List Nat) (hs : InRangeStr s) :
    countUtf16SurrogatesInBytes (utf8Str s) =
      s.countP (fun c => decide (0x10000 ≤ c)) := by
  induction s with
  | nil => rfl
  | cons c s ih =>
    rw [utf8Str_cons, countSurr_append, countSurr_encode c (hs c (by simp)),
      ih (fun x hx => hs x (by simp [hx])), List.countP_cons]
    by_cases h : 0x10000 ≤ c <;> simp [h] <;> omega

theorem charToByteLoop_stop (k : Nat) (l : List Nat) (i cc : Nat)
    (h : k < cc) : charToByteLoop k l i cc = (i, cc) := by
  cases l with
  | nil => rfl
  | cons b rest => unfold charToByteLoop; rw [if_neg (by omega)]

theorem charToByteLoop_cons (k b : Nat) (rest : List Nat) (i cc : Nat) :
    charToByteLoop k (b :: rest) i cc =
      if cc ≤ k then
        charToByteLoop k rest (i + 1) (cc + (isCharBoundary b).toNat)
      else (i, cc) := rfl

theorem charToByteLoop_cont (k : Nat) (nb rest : List Nat) (i cc : Nat)
    (hnb : ∀ x ∈ nb, isCharBoundary x = false) (hcc : cc ≤ k) :
    charToByteLoop k (nb ++ rest) i cc =
      charToByteLoop k rest (i + nb.length) cc := by
  induction nb generalizing i with
  | nil => simp
  | cons b nb ih =>
    have hb : isCharBoundary b = false := hnb b (by simp)
    rw [List.cons_append, charToByteLoop_cons, if_pos hcc, hb]
    simp only [Bool.toNat_false, Nat.add_zero]
    rw [ih (i + 1) (fun x hx => hnb x (by simp [hx]))]
    have h3 : i + 1 + nb.length = i + (b :: nb).length := by
      simp only [List.length_cons]
      omega
    rw [h3]

theorem charToByteLoop_utf8 (k : Nat) (s : List Nat) (hs : InRangeStr s)
    (i cc : Nat) (hcc : cc ≤ k) :
    charToByteLoop k (utf8Str s) i cc =
      if cc + s.length ≤ k then (i + (utf8Str s).length, cc + s.length)
      else (i + (utf8Str (s.take (k - cc))).length + 1, k + 1) := by
  induction s generalizing i cc with
  | nil =>
    rw [utf8Str_nil, if_pos (by simpa using hcc)]
    simp [charToByteLoop]
  | cons c s ih =>
    obtain ⟨b, t, henc, hb, ht⟩ :=
      utf8Encode_boundary_shape c (hs c (by simp))
    rw [utf8Str_cons, henc, List.cons_append, charToByteLoop_cons,
      if_pos hcc, hb]
    simp only [Bool.toNat_true]
    by_cases hc1 : cc + 1 ≤ k
    · rw [charToByteLoop_cont k t _ _ _ ht hc1,
        ih (fun x hx => hs x (by simp [hx])) _ _ hc1]
      by_cases hc2 : cc + 1 + s.length ≤ k
      · have hcond : cc + (c :: s).length ≤ k := by
          simp only [List.length_cons]
          omega
        rw [if_pos hc2, if_pos hcond]
        simp only [Prod.mk.injEq, List.length_cons, List.length_append]
        omega
      · have hcond : ¬(cc + (c :: s).length ≤ k) := by
          simp only [List.length_cons]
          omega
        rw [if_neg hc2, if_neg hcond]
        have htake : (c :: s).take (k - cc) = c :: s.take (k - (cc + 1)) := by
          have h3 : k - cc = (k - (cc + 1)) + 1 := by omega
          rw [h3]
          rfl
        rw [htake, utf8Str_cons, henc]
        simp only [Prod.mk.injEq, List.length_cons, List.length_append,
          and_true]
        omega
    · have hcond : ¬(cc + (c :: s).length ≤ k) := by
        simp only [List.length_cons]
        omega
      rw [charToByteLoop_stop _ _ _ _ (by omega : k < cc + 1), if_neg hcond]
      have h0 : k - cc = 0 := by omega
      rw [h0]
      simp only [List.take_zero, utf8Str_nil, List.length_nil, Prod.mk.injEq,
        and_true, true_and]
      omega

theorem charToByteIdx_utf8Str (s : List Nat) (hs : InRangeStr s) (k : Nat) :
    charToByteIdx (utf8Str s) k = (utf8Str (s.take k)).length := by
  have hloop := charToByteLoop_utf8 k s hs 0 0 (Nat.zero_le k)
  unfold charToByteIdx
  by_cases h : s.length ≤ k
  · rw [if_pos (by omega)] at hloop
    rw [hloop,
      if_pos ⟨show 0 + (utf8Str s).length = (utf8Str s).length by omega,
        show 0 + s.length ≤ k by omega⟩]
    simp [List.take_of_length_le h]
  · rw [if_neg (by omega)] at hloop
    rw [hloop, if_neg (by
      intro hand
      have h2 : k + 1 ≤ k := hand.2
      omega)]
    simp

theorem charsToBytesRevLoop_cons (b : Nat) (rest : List Nat) (r i : Nat) :
    charsToBytesRevLoop (b :: rest) r i =
      if isCharBoundary b then
        if r - 1 = 0 then i + 1
        else charsToBytesRevLoop rest (r - 1) (i + 1)
      else charsToBytesRevLoop rest r (i + 1) := rfl

theorem charsToBytesRevLoop_cont (nb rest : List Nat) (r i : Nat)
    (hnb : ∀ x ∈ nb, isCharBoundary x = false) :
    charsToBytesRevLoop (nb ++ rest) r i =
      charsToBytesRevLoop rest r (i + nb.length) := by
  induction nb generalizing i with
  | nil => simp
  | cons b nb ih =>
    have hb : isCharBoundary b = false := hnb b (by simp)
    rw [List.cons_append, charsToBytesRevLoop_cons, hb]
    simp only [Bool.false_eq_true, if_false]
    rw [ih (i + 1) (fun x hx => hnb x (by simp [hx]))]
    have h3 : i + 1 + nb.length = i + (b :: nb).length := by
      simp only [List.length_cons]
      omega
    rw [h3]

theorem charsToBytesRevLoop_utf8 (s : List Nat) :
    InRangeStr s → ∀ k i, 1 ≤ k → k ≤ s.length →
      charsToBytesRevLoop (utf8Str s).reverse k i =
        i + (utf8Str (s.drop (s.length - k))).length := by
  induction s using List.reverseRecOn with
  | nil =>
    intro _ k i hk1 hk2
    simp at hk2
    omega
  | append_singleton s0 c ih =>
    intro hs k i hk1 hk2
    obtain ⟨b, t, henc, hb, ht⟩ :=
      utf8Encode_boundary_shape c (hs c (by simp))
    have hk2a : k ≤ s0.length + 1 := by simpa using hk2
    have hone : utf8Str [c] = utf8Encode c := by
      rw [utf8Str_cons, utf8Str_nil, List.append_nil]
    have hencl : (utf8Encode c).length = t.length + 1 := by
      rw [henc]
      simp
    rw [utf8Str_append, List.reverse_append]
    have hrev : (utf8Str [c]).reverse = t.reverse ++ [b] := by
      rw [hone, henc]
      simp
    rw [hrev, List.append_assoc,
      charsToBytesRevLoop_cont t.reverse _ k i
        (fun x hx => ht x (List.mem_reverse.mp hx))]
    simp only [List.singleton_append]
    rw [charsToBytesRevLoop_cons, hb]
    simp only [if_true]
    by_cases hk : k = 1
    · subst hk
      simp only [Nat.sub_self, reduceIte]
      have hdrop : (s0 ++ [c]).drop ((s0 ++ [c]).length - 1) = [c] := by
        simp
      rw [hdrop, hone, hencl]
      simp only [List.length_reverse]
      omega
    · rw [if_neg (by omega)]
      rw [ih (fun x hx => hs x (by simp [hx])) (k - 1)
        (i + t.reverse.length + 1) (by omega) (by omega)]
      have hdrop : (s0 ++ [c]).drop ((s0 ++ [c]).length - k) =
          s0.drop (s0.length - (k - 1)) ++ [c] := by
        have hl : (s0 ++ [c]).length = s0.length + 1 := by simp
        rw [hl, List.drop_append_of_le_length (by omega)]
        have harith : s0.length + 1 - k = s0.length - (k - 1) := by omega
        rw [harith]
      rw [hdrop, utf8Str_append, List.length_append, hone, hencl]
      simp only [List.length_reverse]
      omega

/-- `str_chars_to_bytes_rev` returns the byte length of the trailing `k`
scalars. -/
theorem strCharsToBytesRev_utf8Str (s : List Nat) (hs : InRangeStr s)
    (k : Nat) (hk : k ≤ s.length) :
    strCharsToBytesRev (utf8Str s) k =
      (utf8Str (s.drop (s.length - k))).length := by
  unfold strCharsToBytesRev
  by_cases h : k = 0
  · subst h
    simp [Nat.sub_zero, List.drop_length, utf8Str_nil]
  · rw [if_neg h, charsToBytesRevLoop_utf8 s hs k 0 (by omega) hk]
    omega

/-! ## Gap buffer lemmas -/

theorem utf8Encode_ascii (c : Nat) (h : c < 0x80) : utf8Encode c = [c] := by
  unfold utf8Encode
  rw [if_pos h]

theorem utf8Str_ascii (x : List Nat) (h : ∀ c ∈ x, c < 0x80) :
    utf8Str x = x := by
  induction x with
  | nil => rfl
  | cons c x ih =>
    rw [utf8Str_cons, utf8Encode_ascii c (h c (by simp)),
      ih (fun d hd => h d (by simp [hd]))]
    rfl

theorem ascii_inRange {x : List Nat} (h : ∀ c ∈ x, c < 0x80) :
    InRangeStr x := fun c hc => by have := h c hc; omega

theorem ascii_countP_surr {x : List Nat} (h : ∀ c ∈ x, c < 0x80) :
    x.countP (fun c => decide (0x10000 ≤ c)) = 0 := by
  rw [List.countP_eq_zero]
  intro c hc
  have := h c hc
  simp
  omega

theorem countInternalChars_spec (b : GapBuffer) (x : List Nat)
    (hx : InRangeStr x) (ha : b.allAscii = true → ∀ c ∈ x, c < 0x80) :
    b.countInternalChars (utf8Str x) = x.length := by
  unfold GapBuffer.countInternalChars
  by_cases h : b.allAscii
  · rw [if_pos h, utf8Str_ascii x (ha h)]
  · rw [if_neg h, countCharsInBytes_utf8Str x hx]

theorem intCountSurrogatePairs_spec (b : GapBuffer) (x : List Nat)
    (hx : InRangeStr x) (ha : b.allAscii = true → ∀ c ∈ x, c < 0x80) :
    b.intCountSurrogatePairs (utf8Str x) =
      x.countP (fun c => decide (0x10000 ≤ c)) := by
  unfold GapBuffer.intCountSurrogatePairs
  by_cases h : b.allAscii
  · rw [if_pos h, ascii_countP_surr (ha h)]
  · rw [if_neg h, countSurr_utf8Str x hx]

theorem intStrGetByteOffset_spec (b : GapBuffer) (x : List Nat) (k : Nat)
    (hx : InRangeStr x) (hk : k ≤ x.length)
    (ha : b.allAscii = true → ∀ c ∈ x, c < 0x80) :
    b.intStrGetByteOffset (utf8Str x) k = (utf8Str (x.take k)).length := by
  unfold GapBuffer.intStrGetByteOffset
  by_cases h : b.allAscii
  · rw [if_pos h, utf8Str_ascii _ (fun c hc => ha h c (List.mem_of_mem_take hc))]
    simp
    omega
  · rw [if_neg h, charToByteIdx_utf8Str x hx k]

theorem intCharsToBytesBackwards_spec (b : GapBuffer) (x : List Nat) (k : Nat)
    (hx : InRangeStr x) (hk : k ≤ x.length)
    (ha : b.allAscii = true → ∀ c ∈ x, c < 0x80) :
    b.intCharsToBytesBackwards (utf8Str x) k =
      (utf8Str (x.drop (x.length - k))).length := by
  unfold GapBuffer.intCharsToBytesBackwards
  by_cases h : b.allAscii
  · rw [if_pos h, utf8Str_ascii _ (fun c hc => ha h c (List.mem_of_mem_drop hc))]
    simp
    omega
  · rw [if_neg h, strCharsToBytesRev_utf8Str x hx k hk]

theorem utf8Str_length_pos {x : List Nat} (h : x ≠ []) :
    0 < (utf8Str x).length := by
  cases x with
  | nil => simp at h
  | cons c t =>
    rw [utf8Str_cons, List.length_append]
    have := utf8Encode_len_pos c
    omega

/-- Introduction rule for `GapBuffer.WF`: canonical field values plus a
decomposition of `data` give well-formedness. -/
theorem GapBuffer.WF_intro (b : GapBuffer) (p1 s1 G : List Nat)
    (hd : b.data = utf8Str p1 ++ (G ++ utf8Str s1))
    (hgsb : b.gapStartBytes = (utf8Str p1).length)
    (hgsc : b.gapStartChars = p1.length)
    (hgsp : b.gapStartSurrogatePairs =
      p1.countP (fun c => decide (0x10000 ≤ c)))
    (hG : G.length = b.gapLen)
    (hv1 : ValidStr p1) (hv2 : ValidStr s1)
    (ha : b.allAscii = true → ∀ c ∈ p1 ++ s1, c < 0x80) :
    b.WF p1 s1 := by
  unfold GapBuffer.WF
  refine ⟨?_, ?_, hgsb, hgsc, hgsp, ?_, ?_, hv1, hv2, ha⟩
  · unfold GapBuffer.startAsStr
    rw [hd, hgsb, List.take_left]
  · unfold GapBuffer.endAsStr
    rw [hd, hgsb, ← hG, ← List.append_assoc,
      List.drop_left' (by rw [List.length_append])]
  · rw [hd, hgsb, ← hG]
    simp only [List.length_append]
    omega
  · rw [hd, hgsb, ← hG]
    simp only [List.length_append]
    omega

/-- Decomposition of the data array of a well-formed buffer. -/
theorem GapBuffer.WF.data_decomp {b : GapBuffer} {pre suf : List Nat}
    (h : b.WF pre suf) :
    b.data = utf8Str pre ++
      ((b.data.drop b.gapStartBytes).take b.gapLen ++ utf8Str suf) ∧
    ((b.data.drop b.gapStartBytes).take b.gapLen).length = b.gapLen := by
  obtain ⟨h1, h2, h3, h4, h5, h6, h7, h8, h9, h10⟩ := h
  constructor
  · conv_lhs => rw [← List.take_append_drop b.gapStartBytes b.data]
    rw [show b.data.take b.gapStartBytes = GapBuffer.startAsStr b from rfl,
      h1]
    congr 1
    conv_lhs => rw [← List.take_append_drop b.gapLen
      (b.data.drop b.gapStartBytes)]
    congr 1
    rw [List.drop_drop]
    have h2a : b.data.drop (b.gapStartBytes + b.gapLen) = utf8Str suf := h2
    rw [← h2a]
  · rw [List.length_take, List.length_drop]
    omega

/-- The left-moving branch of `move_gap`. -/
theorem GapBuffer.moveGap_left (b : GapBuffer) (n : Nat)
    (h2 : n < b.gapStartBytes) :
    b.moveGap n = { b with
      gapStartSurrogatePairs := b.gapStartSurrogatePairs -
        b.intCountSurrogatePairs ((b.data.drop n).take (b.gapStartBytes - n)),
      gapStartChars := b.gapStartChars -
        b.countInternalChars ((b.data.drop n).take (b.gapStartBytes - n)),
      data := copyWithin b.data n b.gapStartBytes (n + b.gapLen),
      gapStartBytes := n } := by
  simp only [GapBuffer.moveGap]
  rw [if_neg (by omega), if_pos h2]

/-- The right-moving branch of `move_gap`. -/
theorem GapBuffer.moveGap_right (b : GapBuffer) (n : Nat)
    (h2 : b.gapStartBytes < n) :
    b.moveGap n = { b with
      gapStartSurrogatePairs := b.gapStartSurrogatePairs +
        b.intCountSurrogatePairs ((b.data.drop (b.gapStartBytes + b.gapLen)).take
          (n - b.gapStartBytes)),
      gapStartChars := b.gapStartChars +
        b.countInternalChars ((b.data.drop (b.gapStartBytes + b.gapLen)).take
          (n - b.gapStartBytes)),
      data := copyWithin b.data (b.gapStartBytes + b.gapLen) (n + b.gapLen)
        b.gapStartBytes,
      gapStartBytes := n } := by
  simp only [GapBuffer.moveGap]
  rw [if_neg (by omega), if_neg (by omega)]

/-- `copy_within` when the gap moves left over the chunk `M`. -/
theorem copyWithin_gapLeft (A M G S : List Nat) :
    copyWithin (A ++ (M ++ (G ++ S))) A.length (A.length + M.length)
      (A.length + G.length) =
    A ++ ((M ++ (G ++ S)).take G.length ++ (M ++ S)) := by
  unfold copyWithin
  rw [List.take_append, List.drop_left,
    show A.length + M.length - A.length = M.length by omega,
    List.take_left,
    show A.length + G.length + M.length = A.length + (G.length + M.length)
      by omega,
    List.drop_append,
    show G.length + M.length = M.length + G.length by omega,
    ← List.drop_drop, List.drop_left, List.drop_left]
  simp [List.append_assoc]

/-- `copy_within` when the gap moves right over the chunk `M`. -/
theorem copyWithin_gapRight (A G M S : List Nat) :
    copyWithin (A ++ (G ++ (M ++ S))) (A.length + G.length)
      (A.length + G.length + M.length) A.length =
    A ++ (M ++ ((G ++ M).drop M.length ++ S)) := by
  unfold copyWithin
  rw [List.take_left,
    show A.length + G.length + M.length - (A.length + G.length) = M.length
      by omega,
    List.drop_append, List.drop_left, List.take_left,
    show A.length + M.length = A.length + M.length from rfl,
    List.drop_append]
  have hdrop : (G ++ (M ++ S)).drop M.length =
      (G ++ M).drop M.length ++ S := by
    rw [← List.append_assoc,
      List.drop_append_of_le_length (by rw [List.length_append]; omega)]
  rw [hdrop]
  simp [List.append_assoc]

/-- `move_gap` specification: moving the gap to the byte offset of a scalar
split point of the contents preserves well-formedness (relative to the new
split), the gap length, the ascii flag and the array size. -/
theorem GapBuffer.moveGap_spec {b : GapBuffer} {pre suf : List Nat}
    (hwf : b.WF pre suf) (p1 s1 : List Nat)
    (hsplit : p1 ++ s1 = pre ++ suf) :
    (b.moveGap (utf8Str p1).length).WF p1 s1 ∧
    (b.moveGap (utf8Str p1).length).gapLen = b.gapLen ∧
    (b.moveGap (utf8Str p1).length).allAscii = b.allAscii ∧
    (b.moveGap (utf8Str p1).length).data.length = b.data.length := by
  obtain ⟨hdata, hG⟩ := hwf.data_decomp
  set G := (b.data.drop b.gapStartBytes).take b.gapLen with hGdef
  obtain ⟨h1, h2, h3, h4, h5, h6, h7, h8, h9, h10⟩ := hwf
  have hva : ValidStr p1 := by
    intro c hc
    have hm : c ∈ pre ++ suf := by rw [← hsplit]; simp [hc]
    rcases List.mem_append.mp hm with h | h
    · exact h8 c h
    · exact h9 c h
  have hvb : ValidStr s1 := by
    intro c hc
    have hm : c ∈ pre ++ suf := by rw [← hsplit]; simp [hc]
    rcases List.mem_append.mp hm with h | h
    · exact h8 c h
    · exact h9 c h
  have hasplit : b.allAscii = true → ∀ c ∈ p1 ++ s1, c < 0x80 := by
    intro ha c hc
    exact h10 ha c (by rw [← hsplit]; exact hc)
  by_cases hp : p1.length ≤ pre.length
  · -- `p1` is a scalar prefix of `pre`.
    have hp1 : p1 = pre.take p1.length := by
      conv_lhs => rw [← List.take_left p1 s1, hsplit,
        List.take_append_eq_append_take,
        show p1.length - pre.length = 0 by omega]
      simp
    have hmid : pre = p1 ++ pre.drop p1.length := by
      conv_lhs => rw [← List.take_append_drop p1.length pre, ← hp1]
    set mid := pre.drop p1.length with hmiddef
    have hs1 : s1 = mid ++ suf := by
      conv_lhs => rw [← List.drop_left p1 s1, hsplit,
        List.drop_append_eq_append_drop,
        show p1.length - pre.length = 0 by omega]
      simp
    have hEpre : utf8Str pre = utf8Str p1 ++ utf8Str mid := by
      conv_lhs => rw [hmid]
      rw [utf8Str_append]
    have hmval : ValidStr mid := fun c hc => h8 c (by
      rw [hmid]; simp [hc])
    by_cases hnil : mid = []
    · -- Byte offsets coincide: `move_gap` is the identity.
      have heq : utf8Str p1 = utf8Str pre := by
        rw [hEpre, hnil, utf8Str_nil, List.append_nil]
      have hpp : p1 = pre := by rw [hmid, hnil, List.append_nil]
      have hss : s1 = suf := by rw [hs1, hnil, List.nil_append]
      have hmove : b.moveGap (utf8Str p1).length = b := by
        simp only [GapBuffer.moveGap]
        rw [if_pos (by rw [heq, h3])]
      rw [hmove, hpp, hss]
      exact ⟨⟨h1, h2, h3, h4, h5, h6, h7, h8, h9, h10⟩, rfl, rfl, rfl⟩
    · -- The gap moves left over `mid`.
      have hmlen : 0 < (utf8Str mid).length := utf8Str_length_pos hnil
      have hgsb2 : b.gapStartBytes =
          (utf8Str p1).length + (utf8Str mid).length := by
        rw [h3, hEpre, List.length_append]
      have hlt : (utf8Str p1).length < b.gapStartBytes := by omega
      have hmask : b.allAscii = true → ∀ c ∈ mid, c < 0x80 := by
        intro ha c hc
        refine h10 ha c ?_
        rw [hmid]
        simp only [List.mem_append]
        left
        right
        exact hc
      have hdata2 : b.data =
          utf8Str p1 ++ (utf8Str mid ++ (G ++ utf8Str suf)) := by
        rw [hdata, hEpre]
        simp [List.append_assoc]
      have hslice : (b.data.drop (utf8Str p1).length).take
          (b.gapStartBytes - (utf8Str p1).length) = utf8Str mid := by
        rw [hdata2, List.drop_left,
          show b.gapStartBytes - (utf8Str p1).length = (utf8Str mid).length
            by omega, List.take_left]
      have hcw : copyWithin b.data (utf8Str p1).length b.gapStartBytes
          ((utf8Str p1).length + b.gapLen) =
          utf8Str p1 ++ ((utf8Str mid ++ (G ++ utf8Str suf)).take G.length ++
            (utf8Str mid ++ utf8Str suf)) := by
        conv_lhs => rw [hdata2, hgsb2, ← hG]
        exact copyWithin_gapLeft (utf8Str p1) (utf8Str mid) G (utf8Str suf)
      rw [GapBuffer.moveGap_left b _ hlt, hslice]
      refine ⟨?_, rfl, rfl, ?_⟩
      · refine GapBuffer.WF_intro _ p1 s1
          ((utf8Str mid ++ (G ++ utf8Str suf)).take G.length) ?_ rfl ?_ ?_ ?_
          hva hvb hasplit
        · show copyWithin b.data (utf8Str p1).length b.gapStartBytes
            ((utf8Str p1).length + b.gapLen) = _
          rw [hcw, hs1, utf8Str_append]
        · show b.gapStartChars - b.countInternalChars (utf8Str mid) =
            p1.length
          rw [countInternalChars_spec b mid hmval.inRange hmask, h4,
            hmid, List.length_append]
          omega
        · show b.gapStartSurrogatePairs -
            b.intCountSurrogatePairs (utf8Str mid) = _
          rw [intCountSurrogatePairs_spec b mid hmval.inRange hmask, h5,
            hmid, List.countP_append]
          omega
        · show ((utf8Str mid ++ (G ++ utf8Str suf)).take G.length).length =
            b.gapLen
          rw [List.length_take]
          simp only [List.length_append]
          omega
      · show (copyWithin b.data (utf8Str p1).length b.gapStartBytes
          ((utf8Str p1).length + b.gapLen)).length = b.data.length
        rw [hcw, hdata2]
        simp only [List.length_append, List.length_take]
        omega
  · -- `pre` is a proper scalar prefix of `p1`: the gap moves right.
    have hple : pre.length ≤ p1.length := by omega
    have hpre2 : pre = p1.take pre.length := by
      have hx : p1 = (pre ++ suf).take p1.length := by
        conv_lhs => rw [← List.take_left p1 s1, hsplit]
      rw [hx, List.take_take, Nat.min_eq_left hple,
        List.take_append_eq_append_take,
        show pre.length - pre.length = 0 by omega]
      simp
    have hmid : p1 = pre ++ p1.drop pre.length := by
      conv_lhs => rw [← List.take_append_drop pre.length p1, ← hpre2]
    set mid := p1.drop pre.length with hmiddef
    have hsuf : suf = mid ++ s1 := by
      have hy : suf = (p1 ++ s1).drop pre.length := by
        rw [hsplit, List.drop_left]
      rw [hy, List.drop_append_eq_append_drop,
        show pre.length - p1.length = 0 by omega]
      simp
    have hnil : mid ≠ [] := by
      intro hcon
      have : p1.length = pre.length := by
        rw [hmid, hcon, List.append_nil]
      omega
    have hmlen : 0 < (utf8Str mid).length := utf8Str_length_pos hnil
    have hEp1 : utf8Str p1 = utf8Str pre ++ utf8Str mid := by
      conv_lhs => rw [hmid]
      rw [utf8Str_append]
    have hEsuf : utf8Str suf = utf8Str mid ++ utf8Str s1 := by
      conv_lhs => rw [hsuf]
      rw [utf8Str_append]
    have hmval : ValidStr mid := fun c hc => h9 c (by
      rw [hsuf]; simp [hc])
    have hmask : b.allAscii = true → ∀ c ∈ mid, c < 0x80 := by
      intro ha c hc
      refine h10 ha c ?_
      simp only [List.mem_append]
      right
      rw [hsuf]
      exact List.mem_append.mpr (Or.inl hc)
    have hgt : b.gapStartBytes < (utf8Str p1).length := by
      rw [h3, hEp1, List.length_append]
      omega
    have hdata2 : b.data =
        utf8Str pre ++ (G ++ (utf8Str mid ++ utf8Str s1)) := by
      rw [hdata, hEsuf]
    have hslice : (b.data.drop (b.gapStartBytes + b.gapLen)).take
        ((utf8Str p1).length - b.gapStartBytes) = utf8Str mid := by
      have hdl : b.data.drop (b.gapStartBytes + b.gapLen) = utf8Str suf := h2
      rw [hdl, hEsuf,
        show (utf8Str p1).length - b.gapStartBytes = (utf8Str mid).length by
          rw [h3, hEp1, List.length_append]; omega,
        List.take_left]
    have hcw : copyWithin b.data (b.gapStartBytes + b.gapLen)
        ((utf8Str p1).length + b.gapLen) b.gapStartBytes =
        utf8Str pre ++ (utf8Str mid ++
          ((G ++ utf8Str mid).drop (utf8Str mid).length ++ utf8Str s1)) := by
      conv_lhs => rw [hdata2, h3, ← hG,
        show (utf8Str p1).length + G.length =
          (utf8Str pre).length + G.length + (utf8Str mid).length by
            rw [hEp1, List.length_append]; omega]
      exact copyWithin_gapRight (utf8Str pre) G (utf8Str mid) (utf8Str s1)
    rw [GapBuffer.moveGap_right b _ hgt, hslice]
    refine ⟨?_, rfl, rfl, ?_⟩
    · refine GapBuffer.WF_intro _ p1 s1
        ((G ++ utf8Str mid).drop (utf8Str mid).length) ?_ rfl ?_ ?_ ?_
        hva hvb hasplit
      · show copyWithin b.data (b.gapStartBytes + b.gapLen)
          ((utf8Str p1).length + b.gapLen) b.gapStartBytes = _
        rw [hcw, hEp1]
        simp [List.append_assoc]
      · show b.gapStartChars + b.countInternalChars (utf8Str mid) = p1.length
        rw [countInternalChars_spec b mid hmval.inRange hmask, h4, hmid,
          List.length_append]
      · show b.gapStartSurrogatePairs +
          b.intCountSurrogatePairs (utf8Str mid) = _
        rw [intCountSurrogatePairs_spec b mid hmval.inRange hmask, h5,
          hmid, List.countP_append]
      · show ((G ++ utf8Str mid).drop (utf8Str mid).length).length = b.gapLen
        rw [List.length_drop, List.length_append]
        omega
    · show (copyWithin b.data (b.gapStartBytes + b.gapLen)
        ((utf8Str p1).length + b.gapLen) b.gapStartBytes).length =
        b.data.length
      rw [hcw, hdata2]
      simp only [List.length_append, List.length_drop]
      omega

theorem utf8Str_length_ge (x : List Nat) : x.length ≤ (utf8Str x).length := by
  induction x with
  | nil => simp [utf8Str]
  | cons c t ih =>
    rw [utf8Str_cons, List.length_append]
    have := utf8Encode_len_pos c
    simp only [List.length_cons]
    omega

theorem utf8Encode_length_one {c : Nat}
    (h : (utf8Encode c).length = 1) : c < 0x80 := by
  by_contra hc
  unfold utf8Encode at h
  rw [if_neg hc] at h
  split_ifs at h <;> simp at h

/-- If the encoding of `x` is as short as `x`, every scalar is ASCII. -/
theorem ascii_of_utf8Str_length_eq {x : List Nat}
    (h : (utf8Str x).length = x.length) : ∀ c ∈ x, c < 0x80 := by
  induction x with
  | nil => simp
  | cons c t ih =>
    rw [utf8Str_cons, List.length_append, List.length_cons] at h
    have h1 := utf8Encode_len_pos c
    have h2 := utf8Str_length_ge t
    have hc : (utf8Encode c).length = 1 := by omega
    have ht : (utf8Str t).length = t.length := by omega
    intro d hd
    rcases List.mem_cons.mp hd with hd | hd
    · subst hd
      exact utf8Encode_length_one hc
    · exact ih ht d hd

/-- `insert_in_gap` specification. -/
theorem GapBuffer.insertInGap_spec {b : GapBuffer} {pre suf : List Nat}
    (hwf : b.WF pre suf) (ins : List Nat) (hv : ValidStr ins)
    (hfit : (utf8Str ins).length ≤ b.gapLen) :
    (b.insertInGap (utf8Str ins)).WF (pre ++ ins) suf ∧
    (b.insertInGap (utf8Str ins)).gapLen =
      b.gapLen - (utf8Str ins).length ∧
    (b.insertInGap (utf8Str ins)).data.length = b.data.length := by
  obtain ⟨hdata, hG⟩ := hwf.data_decomp
  set G := (b.data.drop b.gapStartBytes).take b.gapLen with hGdef
  obtain ⟨h1, h2, h3, h4, h5, h6, h7, h8, h9, h10⟩ := hwf
  have hcl : countCharsInBytes (utf8Str ins) = ins.length :=
    countCharsInBytes_utf8Str ins hv.inRange
  have hdrop : b.data.drop (b.gapStartBytes + (utf8Str ins).length) =
      G.drop (utf8Str ins).length ++ utf8Str suf := by
    rw [hdata, h3]
    rw [List.drop_append_eq_append_drop]
    rw [List.drop_eq_nil_of_le (by omega),
      show (utf8Str pre).length + (utf8Str ins).length -
        (utf8Str pre).length = (utf8Str ins).length by omega,
      List.drop_append_of_le_length (by omega)]
    simp
  have hdata2 : (b.insertInGap (utf8Str ins)).data =
      utf8Str (pre ++ ins) ++
        (G.drop (utf8Str ins).length ++ utf8Str suf) := by
    show b.data.take b.gapStartBytes ++ utf8Str ins ++
      b.data.drop (b.gapStartBytes + (utf8Str ins).length) = _
    rw [show b.data.take b.gapStartBytes = GapBuffer.startAsStr b from rfl,
      h1, hdrop, utf8Str_append]
  refine ⟨?_, rfl, ?_⟩
  · refine GapBuffer.WF_intro _ (pre ++ ins) suf
      (G.drop (utf8Str ins).length) hdata2 ?_ ?_ ?_ ?_ ?_ h9 ?_
    · show b.gapStartBytes + (utf8Str ins).length = _
      rw [h3, utf8Str_append, List.length_append]
    · show b.gapStartChars + countCharsInBytes (utf8Str ins) = _
      rw [hcl, h4, List.length_append]
    · show (if (utf8Str ins).length ≠ countCharsInBytes (utf8Str ins) then
          b.gapStartSurrogatePairs +
            countUtf16SurrogatesInBytes (utf8Str ins)
        else b.gapStartSurrogatePairs) = _
      rw [List.countP_append, h5, hcl]
      by_cases hlen : (utf8Str ins).length = ins.length
      · rw [if_neg (by omega)]
        have : ins.countP (fun c => decide (0x10000 ≤ c)) = 0 :=
          ascii_countP_surr (ascii_of_utf8Str_length_eq hlen)
        omega
      · rw [if_pos (by omega), countSurr_utf8Str ins hv.inRange]
    · show (G.drop (utf8Str ins).length).length =
        b.gapLen - (utf8Str ins).length
      rw [List.length_drop]
      omega
    · intro c hc
      rcases List.mem_append.mp hc with hc | hc
      · exact h8 c hc
      · exact hv c hc
    · show (if (utf8Str ins).length ≠ countCharsInBytes (utf8Str ins) then
          false else b.allAscii) = true → _
      intro hAll c hc
      rw [hcl] at hAll
      by_cases hlen : (utf8Str ins).length = ins.length
      · rw [if_neg (by omega)] at hAll
        have hins := ascii_of_utf8Str_length_eq hlen
        simp only [List.mem_append] at hc
        rcases hc with (hc | hc) | hc
        · exact h10 hAll c (by simp [hc])
        · exact hins c hc
        · exact h10 hAll c (by simp [hc])
      · rw [if_pos (by omega)] at hAll
        simp at hAll
  · show (b.data.take b.gapStartBytes ++ utf8Str ins ++
      b.data.drop (b.gapStartBytes + (utf8Str ins).length)).length =
      b.data.length
    rw [show b.data.take b.gapStartBytes = GapBuffer.startAsStr b from rfl,
      h1, hdrop]
    simp only [List.length_append, List.length_drop]
    omega

/-- `try_insert` specification. -/
theorem GapBuffer.tryInsert_spec {b : GapBuffer} {pre suf : List Nat}
    (hwf : b.WF pre suf) (p1 s1 ins : List Nat)
    (hsplit : p1 ++ s1 = pre ++ suf) (hv : ValidStr ins)
    (hfit : (utf8Str ins).length ≤ b.gapLen) :
    ∃ b2, b.tryInsert (utf8Str p1).length (utf8Str ins) = some b2 ∧
      b2.WF (p1 ++ ins) s1 ∧
      b2.gapLen = b.gapLen - (utf8Str ins).length ∧
      b2.data.length = b.data.length ∧
      b2.allAscii = ((b.moveGap (utf8Str p1).length).insertInGap
        (utf8Str ins)).allAscii := by
  obtain ⟨hwf2, hgl, hAs, hdl⟩ := GapBuffer.moveGap_spec hwf p1 s1 hsplit
  obtain ⟨hwf3, hgl3, hdl3⟩ :=
    GapBuffer.insertInGap_spec hwf2 ins hv (by omega)
  refine ⟨_, ?_, hwf3, by omega, by omega, rfl⟩
  unfold GapBuffer.tryInsert
  rw [if_neg (by omega)]

/-- `GapBuffer::new` is well-formed and empty. -/
theorem GapBuffer.new_WF (len : Nat) : (GapBuffer.new len).WF [] [] := by
  refine GapBuffer.WF_intro _ [] [] (List.replicate len 0) ?_ rfl rfl rfl ?_
    ?_ ?_ ?_
  · show List.replicate len 0 = utf8Str [] ++ (List.replicate len 0 ++ utf8Str [])
    simp [utf8Str]
  · show (List.replicate len 0).length = len
    simp
  · intro c hc
    simp at hc
  · intro c hc
    simp at hc
  · intro _ c hc
    simp at hc

/-- `new_from_str` specification. -/
theorem GapBuffer.newFromStr_spec (len : Nat) (s : List Nat)
    (hv : ValidStr s) (hfit : (utf8Str s).length ≤ len) :
    (GapBuffer.newFromStr len (utf8Str s)).WF s [] ∧
    (GapBuffer.newFromStr len (utf8Str s)).gapLen =
      len - (utf8Str s).length ∧
    (GapBuffer.newFromStr len (utf8Str s)).data.length = len := by
  have hnew := GapBuffer.new_WF len
  have hz : (utf8Str ([] : List Nat)).length = 0 := by simp [utf8Str]
  obtain ⟨b2, hsome, hwf2, hgl2, hdl2, -⟩ :=
    GapBuffer.tryInsert_spec hnew [] [] s (by simp) hv
      (by show (utf8Str s).length ≤ len; exact hfit)
  unfold GapBuffer.newFromStr
  rw [show (GapBuffer.new len).tryInsert 0 (utf8Str s)
      = (GapBuffer.new len).tryInsert (utf8Str ([] : List Nat)).length
        (utf8Str s) by rw [hz], hsome]
  simp only [Option.getD_some]
  refine ⟨by simpa using hwf2, by simpa [GapBuffer.new] using hgl2,
    by simpa [GapBuffer.new] using hdl2⟩

/-- `remove_at_gap` specification: widening the gap by the byte length of a
scalar head of the suffix removes those scalars. -/
theorem GapBuffer.removeAtGap_spec {b : GapBuffer} {pre suf : List Nat}
    (hwf : b.WF pre suf) (mid s1 : List Nat) (hsuf : suf = mid ++ s1) :
    (b.removeAtGap (utf8Str mid).length).WF pre s1 ∧
    (b.removeAtGap (utf8Str mid).length).data = b.data ∧
    (b.removeAtGap (utf8Str mid).length).allAscii = b.allAscii := by
  obtain ⟨hdata, hG⟩ := hwf.data_decomp
  set G := (b.data.drop b.gapStartBytes).take b.gapLen with hGdef
  obtain ⟨h1, h2, h3, h4, h5, h6, h7, h8, h9, h10⟩ := hwf
  refine ⟨?_, rfl, rfl⟩
  refine GapBuffer.WF_intro _ pre s1 (G ++ utf8Str mid) ?_ h3 h4 h5 ?_ h8
    ?_ ?_
  · show b.data = _
    rw [hdata, hsuf, utf8Str_append]
    simp [List.append_assoc]
  · show (G ++ utf8Str mid).length = b.gapLen + (utf8Str mid).length
    rw [List.length_append]
    omega
  · intro c hc
    exact h9 c (by rw [hsuf]; simp [hc])
  · intro ha c hc
    refine h10 ha c ?_
    simp only [List.mem_append] at hc ⊢
    rcases hc with hc | hc
    · left
      exact hc
    · right
      rw [hsuf]
      simp [hc]

/-- `remove_chars` specification: under the leaf invariants, removing `n`
scalars at character offset `pos` leaves the contents with those scalars
deleted and returns the number of bytes they occupied, in all gap
configurations. -/
theorem GapBuffer.removeChars_spec {b : GapBuffer} {pre suf : List Nat}
    (hwf : b.WF pre suf) (pos n : Nat) (hn : 1 ≤ n)
    (hle : pos + n ≤ pre.length + suf.length) :
    ∃ p2 s2, (b.removeChars pos n).1.WF p2 s2 ∧
      p2 ++ s2 = (pre ++ suf).take pos ++ (pre ++ suf).drop (pos + n) ∧
      (b.removeChars pos n).2 =
        (utf8Str (((pre ++ suf).drop pos).take n)).length ∧
      (b.removeChars pos n).1.data.length = b.data.length ∧
      (b.removeChars pos n).1.allAscii = b.allAscii := by
  have hwf0 := hwf
  obtain ⟨hdata, hG⟩ := hwf.data_decomp
  set G := (b.data.drop b.gapStartBytes).take b.gapLen with hGdef
  obtain ⟨h1, h2, h3, h4, h5, h6, h7, h8, h9, h10⟩ := hwf
  have haPre : b.allAscii = true → ∀ c ∈ pre, c < 0x80 :=
    fun ha c hc => h10 ha c (by simp [hc])
  have haSuf : b.allAscii = true → ∀ c ∈ suf, c < 0x80 :=
    fun ha c hc => h10 ha c (by simp [hc])
  simp only [GapBuffer.removeChars]
  rw [if_neg (by omega)]
  by_cases hstr : pos ≤ b.gapStartChars ∧ pos + n ≥ b.gapStartChars
  · rw [if_pos hstr]
    by_cases hlt : pos < b.gapStartChars
    · rw [if_pos hlt]
      -- Case A1: part of the deletion is the tail of the prefix.
      have hposlt : pos < pre.length := by omega
      have hrm : b.intCharsToBytesBackwards b.startAsStr
          (b.gapStartChars - pos) = (utf8Str (pre.drop pos)).length := by
        rw [h1, intCharsToBytesBackwards_spec b pre (b.gapStartChars - pos)
          h8.inRange (by omega) haPre, h4,
          show pre.length - (pre.length - pos) = pos by omega]
      rw [hrm]
      have hEpre : utf8Str pre = utf8Str (pre.take pos) ++
          utf8Str (pre.drop pos) := by
        rw [← utf8Str_append, List.take_append_drop]
      have hgsb : b.gapStartBytes = (utf8Str (pre.take pos)).length +
          (utf8Str (pre.drop pos)).length := by
        rw [h3, hEpre, List.length_append]
      have hslice : (b.data.drop
            (b.gapStartBytes - (utf8Str (pre.drop pos)).length)).take
            (utf8Str (pre.drop pos)).length = utf8Str (pre.drop pos) := by
        rw [show b.gapStartBytes - (utf8Str (pre.drop pos)).length =
            (utf8Str (pre.take pos)).length by omega,
          hdata, hEpre]
        rw [List.append_assoc, List.drop_left, List.take_left]
      rw [hslice]
      have hcountPre : pre.countP (fun c => decide (0x10000 ≤ c)) =
          (pre.take pos).countP (fun c => decide (0x10000 ≤ c)) +
          (pre.drop pos).countP (fun c => decide (0x10000 ≤ c)) := by
        conv_lhs => rw [← List.take_append_drop pos pre]
        rw [List.countP_append]
      have hpairs : (if b.allAscii = true then b.gapStartSurrogatePairs
          else b.gapStartSurrogatePairs -
            countUtf16SurrogatesInBytes (utf8Str (pre.drop pos))) =
          (pre.take pos).countP (fun c => decide (0x10000 ≤ c)) := by
        by_cases ha : b.allAscii = true
        · rw [if_pos ha, h5, hcountPre]
          have hz1 : (pre.take pos).countP (fun c => decide (0x10000 ≤ c))
              = 0 := ascii_countP_surr
              (fun c hc => haPre ha c (List.mem_of_mem_take hc))
          have hz2 : (pre.drop pos).countP (fun c => decide (0x10000 ≤ c))
              = 0 := ascii_countP_surr
              (fun c hc => haPre ha c (List.mem_of_mem_drop hc))
          omega
        · rw [if_neg ha, h5,
            countSurr_utf8Str (pre.drop pos)
              (fun c hc => (h8 c (List.mem_of_mem_drop hc)).1),
            hcountPre]
          omega
      -- The intermediate buffer `b1` is well-formed for the split
      -- (pre.take pos | suf).
      set b1 : GapBuffer := ⟨b.data,
          b.gapStartBytes - (utf8Str (pre.drop pos)).length,
          pos,
          (if b.allAscii = true then b.gapStartSurrogatePairs
            else b.gapStartSurrogatePairs -
              countUtf16SurrogatesInBytes (utf8Str (pre.drop pos))),
          b.gapLen + (utf8Str (pre.drop pos)).length,
          b.allAscii⟩ with hb1def
      have hwf1 : b1.WF (pre.take pos) suf := by
        refine GapBuffer.WF_intro _ (pre.take pos) suf
          (utf8Str (pre.drop pos) ++ G) ?_ ?_ ?_ ?_ ?_ ?_ h9 ?_
        · show b.data = _
          rw [hdata, hEpre]
          simp [List.append_assoc]
        · show b.gapStartBytes - (utf8Str (pre.drop pos)).length = _
          omega
        · show pos = (pre.take pos).length
          rw [List.length_take]
          omega
        · exact hpairs
        · show (utf8Str (pre.drop pos) ++ G).length =
            b.gapLen + (utf8Str (pre.drop pos)).length
          rw [List.length_append]
          omega
        · exact fun c hc => h8 c (List.mem_of_mem_take hc)
        · intro ha c hc
          refine h10 ha c ?_
          simp only [List.mem_append] at hc ⊢
          rcases hc with hc | hc
          · left
            exact List.mem_of_mem_take hc
          · right
            exact hc
      by_cases hdone : n - (b.gapStartChars - pos) = 0
      · rw [if_pos hdone]
        refine ⟨pre.take pos, suf, hwf1, ?_, ?_, rfl, rfl⟩
        · rw [List.take_append_eq_append_take,
            show pos - pre.length = 0 by omega,
            List.drop_append_eq_append_drop,
            List.drop_eq_nil_of_le (by omega),
            show pos + n - pre.length = 0 by omega]
          simp
        · have hn2 : n = pre.length - pos := by omega
          rw [List.drop_append_eq_append_drop,
            show pos - pre.length = 0 by omega]
          simp only [List.drop_zero]
          rw [List.take_append_eq_append_take,
            List.length_drop, hn2,
            show pre.length - pos - (pre.length - pos) = 0 by omega]
          simp [List.take_of_length_le]
      · rw [if_neg hdone]
        -- Remove the remaining scalars from the head of the suffix.
        have hd1le : n - (b.gapStartChars - pos) ≤ suf.length := by omega
        have hrmEnd : b1.intStrGetByteOffset b1.endAsStr
            (n - (b.gapStartChars - pos)) =
            (utf8Str (suf.take (n - (b.gapStartChars - pos)))).length := by
          rw [hwf1.2.1]
          exact intStrGetByteOffset_spec b1 suf _ h9.inRange hd1le
            (fun ha c hc => haSuf (by rw [hb1def] at ha; exact ha) c hc)
        rw [hrmEnd]
        obtain ⟨hwf2, hdata2, hascii2⟩ := GapBuffer.removeAtGap_spec hwf1
          (suf.take (n - (b.gapStartChars - pos)))
          (suf.drop (n - (b.gapStartChars - pos)))
          (List.take_append_drop _ _).symm
        obtain ⟨hstr1, hstr2⟩ := hstr
        refine ⟨pre.take pos, suf.drop (n - (b.gapStartChars - pos)),
          hwf2, ?_, ?_, by rw [hdata2], by rw [hascii2]⟩
        · conv_rhs => rw [List.take_append_eq_append_take,
            show pos - pre.length = 0 by omega, List.take_zero,
            List.drop_append_eq_append_drop,
            List.drop_eq_nil_of_le (show pre.length ≤ pos + n by omega),
            show pos + n - pre.length = n - (pre.length - pos) by omega]
          simp only [List.append_nil, List.nil_append]
          rw [h4]
        · conv_rhs => rw [List.drop_append_eq_append_drop,
            show pos - pre.length = 0 by omega, List.drop_zero,
            List.take_append_eq_append_take,
            List.take_of_length_le
              (show (pre.drop pos).length ≤ n by
                rw [List.length_drop]; omega),
            List.length_drop]
          simp only [List.drop_eq_nil_of_le, List.nil_append]
          rw [utf8Str_append, List.length_append, h4]
    · rw [if_neg hlt]
      -- Case A2: the deletion starts exactly at the gap.
      have hpos : pos = pre.length := by omega
      have hnle : n ≤ suf.length := by omega
      have hrmEnd : b.intStrGetByteOffset b.endAsStr n =
          (utf8Str (suf.take n)).length := by
        rw [h2]
        exact intStrGetByteOffset_spec b suf n h9.inRange hnle haSuf
      rw [hrmEnd]
      obtain ⟨hwf2, hdata2, hascii2⟩ := GapBuffer.removeAtGap_spec hwf0
        (suf.take n) (suf.drop n) (List.take_append_drop _ _).symm
      refine ⟨pre, suf.drop n, hwf2, ?_, ?_, by rw [hdata2],
        by rw [hascii2]⟩
      · rw [hpos, List.take_left, List.drop_append]
      · rw [hpos, List.drop_left]
  · rw [if_neg hstr]
    by_cases hlt : pos < b.gapStartChars
    · -- Case B1: the deleted range lies strictly inside the prefix.
      rw [if_pos hlt]
      have hlt2 : pos + n < b.gapStartChars := by
        by_contra hcon
        exact hstr ⟨by omega, by omega⟩
      have hgapBytes : b.intStrGetByteOffset b.startAsStr pos =
          (utf8Str (pre.take pos)).length := by
        rw [h1]
        exact intStrGetByteOffset_spec b pre pos h8.inRange (by omega) haPre
      rw [hgapBytes]
      obtain ⟨hwfm, hglm, ham, hdlm⟩ := GapBuffer.moveGap_spec hwf0
        (pre.take pos) (pre.drop pos ++ suf)
        (by rw [← List.append_assoc, List.take_append_drop])
      have hvmid : ValidStr (pre.drop pos ++ suf) := by
        intro c hc
        rcases List.mem_append.mp hc with hc | hc
        · exact h8 c (List.mem_of_mem_drop hc)
        · exact h9 c hc
      have hnlen : n ≤ (pre.drop pos ++ suf).length := by
        rw [List.length_append, List.length_drop]
        omega
      have hrmEnd : (b.moveGap
            (utf8Str (pre.take pos)).length).intStrGetByteOffset
          (b.moveGap (utf8Str (pre.take pos)).length).endAsStr n =
          (utf8Str ((pre.drop pos ++ suf).take n)).length := by
        rw [hwfm.2.1]
        refine intStrGetByteOffset_spec _ _ n hvmid.inRange hnlen ?_
        intro ha c hc
        rw [ham] at ha
        rcases List.mem_append.mp hc with hc | hc
        · exact haPre ha c (List.mem_of_mem_drop hc)
        · exact haSuf ha c hc
      rw [hrmEnd]
      obtain ⟨hwf2, hdata2, hascii2⟩ := GapBuffer.removeAtGap_spec hwfm
        ((pre.drop pos ++ suf).take n) ((pre.drop pos ++ suf).drop n)
        (List.take_append_drop _ _).symm
      refine ⟨pre.take pos, (pre.drop pos ++ suf).drop n, hwf2, ?_, ?_,
        by rw [hdata2, hdlm], by rw [hascii2, ham]⟩
      · conv_rhs => rw [List.take_append_eq_append_take,
          show pos - pre.length = 0 by omega, List.take_zero,
          List.drop_append_eq_append_drop,
          show pos + n - pre.length = 0 by omega, List.drop_zero]
        conv_lhs => rw [List.drop_append_eq_append_drop,
          show n - (pre.drop pos).length = 0 by
            rw [List.length_drop]; omega,
          List.drop_zero, List.drop_drop]
        simp [List.append_assoc]
      · conv_rhs => rw [List.drop_append_eq_append_drop,
          show pos - pre.length = 0 by omega, List.drop_zero]
    · -- Case B2: the deleted range lies strictly inside the suffix.
      rw [if_neg hlt]
      have hgt : pre.length < pos := by
        by_contra hcon
        exact hstr ⟨by omega, by omega⟩
      have hposd : pos - pre.length < suf.length := by omega
      have hgapBytes : b.intStrGetByteOffset b.endAsStr
          (pos - b.gapStartChars) + b.gapStartBytes =
          (utf8Str (pre ++ suf.take (pos - pre.length))).length := by
        rw [h2, h4,
          intStrGetByteOffset_spec b suf (pos - pre.length) h9.inRange
            (by omega) haSuf,
          h3, utf8Str_append, List.length_append]
        omega
      rw [hgapBytes]
      obtain ⟨hwfm, hglm, ham, hdlm⟩ := GapBuffer.moveGap_spec hwf0
        (pre ++ suf.take (pos - pre.length)) (suf.drop (pos - pre.length))
        (by rw [List.append_assoc, List.take_append_drop])
      have hvmid : ValidStr (suf.drop (pos - pre.length)) :=
        fun c hc => h9 c (List.mem_of_mem_drop hc)
      have hnlen : n ≤ (suf.drop (pos - pre.length)).length := by
        rw [List.length_drop]
        omega
      have hrmEnd : (b.moveGap
            (utf8Str (pre ++ suf.take (pos - pre.length))).length
          ).intStrGetByteOffset
          (b.moveGap
            (utf8Str (pre ++ suf.take (pos - pre.length))).length).endAsStr
          n =
          (utf8Str ((suf.drop (pos - pre.length)).take n)).length := by
        rw [hwfm.2.1]
        refine intStrGetByteOffset_spec _ _ n hvmid.inRange hnlen ?_
        intro ha c hc
        rw [ham] at ha
        exact haSuf ha c (List.mem_of_mem_drop hc)
      rw [hrmEnd]
      obtain ⟨hwf2, hdata2, hascii2⟩ := GapBuffer.removeAtGap_spec hwfm
        ((suf.drop (pos - pre.length)).take n)
        ((suf.drop (pos - pre.length)).drop n)
        (List.take_append_drop _ _).symm
      refine ⟨pre ++ suf.take (pos - pre.length),
        (suf.drop (pos - pre.length)).drop n, hwf2, ?_, ?_,
        by rw [hdata2, hdlm], by rw [hascii2, ham]⟩
      · conv_rhs => rw [List.take_append_eq_append_take,
          List.take_of_length_le (show pre.length ≤ pos by omega),
          List.drop_append_eq_append_drop,
          List.drop_eq_nil_of_le (show pre.length ≤ pos + n by omega)]
        conv_lhs => rw [List.drop_drop,
          show pos - pre.length + n = pos + n - pre.length by omega]
        simp [List.append_assoc]
      · conv_rhs => rw [List.drop_append_eq_append_drop,
          List.drop_eq_nil_of_le (show pre.length ≤ pos by omega)]
        simp only [List.nil_append]

/-! ### Single-node ropes -/

theorem mapIdx_id_of {α : Type} (g : Nat → α → α) (l : List α)
    (hg : ∀ i x, g i x = x) : List.mapIdx g l = l := by
  induction l generalizing g with
  | nil => rfl
  | cons a t ih =>
    rw [List.mapIdx_cons, hg, ih (fun i => g (i + 1)) (fun i x => hg (i + 1) x)]

theorem mapIdx_cons_tail_id {α : Type} (f : Nat → α → α) (a : α)
    (l : List α) (hf : ∀ i x, f (i + 1) x = x) :
    List.mapIdx f (a :: l) = f 0 a :: l := by
  rw [List.mapIdx_cons, mapIdx_id_of (fun i => f (i + 1)) l hf]

theorem usizeWrapAddInt_ofNat (a d : Nat) (h : a + d < 2 ^ 64) :
    usizeWrapAddInt a (d : Int) = a + d := by
  unfold usizeWrapAddInt
  omega

theorem JumpRope.lenChars_single (rng : Nat → Nat) (idx nb : Nat)
    (b : GapBuffer) (C P : Nat) :
    (JumpRope.single rng idx nb b C P).lenChars = C := rfl

theorem JumpRope.lenBytes_single (rng : Nat → Nat) (idx nb : Nat)
    (b : GapBuffer) (C P : Nat) :
    (JumpRope.single rng idx nb b C P).lenBytes = nb := rfl

theorem JumpRope.toStringBytes_single (rng : Nat → Nat) (idx nb : Nat)
    (b : GapBuffer) (C P : Nat) :
    (JumpRope.single rng idx nb b C P).toStringBytes =
      b.startAsStr ++ b.endAsStr := by
  have hnode : (JumpRope.single rng idx nb b C P).node 0 =
      ⟨b, 1, (⟨none, C, P⟩ : SkipEntry) ::
        List.replicate MAX_HEIGHT ⟨none, 0, 0⟩⟩ := rfl
  have h0 : (JumpRope.single rng idx nb b C P).heap.length = 1 := rfl
  simp only [JumpRope.toStringBytes, h0, toStringLoop, hnode,
    List.getD_cons_zero, List.append_nil]

theorem cursorWalkChar_single (rng : Nat → Nat) (idx nb : Nat)
    (b : GapBuffer) (C P pos : Nat) (iter : List CursorEntry) (f : Nat)
    (h : pos ≤ C) :
    cursorWalkChar (JumpRope.single rng idx nb b C P) true 0 0 pos 0 iter
      (f + 1) = (iter.set 0 ⟨0, pos, 0⟩, 0, pos, 0) := by
  have hnode : (JumpRope.single rng idx nb b C P).node 0 =
      ⟨b, 1, (⟨none, C, P⟩ : SkipEntry) ::
        List.replicate MAX_HEIGHT ⟨none, 0, 0⟩⟩ := rfl
  simp only [cursorWalkChar, hnode, List.getD_cons_zero]
  split
  · exfalso
    have hcond := by assumption
    rcases hcond with h1 | ⟨h2, -⟩
    · omega
    · exact h2 trivial
  · rw [if_neg (by omega : ¬(0 : Nat) ≠ 0)]

theorem JumpRope.mutCursorAtChar_single (rng : Nat → Nat) (idx nb : Nat)
    (b : GapBuffer) (C P pos : Nat) (h : pos ≤ C)
    (hp : b.countSurrogatePairs pos = 0) :
    (JumpRope.single rng idx nb b C P).mutCursorAtChar pos true =
      singleCursor pos := by
  simp only [JumpRope.mutCursorAtChar]
  have hh : (JumpRope.single rng idx nb b C P).head.height - 1 = 0 := rfl
  rw [hh, cursorWalkChar_single rng idx nb b C P pos _ _ h]
  have hnode : (JumpRope.single rng idx nb b C P).node 0 =
      ⟨b, 1, (⟨none, C, P⟩ : SkipEntry) ::
        List.replicate MAX_HEIGHT ⟨none, 0, 0⟩⟩ := rfl
  simp only [hnode, hp]
  rw [if_neg (by omega : ¬(0 + 0 > 0))]
  rfl

theorem updateOffsets_single (rng : Nat → Nat) (idx nb : Nat)
    (b : GapBuffer) (C P cpos : Nat) (a p : Int) :
    updateOffsets (JumpRope.single rng idx nb b C P) (singleCursor cpos) 1
      a p =
    JumpRope.single rng idx nb b (usizeWrapAddInt C a)
      (usizeWrapAddInt P p) := by
  have hnode : (JumpRope.single rng idx nb b C P).node 0 =
      ⟨b, 1, (⟨none, C, P⟩ : SkipEntry) ::
        List.replicate MAX_HEIGHT ⟨none, 0, 0⟩⟩ := rfl
  have hc0 : (singleCursor cpos).getD 0 ⟨0, 0, 0⟩ = ⟨0, cpos, 0⟩ := rfl
  simp only [updateOffsets, updateOffsetsLoop, hc0, hnode,
    List.getD_cons_zero, List.set_cons_zero]
  rfl

theorem insertAtCursor_single_gap (rng : Nat → Nat) (idx nb : Nat)
    (b : GapBuffer) (C P pos : Nat) (contents : List Nat) (pairs0 : Nat)
    (hne : ¬contents.isEmpty = true)
    (hp0 : pairs0 = if contents.length ≠ countCharsInBytes contents then
      countUtf16SurrogatesInBytes contents else 0)
    (hgap : b.gapStartChars = pos)
    (hlen : b.gapLen ≥ contents.length)
    (hC : C + countCharsInBytes contents < 2 ^ 64)
    (hP : P + pairs0 < 2 ^ 64)
    (hpos : pos + countCharsInBytes contents < 2 ^ 64) :
    insertAtCursor (JumpRope.single rng idx nb b C P) (singleCursor pos)
      contents =
    (JumpRope.single rng idx (nb + contents.length)
        (b.insertInGap contents) (C + countCharsInBytes contents)
        (P + pairs0),
      ⟨0, pos + countCharsInBytes contents, pairs0⟩ ::
        List.replicate MAX_HEIGHT ⟨0, 0, 0⟩) := by
  have hnode : (JumpRope.single rng idx nb b C P).node 0 =
      ⟨b, 1, (⟨none, C, P⟩ : SkipEntry) ::
        List.replicate MAX_HEIGHT ⟨none, 0, 0⟩⟩ := rfl
  have hc0 : (singleCursor pos).getD 0 ⟨0, 0, 0⟩ = ⟨0, pos, 0⟩ := rfl
  have hcM : (singleCursor pos).getD MAX_HEIGHT ⟨0, 0, 0⟩ = ⟨0, 0, 0⟩ := rfl
  simp only [insertAtCursor, hc0, hcM, hnode]
  rw [if_neg hne]
  rw [if_pos ⟨hgap, hlen⟩]
  rw [show (JumpRope.single rng idx nb b C P).setNode 0
      ⟨b.insertInGap contents, 1, (⟨none, C, P⟩ : SkipEntry) ::
        List.replicate MAX_HEIGHT ⟨none, 0, 0⟩⟩ =
    JumpRope.single rng idx nb (b.insertInGap contents) C P from rfl]
  rw [updateOffsets_single]
  rw [usizeWrapAddInt_ofNat C _ hC]
  rw [show (if contents.length ≠ countCharsInBytes contents then
      countUtf16SurrogatesInBytes contents else 0) = pairs0 from hp0.symm]
  rw [usizeWrapAddInt_ofNat P pairs0 hP]
  rw [show moveWithinNode (singleCursor pos) 1
      (countCharsInBytes contents : Int) (pairs0 : Int) =
    ⟨0, pos + countCharsInBytes contents, pairs0⟩ ::
      List.replicate MAX_HEIGHT ⟨0, 0, 0⟩ from by
    simp only [moveWithinNode, singleCursor]
    rw [mapIdx_cons_tail_id _ _ _ (fun i x => by
      rw [if_neg (by omega : ¬i + 1 < 1)])]
    rw [if_pos (by omega : (0 : Nat) < 1)]
    rw [show usizeWrapAddInt pos (countCharsInBytes contents : Int) =
      pos + countCharsInBytes contents from
        usizeWrapAddInt_ofNat pos _ hpos]
    rw [show usizeWrapAddInt 0 (pairs0 : Int) = 0 + pairs0 from
      usizeWrapAddInt_ofNat 0 pairs0 (by omega)]
    rw [Nat.zero_add]]
  rfl

theorem insertAtCursor_single_here (rng : Nat → Nat) (idx nb : Nat)
    (b : GapBuffer) (C P pos : Nat) (contents : List Nat) (pairs0 : Nat)
    (hne : ¬contents.isEmpty = true)
    (hp0 : pairs0 = if contents.length ≠ countCharsInBytes contents then
      countUtf16SurrogatesInBytes contents else 0)
    (hngap : ¬(b.gapStartChars = pos ∧ b.gapLen ≥ contents.length))
    (hfit : b.lenBytes + contents.length ≤ NODE_STR_SIZE)
    (hC : C + countCharsInBytes contents < 2 ^ 64)
    (hP : P + pairs0 < 2 ^ 64)
    (hpos : pos + countCharsInBytes contents < 2 ^ 64) :
    insertAtCursor (JumpRope.single rng idx nb b C P) (singleCursor pos)
      contents =
    (JumpRope.single rng idx (nb + contents.length)
        ((b.tryInsert (if pos > 0 then b.countBytes pos else 0)
          contents).getD b)
        (C + countCharsInBytes contents) (P + pairs0),
      ⟨0, pos + countCharsInBytes contents, pairs0⟩ ::
        List.replicate MAX_HEIGHT ⟨0, 0, 0⟩) := by
  have hnode : (JumpRope.single rng idx nb b C P).node 0 =
      ⟨b, 1, (⟨none, C, P⟩ : SkipEntry) ::
        List.replicate MAX_HEIGHT ⟨none, 0, 0⟩⟩ := rfl
  have hc0 : (singleCursor pos).getD 0 ⟨0, 0, 0⟩ = ⟨0, pos, 0⟩ := rfl
  have hcM : (singleCursor pos).getD MAX_HEIGHT ⟨0, 0, 0⟩ = ⟨0, 0, 0⟩ := rfl
  simp only [insertAtCursor, hc0, hcM, hnode]
  rw [if_neg hne]
  rw [if_neg hngap]
  rw [show decide (GapBuffer.lenBytes b + contents.length ≤ NODE_STR_SIZE)
    = true from decide_eq_true hfit]
  rw [if_neg (by simp : ¬((true = false) ∧
    (if pos > 0 then b.countBytes pos else 0) = GapBuffer.lenBytes b))]
  rw [if_pos rfl]
  dsimp only
  rw [hnode]
  rw [show (JumpRope.single rng idx nb b C P).setNode 0
      ⟨(b.tryInsert (if pos > 0 then b.countBytes pos else 0)
          contents).getD b, 1, (⟨none, C, P⟩ : SkipEntry) ::
        List.replicate MAX_HEIGHT ⟨none, 0, 0⟩⟩ =
    JumpRope.single rng idx nb
      ((b.tryInsert (if pos > 0 then b.countBytes pos else 0)
        contents).getD b) C P from rfl]
  set b2 : GapBuffer :=
    (b.tryInsert (if pos > 0 then b.countBytes pos else 0) contents).getD b
    with hb2
  have hrw : ({ rng := (JumpRope.single rng idx nb b2 C P).rng, rngIdx := (JumpRope.single rng idx nb b2 C P).rngIdx, numBytes := (JumpRope.single rng idx nb b2 C P).numBytes + contents.length, heap := (JumpRope.single rng idx nb b2 C P).heap } : JumpRope) = JumpRope.single rng idx (nb + contents.length) b2 C P := rfl
  rw [hrw]
  rw [updateOffsets_single]
  rw [usizeWrapAddInt_ofNat C _ hC]
  rw [show (if contents.length ≠ countCharsInBytes contents then
      countUtf16SurrogatesInBytes contents else 0) = pairs0 from hp0.symm]
  rw [usizeWrapAddInt_ofNat P pairs0 hP]
  rw [show moveWithinNode (singleCursor pos) 1
      (countCharsInBytes contents : Int) (pairs0 : Int) =
    ⟨0, pos + countCharsInBytes contents, pairs0⟩ ::
      List.replicate MAX_HEIGHT ⟨0, 0, 0⟩ from by
    simp only [moveWithinNode, singleCursor]
    rw [mapIdx_cons_tail_id _ _ _ (fun i x => by
      rw [if_neg (by omega : ¬i + 1 < 1)])]
    rw [if_pos (by omega : (0 : Nat) < 1)]
    rw [show usizeWrapAddInt pos (countCharsInBytes contents : Int) =
      pos + countCharsInBytes contents from
        usizeWrapAddInt_ofNat pos _ hpos]
    rw [show usizeWrapAddInt 0 (pairs0 : Int) = 0 + pairs0 from
      usizeWrapAddInt_ofNat 0 pairs0 (by omega)]
    rw [Nat.zero_add]]

theorem delAtCursor_single (rng : Nat → Nat) (idx nb : Nat)
    (b : GapBuffer) (C P pos L : Nat) (hL : 1 ≤ L) (hle : pos + L ≤ C) :
    delAtCursor (JumpRope.single rng idx nb b C P) (singleCursor pos) L =
    JumpRope.single rng idx (nb - (b.removeChars pos L).2)
      (b.removeChars pos L).1 (C - L)
      (P - (b.countSurrogatePairs (pos + L) -
        b.countSurrogatePairs pos)) := by
  obtain ⟨k, rfl⟩ : ∃ k, L = k + 1 := ⟨L - 1, by omega⟩
  have hnode : (JumpRope.single rng idx nb b C P).node 0 =
      ⟨b, 1, (⟨none, C, P⟩ : SkipEntry) ::
        List.replicate MAX_HEIGHT ⟨none, 0, 0⟩⟩ := rfl
  have hc0 : (singleCursor pos).getD 0 ⟨0, 0, 0⟩ = ⟨0, pos, 0⟩ := rfl
  have hcM : (singleCursor pos).getD MAX_HEIGHT ⟨0, 0, 0⟩ = ⟨0, 0, 0⟩ := rfl
  simp only [delAtCursor, hc0]
  rw [if_neg (by omega : ¬k + 1 = 0)]
  rw [delAtCursorLoop]
  rw [if_neg (by omega : ¬k + 1 = 0)]
  simp only [hnode, List.getD_cons_zero]
  rw [if_neg (by omega : ¬pos = C)]
  dsimp only
  simp only [hnode, Node.numChars, List.getD_cons_zero]
  rw [show min (k + 1) (C - pos) = k + 1 from Nat.min_eq_left (by omega)]
  rw [if_neg (by omega : ¬k + 1 = 0)]
  rw [hcM]
  rw [if_pos (Or.inr rfl : k + 1 < C ∨ (0 : Nat) = 0)]
  rcases hrc : b.removeChars pos (k + 1) with ⟨str2, rb⟩
  dsimp only
  rw [mapIdx_cons_tail_id _ _ _ (fun i x => by
    rw [if_neg (by omega : ¬i + 1 < 1)])]
  rw [if_pos (by omega : (0 : Nat) < 1)]
  dsimp only [hcM, JumpRope.setNode, JumpRope.single, JumpRope.node,
    List.set_cons_zero, List.getD_cons_zero]
  simp only [Nat.sub_self]
  rw [delCountLoop]
  rw [delAtCursorLoop]
  rw [if_pos rfl]

theorem JumpRope.remove_single (rng : Nat → Nat) (idx nb : Nat)
    (b : GapBuffer) (C P rangeStart rangeEnd : Nat)
    (h1 : rangeStart < min rangeEnd C)
    (hp : b.countSurrogatePairs rangeStart = 0) :
    (JumpRope.single rng idx nb b C P).remove rangeStart rangeEnd =
    JumpRope.single rng idx
      (nb - (b.removeChars rangeStart (min rangeEnd C - rangeStart)).2)
      (b.removeChars rangeStart (min rangeEnd C - rangeStart)).1
      (C - (min rangeEnd C - rangeStart))
      (P - (b.countSurrogatePairs
          (rangeStart + (min rangeEnd C - rangeStart)) -
        b.countSurrogatePairs rangeStart)) := by
  simp only [JumpRope.remove, JumpRope.lenChars_single]
  rw [if_neg (by omega : ¬rangeStart ≥ min rangeEnd C)]
  rw [JumpRope.mutCursorAtChar_single rng idx nb b C P rangeStart
    (by omega) hp]
  exact delAtCursor_single rng idx nb b C P rangeStart _ (by omega)
    (by omega)

theorem JumpRope.insert_single_gap (rng : Nat → Nat) (idx nb : Nat)
    (b : GapBuffer) (C P pos : Nat) (contents : List Nat) (pairs0 : Nat)
    (hne : ¬contents.isEmpty = true)
    (hp0 : pairs0 = if contents.length ≠ countCharsInBytes contents then
      countUtf16SurrogatesInBytes contents else 0)
    (hp : b.countSurrogatePairs (min pos C) = 0)
    (hgap : b.gapStartChars = min pos C)
    (hlen : b.gapLen ≥ contents.length)
    (hC : C + countCharsInBytes contents < 2 ^ 64)
    (hP : P + pairs0 < 2 ^ 64) :
    (JumpRope.single rng idx nb b C P).insert pos contents =
    JumpRope.single rng idx (nb + contents.length)
      (b.insertInGap contents) (C + countCharsInBytes contents)
      (P + pairs0) := by
  simp only [JumpRope.insert, JumpRope.lenChars_single]
  rw [if_neg hne]
  rw [JumpRope.mutCursorAtChar_single rng idx nb b C P (min pos C)
    (by omega) hp]
  rw [insertAtCursor_single_gap rng idx nb b C P (min pos C) contents
    pairs0 hne hp0 hgap hlen hC hP (by omega)]

theorem JumpRope.insert_single_here (rng : Nat → Nat) (idx nb : Nat)
    (b : GapBuffer) (C P pos : Nat) (contents : List Nat) (pairs0 : Nat)
    (hne : ¬contents.isEmpty = true)
    (hp0 : pairs0 = if contents.length ≠ countCharsInBytes contents then
      countUtf16SurrogatesInBytes contents else 0)
    (hp : b.countSurrogatePairs (min pos C) = 0)
    (hngap : ¬(b.gapStartChars = min pos C ∧
      b.gapLen ≥ contents.length))
    (hfit : b.lenBytes + contents.length ≤ NODE_STR_SIZE)
    (hC : C + countCharsInBytes contents < 2 ^ 64)
    (hP : P + pairs0 < 2 ^ 64) :
    (JumpRope.single rng idx nb b C P).insert pos contents =
    JumpRope.single rng idx (nb + contents.length)
      ((b.tryInsert (if min pos C > 0 then b.countBytes (min pos C) else 0)
        contents).getD b)
      (C + countCharsInBytes contents) (P + pairs0) := by
  simp only [JumpRope.insert, JumpRope.lenChars_single]
  rw [if_neg hne]
  rw [JumpRope.mutCursorAtChar_single rng idx nb b C P (min pos C)
    (by omega) hp]
  rw [insertAtCursor_single_here rng idx nb b C P (min pos C) contents
    pairs0 hne hp0 hngap hfit hC hP (by omega)]

theorem JumpRope.new_eq_single (rng : Nat → Nat) :
    JumpRope.new rng =
    JumpRope.single rng 0 0 (GapBuffer.new NODE_STR_SIZE) 0 0 := by
  simp only [JumpRope.new, JumpRope.newWithRng, JumpRope.single,
    Node.newWithHeight]
  rw [show GapBuffer.newFromStr NODE_STR_SIZE [] =
    GapBuffer.new NODE_STR_SIZE from by decide]
  rw [show List.replicate (MAX_HEIGHT + 1)
      (⟨none, 0, 0⟩ : SkipEntry) = (⟨none, 0, 0⟩ : SkipEntry) ::
      List.replicate MAX_HEIGHT ⟨none, 0, 0⟩ from List.replicate_succ ..]

theorem JumpRope.fromStr_short (rng : Nat → Nat) (s : List Nat)
    (hne : ¬s.isEmpty = true) (hlen : s.length ≤ NODE_STR_SIZE) :
    JumpRope.fromStr rng s =
    JumpRope.single rng 0 s.length
      ((GapBuffer.new NODE_STR_SIZE).insertInGap s)
      (countCharsInBytes s)
      (if s.length ≠ countCharsInBytes s then
        countUtf16SurrogatesInBytes s else 0) := by
  rw [JumpRope.fromStr, JumpRope.new_eq_single]
  rw [JumpRope.insert_single_gap rng 0 0 (GapBuffer.new NODE_STR_SIZE)
    0 0 0 s _ hne rfl (by rw [Nat.min_zero]; rfl) (by rw [Nat.min_zero]; rfl)
    (by simp only [GapBuffer.new]; omega)
    (by have h2 : countCharsInBytes s ≤ s.length :=
          List.countP_le_length isCharBoundary
        have h3 : NODE_STR_SIZE = 392 := rfl
        omega)
    (by split
        · have h2 : countUtf16SurrogatesInBytes s ≤ s.length :=
            List.countP_le_length isSurrogateByte
          have h3 : NODE_STR_SIZE = 392 := rfl
          omega
        · omega)]
  rw [Nat.zero_add, Nat.zero_add, Nat.zero_add]

/-- Evaluation of the C10 scenario: `from("κόσμε")` followed by
`insert(2, "𝕐𝕆😘")`, for every rng stream.  The byte strings are the UTF-8
encodings of the two claim strings' scalar values. -/
theorem kosme_insert_eval (rng : Nat → Nat) :
    (JumpRope.fromStr rng
        (utf8Str [0x3BA, 0x3CC, 0x3C3, 0x3BC, 0x3B5])).insert 2
      (utf8Str [0x1D550, 0x1D546, 0x1F618]) =
    JumpRope.single rng 0 22
      ((((GapBuffer.new NODE_STR_SIZE).insertInGap
          (utf8Str [0x3BA, 0x3CC, 0x3C3, 0x3BC, 0x3B5])).tryInsert
        (if min 2 5 > 0 then
          ((GapBuffer.new NODE_STR_SIZE).insertInGap
            (utf8Str [0x3BA, 0x3CC, 0x3C3, 0x3BC, 0x3B5])).countBytes
            (min 2 5) else 0)
        (utf8Str [0x1D550, 0x1D546, 0x1F618])).getD
        ((GapBuffer.new NODE_STR_SIZE).insertInGap
          (utf8Str [0x3BA, 0x3CC, 0x3C3, 0x3BC, 0x3B5])))
      8 3 := by
  have h1 : JumpRope.fromStr rng
      (utf8Str [0x3BA, 0x3CC, 0x3C3, 0x3BC, 0x3B5]) =
      JumpRope.single rng 0 10
        ((GapBuffer.new NODE_STR_SIZE).insertInGap
          (utf8Str [0x3BA, 0x3CC, 0x3C3, 0x3BC, 0x3B5])) 5 0 := by
    rw [JumpRope.fromStr_short rng _ (by decide) (by decide)]
    rw [show (utf8Str [0x3BA, 0x3CC, 0x3C3, 0x3BC, 0x3B5]).length = 10
      from by decide]
    rw [show countCharsInBytes
      (utf8Str [0x3BA, 0x3CC, 0x3C3, 0x3BC, 0x3B5]) = 5 from by decide]
    rw [show (if (10 : Nat) ≠ 5 then countUtf16SurrogatesInBytes
      (utf8Str [0x3BA, 0x3CC, 0x3C3, 0x3BC, 0x3B5]) else 0) = 0
      from by decide]
  rw [h1]
  rw [JumpRope.insert_single_here rng 0 10
    ((GapBuffer.new NODE_STR_SIZE).insertInGap
      (utf8Str [0x3BA, 0x3CC, 0x3C3, 0x3BC, 0x3B5])) 5 0 2
    (utf8Str [0x1D550, 0x1D546, 0x1F618]) 3 (by decide) (by decide)
    (by decide) (by decide) (by decide) (by decide) (by decide)]
  rw [show (10 : Nat) + (utf8Str [0x1D550, 0x1D546, 0x1F618]).length = 22
    from by decide]
  rw [show (5 : Nat) + countCharsInBytes
    (utf8Str [0x1D550, 0x1D546, 0x1F618]) = 8 from by decide]

/-- The C10 content equality, shared by the counterexample and the amended
theorem: the rope holds exactly `"κό𝕐𝕆😘σμε"`. -/
theorem kosme_insert_content (rng : Nat → Nat) :
    ((JumpRope.fromStr rng
        (utf8Str [0x3BA, 0x3CC, 0x3C3, 0x3BC, 0x3B5])).insert 2
      (utf8Str [0x1D550, 0x1D546, 0x1F618])).toStringBytes =
    utf8Str [0x3BA, 0x3CC, 0x1D550, 0x1D546, 0x1F618, 0x3C3, 0x3BC,
      0x3B5] := by
  rw [kosme_insert_eval, JumpRope.toStringBytes_single]
  decide

end Jumprope

/-- C10 (counterexample): in the scenario `from("κόσμε")` then
`insert(2, "𝕐𝕆😘")` the rope's `len_bytes()` is 22 — the ten UTF-8 bytes of
`"κόσμε"` plus the twelve bytes of `"𝕐𝕆😘"` — and not 21 as the claim
states.  Quantified over every rng stream, hence valid for the seeded
generator. -/
theorem C10_len_bytes_counterexample :
    ((Jumprope.JumpRope.fromStr (fun _ => 0)
        (Jumprope.utf8Str [0x3BA, 0x3CC, 0x3C3, 0x3BC, 0x3B5])).insert 2
      (Jumprope.utf8Str [0x1D550, 0x1D546, 0x1F618])).lenBytes = 22 ∧
    (22 : Nat) ≠ 21 := by
  constructor
  · rw [Jumprope.kosme_insert_eval, Jumprope.JumpRope.lenBytes_single]
  · decide

/-- C10 (amended): `from("κόσμε")` followed by `insert(2, "𝕐𝕆😘")` yields a
rope whose content is `"κό𝕐𝕆😘σμε"` with `len_chars() = 8` and
`len_bytes() = 22` (not 21: `"κόσμε"` is 10 bytes and `"𝕐𝕆😘"` is 12).
The content, character count and byte count are independent of the rng
stream. -/
theorem C10_insert_scenario (rng : Nat → Nat) :
    ((Jumprope.JumpRope.fromStr rng
        (Jumprope.utf8Str [0x3BA, 0x3CC, 0x3C3, 0x3BC, 0x3B5])).insert 2
      (Jumprope.utf8Str [0x1D550, 0x1D546, 0x1F618])).toStringBytes =
      Jumprope.utf8Str [0x3BA, 0x3CC, 0x1D550, 0x1D546, 0x1F618, 0x3C3,
        0x3BC, 0x3B5] ∧
    ((Jumprope.JumpRope.fromStr rng
        (Jumprope.utf8Str [0x3BA, 0x3CC, 0x3C3, 0x3BC, 0x3B5])).insert 2
      (Jumprope.utf8Str [0x1D550, 0x1D546, 0x1F618])).lenChars = 8 ∧
    ((Jumprope.JumpRope.fromStr rng
        (Jumprope.utf8Str [0x3BA, 0x3CC, 0x3C3, 0x3BC, 0x3B5])).insert 2
      (Jumprope.utf8Str [0x1D550, 0x1D546, 0x1F618])).lenBytes = 22 := by
  refine ⟨Jumprope.kosme_insert_content rng, ?_, ?_⟩
  · rw [Jumprope.kosme_insert_eval, Jumprope.JumpRope.lenChars_single]
  · rw [Jumprope.kosme_insert_eval, Jumprope.JumpRope.lenBytes_single]

namespace Jumprope

/-! ### Buffered-wrapper evaluation helpers -/

theorem JumpRopeBuf.insert_push (r : JumpRope) (op : BufferedOp)
    (pos : Nat) (content : List Nat) (op2 : BufferedOp)
    (h : op.tryAppend (Op.Ins pos content) = some op2) :
    JumpRopeBuf.insert ⟨r, op⟩ pos content = ⟨r, op2⟩ := by
  simp only [JumpRopeBuf.insert, JumpRopeBuf.internalPushOp, h]

theorem JumpRopeBuf.remove_push (r : JumpRope) (op : BufferedOp)
    (rangeStart rangeEnd : Nat) (op2 : BufferedOp)
    (h : op.tryAppend (Op.Del rangeStart rangeEnd) = some op2) :
    JumpRopeBuf.remove ⟨r, op⟩ rangeStart rangeEnd = ⟨r, op2⟩ := by
  simp only [JumpRopeBuf.remove, JumpRopeBuf.internalPushOp, h]

theorem JumpRopeBuf.intoInner_of_empty (r : JumpRope) (op : BufferedOp)
    (h : op.isEmpty = true) : JumpRopeBuf.intoInner ⟨r, op⟩ = r := by
  simp only [JumpRopeBuf.intoInner, JumpRopeBuf.flushMut, h]
  simp

theorem JumpRopeBuf.intoInner_del (r : JumpRope) (op : BufferedOp)
    (h : op.isEmpty = false) (hk : op.kind = Kind.Del) :
    JumpRopeBuf.intoInner ⟨r, op⟩ =
      r.remove op.rangeStart op.rangeEnd := by
  simp only [JumpRopeBuf.intoInner, JumpRopeBuf.flushMut, h, hk]
  simp

/-- Evaluation of `from("ab")` for every rng stream. -/
theorem ab_fromStr_eval (rng : Nat → Nat) :
    JumpRope.fromStr rng [0x61, 0x62] =
    JumpRope.single rng 0 2
      ((GapBuffer.new NODE_STR_SIZE).insertInGap [0x61, 0x62]) 2 0 := by
  rw [JumpRope.fromStr_short rng _ (by decide) (by decide)]
  rw [show countCharsInBytes [0x61, 0x62] = 2 from by decide]
  rw [show ([0x61, 0x62] : List Nat).length = 2 from rfl]
  rw [show (if (2 : Nat) ≠ 2 then
    countUtf16SurrogatesInBytes [0x61, 0x62] else 0) = 0 from by decide]

/-- Evaluation of the direct-rope side of the C1 scenario:
`from("ab")` then `insert(10, "xy")` appends (the position is clamped). -/
theorem ab_insert_xy_eval (rng : Nat → Nat) :
    (JumpRope.fromStr rng [0x61, 0x62]).insert 10 [0x78, 0x79] =
    JumpRope.single rng 0 4
      (((GapBuffer.new NODE_STR_SIZE).insertInGap
        [0x61, 0x62]).insertInGap [0x78, 0x79]) 4 0 := by
  rw [ab_fromStr_eval]
  rw [JumpRope.insert_single_gap rng 0 2
    ((GapBuffer.new NODE_STR_SIZE).insertInGap [0x61, 0x62]) 2 0 10
    [0x78, 0x79] 0 (by decide) (by decide) (by decide) (by decide)
    (by decide) (by decide) (by decide)]
  rw [show countCharsInBytes [0x78, 0x79] = 2 from by decide]
  rfl

end Jumprope

/-- C1 (refutation): the buffered wrapper does not always agree with the
plain rope.  Starting from `"ab"`, pushing `insert(10, "xy")` and then
`remove(10..12)` through a `JumpRopeBuf` and flushing yields `"ab"` —
`try_append` merges the two pending ops in unclamped coordinates and
cancels them — while applying the same two edits directly to a `JumpRope`
clamps the insert position to 2 and the delete range to an empty range,
yielding `"abxy"`. -/
theorem C1_buffered_divergence (rng : Nat → Nat) :
    (((Jumprope.JumpRopeBuf.fromStr rng [0x61, 0x62]).insert 10
        [0x78, 0x79]).remove 10 12).intoInner.toStringBytes =
      [0x61, 0x62] ∧
    (((Jumprope.JumpRope.fromStr rng [0x61, 0x62]).insert 10
        [0x78, 0x79]).remove 10 12).toStringBytes =
      [0x61, 0x62, 0x78, 0x79] ∧
    ([0x61, 0x62] : List Nat) ≠ [0x61, 0x62, 0x78, 0x79] := by
  refine ⟨?_, ?_, by decide⟩
  · show ((Jumprope.JumpRopeBuf.insert
      ⟨Jumprope.JumpRope.fromStr rng [0x61, 0x62],
        Jumprope.BufferedOp.new⟩ 10
      [0x78, 0x79]).remove 10 12).intoInner.toStringBytes = [0x61, 0x62]
    rw [Jumprope.JumpRopeBuf.insert_push _ _ _ _
      ⟨Jumprope.Kind.Ins, [0x78, 0x79], 10, 12⟩ (by decide)]
    rw [Jumprope.JumpRopeBuf.remove_push _ _ _ _
      ⟨Jumprope.Kind.Ins, [], 10, 10⟩ (by decide)]
    rw [Jumprope.JumpRopeBuf.intoInner_of_empty _ _ (by decide)]
    rw [Jumprope.ab_fromStr_eval, Jumprope.JumpRope.toStringBytes_single]
    decide
  · rw [Jumprope.ab_insert_xy_eval]
    have hrm : (Jumprope.JumpRope.single rng 0 4
        (((Jumprope.GapBuffer.new Jumprope.NODE_STR_SIZE).insertInGap
          [0x61, 0x62]).insertInGap [0x78, 0x79]) 4 0).remove 10 12 =
        Jumprope.JumpRope.single rng 0 4
        (((Jumprope.GapBuffer.new Jumprope.NODE_STR_SIZE).insertInGap
          [0x61, 0x62]).insertInGap [0x78, 0x79]) 4 0 := by
      simp only [Jumprope.JumpRope.remove, Jumprope.JumpRope.lenChars_single]
      rw [if_pos (by decide : 10 ≥ min 12 4)]
    rw [hrm, Jumprope.JumpRope.toStringBytes_single]
    decide

/-- C6 (refutation): `len_chars()` on a buffered rope is not the length of
the logical rope.  From `"ab"`, pushing `remove(1..5)` buffers the
unclamped range `1..5`; `len_chars()` computes `2 - 4`, which wraps to
`2^64 - 2` (release mode), while the logical rope — the rope with the
pending delete applied, as `into_inner` produces — has one character. -/
theorem C6_len_chars_divergence (rng : Nat → Nat) :
    ((Jumprope.JumpRopeBuf.fromStr rng [0x61, 0x62]).remove 1 5).lenChars =
      2 ^ 64 - 2 ∧
    ((Jumprope.JumpRopeBuf.fromStr rng
      [0x61, 0x62]).remove 1 5).intoInner.lenChars = 1 ∧
    (2 ^ 64 - 2 : Nat) ≠ 1 := by
  have hpush : (Jumprope.JumpRopeBuf.fromStr rng [0x61, 0x62]).remove 1 5 =
      ⟨Jumprope.JumpRope.fromStr rng [0x61, 0x62],
        ⟨Jumprope.Kind.Del, [], 1, 5⟩⟩ :=
    Jumprope.JumpRopeBuf.remove_push _ _ _ _ _ (by decide)
  refine ⟨?_, ?_, by decide⟩
  · rw [hpush]
    simp only [Jumprope.JumpRopeBuf.lenChars]
    rw [Jumprope.ab_fromStr_eval, Jumprope.JumpRope.lenChars_single]
    decide
  · rw [hpush]
    rw [Jumprope.JumpRopeBuf.intoInner_del _ _ (by decide) rfl]
    rw [Jumprope.ab_fromStr_eval]
    rw [Jumprope.JumpRope.remove_single rng 0 2
      ((Jumprope.GapBuffer.new Jumprope.NODE_STR_SIZE).insertInGap
        [0x61, 0x62]) 2 0 1 5 (by decide) (by decide)]
    rw [Jumprope.JumpRope.lenChars_single]
    decide

namespace Jumprope

end Jumprope

/-- C4: the public positional arguments are clamped.  For every rope state:
an insert past the end (`len_chars < pos`) equals the insert at
`len_chars` (append); a remove whose end exceeds `len_chars` equals the
remove truncated to `min` with `len_chars`; inserting the empty string and
removing an empty range (`b ≤ a`) change nothing. -/
theorem C4_clamping :
    (∀ (r : Jumprope.JumpRope) (pos : Nat) (s : List Nat),
      r.lenChars < pos → r.insert pos s = r.insert r.lenChars s) ∧
    (∀ (r : Jumprope.JumpRope) (a b : Nat),
      r.lenChars < b → r.remove a b = r.remove a (min b r.lenChars)) ∧
    (∀ (r : Jumprope.JumpRope) (pos : Nat), r.insert pos [] = r) ∧
    (∀ (r : Jumprope.JumpRope) (a b : Nat), b ≤ a → r.remove a b = r) := by
  refine ⟨?_, ?_, ?_, ?_⟩
  · intro r pos s h
    simp only [Jumprope.JumpRope.insert]
    rw [Nat.min_eq_right (Nat.le_of_lt h), Nat.min_self]
  · intro r a b h
    simp only [Jumprope.JumpRope.remove]
    rw [Nat.min_assoc, Nat.min_self]
  · intro r pos
    rfl
  · intro r a b h
    simp only [Jumprope.JumpRope.remove]
    rw [if_pos (Nat.le_trans (Nat.min_le_left b _) h)]

/-- Witness for C4 at concrete inputs: the empty rope with the zero
stream, positions past its end. -/
theorem C4_clamping_witness :
    ((Jumprope.JumpRope.new fun _ => 0).lenChars < 10 ∧
      (Jumprope.JumpRope.new fun _ => 0).insert 10 [0x61] =
        (Jumprope.JumpRope.new fun _ => 0).insert
          (Jumprope.JumpRope.new fun _ => 0).lenChars [0x61]) ∧
    ((Jumprope.JumpRope.new fun _ => 0).lenChars < 12 ∧
      (Jumprope.JumpRope.new fun _ => 0).remove 1 12 =
        (Jumprope.JumpRope.new fun _ => 0).remove 1
          (min 12 (Jumprope.JumpRope.new fun _ => 0).lenChars)) ∧
    ((Jumprope.JumpRope.new fun _ => 0).insert 3 [] =
      Jumprope.JumpRope.new fun _ => 0) ∧
    (2 ≤ 3 ∧ (Jumprope.JumpRope.new fun _ => 0).remove 3 2 =
      Jumprope.JumpRope.new fun _ => 0) :=
  ⟨⟨by decide, C4_clamping.1 _ 10 [0x61] (by decide)⟩,
    ⟨by decide, C4_clamping.2.1 _ 1 12 (by decide)⟩,
    C4_clamping.2.2.1 _ 3,
    by decide, C4_clamping.2.2.2 _ 3 2 (by decide)⟩

namespace Jumprope

/-! ### The level-0 chain and `Display` -/

theorem randomHeightAux_ge (rng : Nat → Nat) (idx h fuel : Nat) :
    h ≤ (randomHeightAux rng idx h fuel).1 := by
  induction fuel generalizing idx h with
  | zero => simp [randomHeightAux]
  | succ f ih =>
    simp only [randomHeightAux]
    split
    · split
      · exact Nat.le_trans (Nat.le_succ h) (ih (idx + 1) (h + 1))
      · exact Nat.le_refl h
    · exact Nat.le_refl h

theorem randomHeight_ge_one (rng : Nat → Nat) (idx : Nat) :
    1 ≤ (randomHeight rng idx).1 :=
  randomHeightAux_ge rng idx 1 MAX_HEIGHT

theorem getD_set_ne_zero {α : Type} (l : List α) (i : Nat) (v d : α)
    (h : i ≠ 0) : (l.set i v).getD 0 d = l.getD 0 d := by
  rw [List.getD_eq_getElem?_getD, List.getElem?_set_ne (by omega : i ≠ 0),
    ← List.getD_eq_getElem?_getD]

theorem getD_set_pred_self {α : Type} (l : List α) (i : Nat) (d : α) :
    (l.set i (l.getD (i - 1) d)).getD 0 d = l.getD 0 d := by
  match i with
  | 0 =>
    cases l with
    | nil => rfl
    | cons a t => rfl
  | j + 1 => exact getD_set_ne_zero l (j + 1) _ d (by omega)

theorem chainOk_nil_iff (r : JumpRope) (o : Option Nat) :
    chainOk r [] o ↔ o = none := Iff.rfl

theorem chainOk_cons_iff (r : JumpRope) (a : Nat) (rest : List Nat)
    (o : Option Nat) :
    chainOk r (a :: rest) o ↔ o = some a ∧ a < r.heap.length ∧
      chainOk r rest ((r.node a).nexts.getD 0 ⟨none, 0, 0⟩).node :=
  Iff.rfl

theorem chainOk_mem_lt (r : JumpRope) (p : List Nat) (o : Option Nat)
    (h : chainOk r p o) : ∀ x ∈ p, x < r.heap.length := by
  induction p generalizing o with
  | nil => intro x hx; cases hx
  | cons a rest ih =>
    obtain ⟨-, ha, hrest⟩ := h
    intro x hx
    rcases List.mem_cons.mp hx with rfl | hx
    · exact ha
    · exact ih _ hrest x hx

theorem toStringLoop_of_chain (r : JumpRope) (p : List Nat)
    (o : Option Nat) (h : chainOk r p o) :
    ∀ fuel, p.length ≤ fuel → toStringLoop r o fuel = spell r p := by
  induction p generalizing o with
  | nil => intro fuel _; rw [h]; cases fuel <;> rfl
  | cons a rest ih =>
    intro fuel hf
    obtain ⟨rfl, -, hrest⟩ := h
    obtain ⟨f, rfl⟩ : ∃ f, fuel = f + 1 :=
      ⟨fuel - 1, by simp at hf; omega⟩
    rw [toStringLoop]
    rw [ih _ hrest f (by simp at hf; omega)]
    simp [spell, nodeStr, List.append_assoc]

theorem nodup_bound (p : List Nat) (n : Nat) (hnd : p.Nodup)
    (hlt : ∀ x ∈ p, x < n) : p.length ≤ n := by
  classical
  have h1 : p.toFinset.card = p.length := List.toFinset_card_of_nodup hnd
  have h2 : p.toFinset ⊆ Finset.range n := by
    intro x hx
    rw [Finset.mem_range]
    exact hlt x (List.mem_toFinset.mp hx)
  have h3 := Finset.card_le_card h2
  rw [h1, Finset.card_range] at h3
  exact h3

theorem toStringBytes_of_chain (r : JumpRope) (p : List Nat)
    (h : chainOk r p (some 0)) (hnd : p.Nodup) :
    r.toStringBytes = spell r p := by
  refine toStringLoop_of_chain r p _ h _ ?_
  have := nodup_bound p r.heap.length hnd (chainOk_mem_lt r p _ h)
  omega

theorem Level0Frame.refl (r : JumpRope) : Level0Frame r r :=
  ⟨rfl, fun _ => rfl, fun _ => rfl, fun _ => rfl⟩

theorem Level0Frame.trans {r1 r2 r3 : JumpRope}
    (h1 : Level0Frame r1 r2) (h2 : Level0Frame r2 r3) :
    Level0Frame r1 r3 := by
  obtain ⟨a1, b1, c1, d1⟩ := h1
  obtain ⟨a2, b2, c2, d2⟩ := h2
  exact ⟨a2.trans a1, fun x => (b2 x).trans (b1 x),
    fun x => (c2 x).trans (c1 x), fun x => (d2 x).trans (d1 x)⟩

theorem JumpRope.heapLength_setNode (r : JumpRope) (a : Nat) (n : Node) :
    (r.setNode a n).heap.length = r.heap.length := by
  simp [JumpRope.setNode]

theorem JumpRope.node_setNode_same (r : JumpRope) (a : Nat) (n : Node)
    (h : a < r.heap.length) : (r.setNode a n).node a = n := by
  simp only [JumpRope.node, JumpRope.setNode]
  rw [List.getD_eq_getElem?_getD, List.getElem?_set_self h]
  rfl

theorem JumpRope.node_setNode_other (r : JumpRope) (a : Nat) (n : Node)
    (x : Nat) (h : x ≠ a) : (r.setNode a n).node x = r.node x := by
  simp only [JumpRope.node, JumpRope.setNode]
  rw [List.getD_eq_getElem?_getD, List.getElem?_set_ne (by omega : a ≠ x),
    ← List.getD_eq_getElem?_getD]

theorem JumpRope.node_setNode_oob (r : JumpRope) (a : Nat) (n : Node)
    (h : r.heap.length ≤ a) (x : Nat) :
    (r.setNode a n).node x = r.node x := by
  simp only [JumpRope.node, JumpRope.setNode]
  rw [List.set_eq_of_length_le h]

/-- A `setNode` that keeps the node's string, level-0 pointer and `nexts`
length is invisible to the level-0 frame. -/
theorem Level0Frame.setNode (r : JumpRope) (a : Nat) (n : Node)
    (hstr : n.str = (r.node a).str)
    (hnext : (n.nexts.getD 0 ⟨none, 0, 0⟩).node =
      ((r.node a).nexts.getD 0 ⟨none, 0, 0⟩).node)
    (hlen : n.nexts.length = (r.node a).nexts.length) :
    Level0Frame r (r.setNode a n) := by
  by_cases ha : a < r.heap.length
  · refine ⟨JumpRope.heapLength_setNode r a n, ?_, ?_, ?_⟩ <;> intro x <;>
      rcases eq_or_ne x a with rfl | hx
    · rw [JumpRope.node_setNode_same r x n ha, hstr]
    · rw [JumpRope.node_setNode_other r a n x hx]
    · rw [JumpRope.node_setNode_same r x n ha, hnext]
    · rw [JumpRope.node_setNode_other r a n x hx]
    · rw [JumpRope.node_setNode_same r x n ha, hlen]
    · rw [JumpRope.node_setNode_other r a n x hx]
  · refine ⟨JumpRope.heapLength_setNode r a n, ?_, ?_, ?_⟩ <;> intro x <;>
      rw [JumpRope.node_setNode_oob r a n (by omega) x]

theorem insertRaiseLoop_frame (nH : Nat) (fuel : Nat) :
    ∀ (r : JumpRope) (cursor : List CursorEntry) (hh : Nat),
    Level0Frame r (insertRaiseLoop nH r cursor hh fuel).1 ∧
    (insertRaiseLoop nH r cursor hh fuel).2.1.getD 0 ⟨0, 0, 0⟩ =
      cursor.getD 0 ⟨0, 0, 0⟩ ∧
    (insertRaiseLoop nH r cursor hh fuel).2.1.length = cursor.length := by
  induction fuel with
  | zero => intro r cursor hh; exact ⟨Level0Frame.refl r, rfl, rfl⟩
  | succ f ih =>
    intro r cursor hh
    rw [insertRaiseLoop]
    split
    · have hstep1 : Level0Frame r
          (r.setNode ((cursor.getD hh ⟨0, 0, 0⟩).node)
            { r.node ((cursor.getD hh ⟨0, 0, 0⟩).node) with
              nexts := (r.node ((cursor.getD hh ⟨0, 0, 0⟩).node)).nexts.set
                hh ((r.node ((cursor.getD hh ⟨0, 0, 0⟩).node)).nexts.getD
                  (hh - 1) ⟨none, 0, 0⟩) }) := by
        refine Level0Frame.setNode _ _ _ rfl ?_ (by simp)
        exact congrArg SkipEntry.node (getD_set_pred_self _ hh _)
      set r1 := r.setNode ((cursor.getD hh ⟨0, 0, 0⟩).node) _ with hr1
      set cursor1 := cursor.set hh (cursor.getD (hh - 1) ⟨0, 0, 0⟩)
        with hcursor1
      have hstep2 : Level0Frame r1
          (r1.setNode ((cursor1.getD MAX_HEIGHT ⟨0, 0, 0⟩).node)
            { r1.node ((cursor1.getD MAX_HEIGHT ⟨0, 0, 0⟩).node) with
              height := hh + 1 }) :=
        Level0Frame.setNode _ _ _ rfl rfl rfl
      obtain ⟨hf3, hc3, hl3⟩ := ih _ cursor1 (hh + 1)
      refine ⟨(hstep1.trans hstep2).trans hf3, ?_, ?_⟩
      · rw [hc3, hcursor1, getD_set_pred_self]
      · rw [hl3, hcursor1, List.length_set]
    · exact ⟨Level0Frame.refl r, rfl, rfl⟩

theorem insertLinkLoop_frame (newAddr numChars numPairs : Nat)
    (updateCursor : Bool) (k : Nat) :
    ∀ (r : JumpRope) (cursor : List CursorEntry) (i : Nat), 1 ≤ i →
    Level0Frame r
      (insertLinkLoop newAddr numChars numPairs updateCursor r cursor
        i k).1 ∧
    (insertLinkLoop newAddr numChars numPairs updateCursor r cursor
      i k).2.getD 0 ⟨0, 0, 0⟩ = cursor.getD 0 ⟨0, 0, 0⟩ ∧
    (insertLinkLoop newAddr numChars numPairs updateCursor r cursor
      i k).2.length = cursor.length := by
  induction k with
  | zero => intro r cursor i hi; exact ⟨Level0Frame.refl r, rfl, rfl⟩
  | succ m ih =>
    intro r cursor i hi
    rw [insertLinkLoop]
    have hstep1 : Level0Frame r
        (r.setNode newAddr { r.node newAddr with
          nexts := (r.node newAddr).nexts.set i
            ⟨((r.node ((cursor.getD i ⟨0, 0, 0⟩).node)).nexts.getD i
                ⟨none, 0, 0⟩).node,
              numChars + ((r.node ((cursor.getD i ⟨0, 0, 0⟩).node)).nexts.getD
                i ⟨none, 0, 0⟩).skipChars - (cursor.getD i ⟨0, 0, 0⟩).skipChars,
              numPairs + ((r.node ((cursor.getD i ⟨0, 0, 0⟩).node)).nexts.getD
                i ⟨none, 0, 0⟩).skipPairs -
                (cursor.getD i ⟨0, 0, 0⟩).skipPairs⟩ }) := by
      refine Level0Frame.setNode _ _ _ rfl ?_ (by simp)
      exact congrArg SkipEntry.node
        (getD_set_ne_zero _ i _ _ (by omega))
    set r1 := r.setNode newAddr _ with hr1
    have hstep2 : Level0Frame r1
        (r1.setNode ((cursor.getD i ⟨0, 0, 0⟩).node)
          { r1.node ((cursor.getD i ⟨0, 0, 0⟩).node) with
            nexts := (r1.node ((cursor.getD i ⟨0, 0, 0⟩).node)).nexts.set i
              ⟨some newAddr, (cursor.getD i ⟨0, 0, 0⟩).skipChars,
                (cursor.getD i ⟨0, 0, 0⟩).skipPairs⟩ }) := by
      refine Level0Frame.setNode _ _ _ rfl ?_ (by simp)
      exact congrArg SkipEntry.node
        (getD_set_ne_zero _ i _ _ (by omega))
    set r2 := r1.setNode ((cursor.getD i ⟨0, 0, 0⟩).node) _ with hr2
    set cursor2 := if updateCursor then
      cursor.set i ⟨newAddr, numChars, numPairs⟩ else cursor with hcursor2
    obtain ⟨hf3, hc3, hl3⟩ := ih r2 cursor2 (i + 1) (by omega)
    refine ⟨(hstep1.trans hstep2).trans hf3, ?_, ?_⟩
    · rw [hc3, hcursor2]
      split
      · rw [getD_set_ne_zero _ i _ _ (by omega)]
      · rfl
    · rw [hl3, hcursor2]
      split
      · rw [List.length_set]
      · rfl

theorem insertCountLoop_frame (numChars numPairs : Nat)
    (updateCursor : Bool) (k : Nat) :
    ∀ (r : JumpRope) (cursor : List CursorEntry) (i : Nat), 1 ≤ i →
    Level0Frame r
      (insertCountLoop numChars numPairs updateCursor r cursor i k).1 ∧
    (insertCountLoop numChars numPairs updateCursor r cursor
      i k).2.getD 0 ⟨0, 0, 0⟩ = cursor.getD 0 ⟨0, 0, 0⟩ ∧
    (insertCountLoop numChars numPairs updateCursor r cursor
      i k).2.length = cursor.length := by
  induction k with
  | zero => intro r cursor i hi; exact ⟨Level0Frame.refl r, rfl, rfl⟩
  | succ m ih =>
    intro r cursor i hi
    rw [insertCountLoop]
    have hstep1 : Level0Frame r
        (r.setNode ((cursor.getD i ⟨0, 0, 0⟩).node)
          { r.node ((cursor.getD i ⟨0, 0, 0⟩).node) with
            nexts := (r.node ((cursor.getD i ⟨0, 0, 0⟩).node)).nexts.set i
              { (r.node ((cursor.getD i ⟨0, 0, 0⟩).node)).nexts.getD i
                  ⟨none, 0, 0⟩ with
                skipChars := ((r.node ((cursor.getD i
                  ⟨0, 0, 0⟩).node)).nexts.getD i ⟨none, 0, 0⟩).skipChars +
                  numChars,
                skipPairs := ((r.node ((cursor.getD i
                  ⟨0, 0, 0⟩).node)).nexts.getD i ⟨none, 0, 0⟩).skipPairs +
                  numPairs } }) := by
      refine Level0Frame.setNode _ _ _ rfl ?_ (by simp)
      exact congrArg SkipEntry.node
        (getD_set_ne_zero _ i _ _ (by omega))
    set r1 := r.setNode ((cursor.getD i ⟨0, 0, 0⟩).node) _ with hr1
    set cursor2 := if updateCursor then
      cursor.set i { cursor.getD i ⟨0, 0, 0⟩ with
        skipChars := (cursor.getD i ⟨0, 0, 0⟩).skipChars + numChars,
        skipPairs := (cursor.getD i ⟨0, 0, 0⟩).skipPairs + numPairs }
      else cursor with hcursor2
    obtain ⟨hf3, hc3, hl3⟩ := ih r1 cursor2 (i + 1) (by omega)
    refine ⟨hstep1.trans hf3, ?_, ?_⟩
    · rw [hc3, hcursor2]
      split
      · rw [getD_set_ne_zero _ i _ _ (by omega)]
      · rfl
    · rw [hl3, hcursor2]
      split
      · rw [List.length_set]
      · rfl

theorem getD_set_zero_of_pos {α : Type} (l : List α) (v d : α)
    (h : 0 < l.length) : (l.set 0 v).getD 0 d = v := by
  cases l with
  | nil => simp at h
  | cons a t => rfl

theorem JumpRope.node_extend (r : JumpRope) (idx1 : Nat) (n : Node)
    (x : Nat) (h : x < r.heap.length) :
    ({ r with rngIdx := idx1, heap := r.heap ++ [n] } : JumpRope).node x =
      r.node x := by
  simp only [JumpRope.node]
  rw [List.getD_eq_getElem?_getD, List.getElem?_append, if_pos h,
    ← List.getD_eq_getElem?_getD]

theorem JumpRope.node_extend_new (r : JumpRope) (idx1 : Nat) (n : Node) :
    ({ r with rngIdx := idx1, heap := r.heap ++ [n] } : JumpRope).node
      r.heap.length = n := by
  simp only [JumpRope.node]
  rw [List.getD_eq_getElem?_getD, List.getElem?_append_right (Nat.le_refl _)]
  simp

/-- The full splicing loop starting at level 0: the new node is linked
after the cursor's bottom node, and nothing else changes at level 0. -/
theorem insertLinkLoop_effect (newAddr numChars numPairs : Nat) (m : Nat)
    (r : JumpRope) (cursor : List CursorEntry)
    (hb : (cursor.getD 0 ⟨0, 0, 0⟩).node < r.heap.length)
    (hA : newAddr < r.heap.length)
    (hne : (cursor.getD 0 ⟨0, 0, 0⟩).node ≠ newAddr)
    (hcur : 0 < cursor.length)
    (hla : 0 < (r.node ((cursor.getD 0 ⟨0, 0, 0⟩).node)).nexts.length)
    (hlnew : 0 < (r.node newAddr).nexts.length) :
    (insertLinkLoop newAddr numChars numPairs true r cursor 0
      (m + 1)).1.heap.length = r.heap.length ∧
    (∀ x, ((insertLinkLoop newAddr numChars numPairs true r cursor 0
      (m + 1)).1.node x).str = (r.node x).str) ∧
    (∀ x, x ≠ (cursor.getD 0 ⟨0, 0, 0⟩).node → x ≠ newAddr →
      (((insertLinkLoop newAddr numChars numPairs true r cursor 0
        (m + 1)).1.node x).nexts.getD 0 ⟨none, 0, 0⟩).node =
      ((r.node x).nexts.getD 0 ⟨none, 0, 0⟩).node) ∧
    (((insertLinkLoop newAddr numChars numPairs true r cursor 0
      (m + 1)).1.node ((cursor.getD 0 ⟨0, 0, 0⟩).node)).nexts.getD 0
        ⟨none, 0, 0⟩).node = some newAddr ∧
    (((insertLinkLoop newAddr numChars numPairs true r cursor 0
      (m + 1)).1.node newAddr).nexts.getD 0 ⟨none, 0, 0⟩).node =
      ((r.node ((cursor.getD 0 ⟨0, 0, 0⟩).node)).nexts.getD 0
        ⟨none, 0, 0⟩).node ∧
    (∀ x, ((insertLinkLoop newAddr numChars numPairs true r cursor 0
      (m + 1)).1.node x).nexts.length = (r.node x).nexts.length) ∧
    (insertLinkLoop newAddr numChars numPairs true r cursor 0
      (m + 1)).2.getD 0 ⟨0, 0, 0⟩ = ⟨newAddr, numChars, numPairs⟩ ∧
    (insertLinkLoop newAddr numChars numPairs true r cursor 0
      (m + 1)).2.length = cursor.length := by
  set a := (cursor.getD 0 ⟨0, 0, 0⟩).node with hadef
  rw [insertLinkLoop]
  rw [if_pos rfl]
  refine ⟨?_, ?_, ?_, ?_, ?_, ?_, ?_, ?_⟩
  · rw [(insertLinkLoop_frame newAddr numChars numPairs true m _ _ 1
      (Nat.le_refl 1)).1.1]
    rw [JumpRope.heapLength_setNode, JumpRope.heapLength_setNode]
  · intro x
    rw [(insertLinkLoop_frame newAddr numChars numPairs true m _ _ 1
      (Nat.le_refl 1)).1.2.1 x]
    rcases eq_or_ne x a with rfl | hxa
    · rw [JumpRope.node_setNode_same _ _ _
        (by rw [JumpRope.heapLength_setNode]; exact hb)]
      dsimp only
      rw [JumpRope.node_setNode_other _ _ _ _ hne]
    · rw [JumpRope.node_setNode_other _ _ _ _ hxa]
      rcases eq_or_ne x newAddr with rfl | hxn
      · rw [JumpRope.node_setNode_same _ _ _ hA]
      · rw [JumpRope.node_setNode_other _ _ _ _ hxn]
  · intro x hxa hxn
    rw [(insertLinkLoop_frame newAddr numChars numPairs true m _ _ 1
      (Nat.le_refl 1)).1.2.2.1 x]
    rw [JumpRope.node_setNode_other _ _ _ _ hxa,
      JumpRope.node_setNode_other _ _ _ _ hxn]
  · rw [(insertLinkLoop_frame newAddr numChars numPairs true m _ _ 1
      (Nat.le_refl 1)).1.2.2.1 a]
    rw [JumpRope.node_setNode_same _ _ _
      (by rw [JumpRope.heapLength_setNode]; exact hb)]
    dsimp only
    rw [getD_set_zero_of_pos _ _ _ (by
      rw [JumpRope.node_setNode_other _ _ _ _ hne]
      exact hla)]
  · rw [(insertLinkLoop_frame newAddr numChars numPairs true m _ _ 1
      (Nat.le_refl 1)).1.2.2.1 newAddr]
    rw [JumpRope.node_setNode_other _ _ _ _ (Ne.symm hne)]
    rw [JumpRope.node_setNode_same _ _ _ hA]
    dsimp only
    rw [getD_set_zero_of_pos _ _ _ hlnew]
  · intro x
    rw [(insertLinkLoop_frame newAddr numChars numPairs true m _ _ 1
      (Nat.le_refl 1)).1.2.2.2 x]
    rcases eq_or_ne x a with rfl | hxa
    · rw [JumpRope.node_setNode_same _ _ _
        (by rw [JumpRope.heapLength_setNode]; exact hb)]
      dsimp only
      rw [List.length_set, JumpRope.node_setNode_other _ _ _ _ hne]
    · rw [JumpRope.node_setNode_other _ _ _ _ hxa]
      rcases eq_or_ne x newAddr with rfl | hxn
      · rw [JumpRope.node_setNode_same _ _ _ hA]
        dsimp only
        rw [List.length_set]
      · rw [JumpRope.node_setNode_other _ _ _ _ hxn]
  · rw [(insertLinkLoop_frame newAddr numChars numPairs true m _ _ 1
      (Nat.le_refl 1)).2.1]
    rw [getD_set_zero_of_pos _ _ _ hcur]
  · rw [(insertLinkLoop_frame newAddr numChars numPairs true m _ _ 1
      (Nat.le_refl 1)).2.2]
    rw [List.length_set]

/-- The effect of `insert_node_at` with `update_cursor = true` on the
level-0 chain: the fresh node is appended to the heap, spliced after the
node the cursor points at, the cursor's bottom entry moves onto it, and no
other node's string or level-0 pointer changes. -/
theorem insertNodeAt_effect (r : JumpRope) (cursor : List CursorEntry)
    (contents : List Nat) (numChars numPairs : Nat) (r2 : JumpRope)
    (cursor2 : List CursorEntry)
    (heq : insertNodeAt r cursor contents numChars true numPairs =
      (r2, cursor2))
    (hlen : ∀ x, x < r.heap.length →
      (r.node x).nexts.length = MAX_HEIGHT + 1)
    (ha : (cursor.getD 0 ⟨0, 0, 0⟩).node < r.heap.length)
    (hcur : 0 < cursor.length) :
    r2.heap.length = r.heap.length + 1 ∧
    cursor2.getD 0 ⟨0, 0, 0⟩ = ⟨r.heap.length, numChars, numPairs⟩ ∧
    cursor2.length = cursor.length ∧
    (∀ x, x < r.heap.length → (r2.node x).str = (r.node x).str) ∧
    (∀ x, x < r.heap.length → x ≠ (cursor.getD 0 ⟨0, 0, 0⟩).node →
      ((r2.node x).nexts.getD 0 ⟨none, 0, 0⟩).node =
        ((r.node x).nexts.getD 0 ⟨none, 0, 0⟩).node) ∧
    ((r2.node ((cursor.getD 0 ⟨0, 0, 0⟩).node)).nexts.getD 0
      ⟨none, 0, 0⟩).node = some r.heap.length ∧
    (r2.node r.heap.length).str =
      GapBuffer.newFromStr NODE_STR_SIZE contents ∧
    ((r2.node r.heap.length).nexts.getD 0 ⟨none, 0, 0⟩).node =
      ((r.node ((cursor.getD 0 ⟨0, 0, 0⟩).node)).nexts.getD 0
        ⟨none, 0, 0⟩).node ∧
    (∀ x, x < r2.heap.length →
      (r2.node x).nexts.length = MAX_HEIGHT + 1) := by
  rcases hrh : randomHeight r.rng r.rngIdx with ⟨nH, idx1⟩
  obtain ⟨m, hm⟩ : ∃ m, nH = m + 1 := by
    have := randomHeight_ge_one r.rng r.rngIdx
    rw [hrh] at this
    exact ⟨nH - 1, by omega⟩
  simp only [insertNodeAt, hrh] at heq
  set a := (cursor.getD 0 ⟨0, 0, 0⟩).node with hadef
  set A := r.heap.length with hAdef
  set r0 : JumpRope := { r with rngIdx := idx1, heap := r.heap ++ [Node.newWithHeight nH contents] } with hr0
  have hr0len : r0.heap.length = A + 1 := by
    simp [hr0, List.length_append]
  have hr0node : ∀ x, x < A → r0.node x = r.node x := fun x hx =>
    JumpRope.node_extend r idx1 _ x hx
  have hr0new : r0.node A = Node.newWithHeight nH contents :=
    JumpRope.node_extend_new r idx1 _
  rcases hrl : insertRaiseLoop nH r0 cursor
      ((r0.node ((cursor.getD MAX_HEIGHT ⟨0, 0, 0⟩).node)).height)
      (MAX_HEIGHT + 1) with ⟨rA, cursorA, hhA⟩
  have hraise := insertRaiseLoop_frame nH (MAX_HEIGHT + 1) r0 cursor
    ((r0.node ((cursor.getD MAX_HEIGHT ⟨0, 0, 0⟩).node)).height)
  rw [hrl] at hraise
  obtain ⟨hfA, hcA, hlA⟩ := hraise
  rw [hrl] at heq
  dsimp only at hfA hcA hlA
  rw [hm] at heq
  rcases hll : insertLinkLoop A numChars numPairs true rA cursorA 0 (m + 1)
    with ⟨rD, cursorD⟩
  rw [hll] at heq
  dsimp only at heq
  have heff := insertLinkLoop_effect A numChars numPairs m rA cursorA
    (by rw [hcA, ← hadef, hfA.1, hr0len]; omega)
    (by rw [hfA.1, hr0len]; omega)
    (by rw [hcA, ← hadef]; omega)
    (by rw [hlA]; exact hcur)
    (by rw [hcA, ← hadef, hfA.2.2.2 a, hr0node a ha, hlen a ha]; omega)
    (by rw [hfA.2.2.2 A, hr0new]
        simp [Node.newWithHeight])
  rw [hll] at heff
  dsimp only at heff
  simp only [hcA, ← hadef] at heff
  obtain ⟨e1, e2, e3, e4, e5, e6, e7, e8⟩ := heff
  rcases hcc : insertCountLoop numChars numPairs true rD cursorD (m + 1)
    (hhA - (m + 1)) with ⟨rE, cursorE⟩
  rw [hcc] at heq
  dsimp only at heq
  have hcf := insertCountLoop_frame numChars numPairs true (hhA - (m + 1))
    rD cursorD (m + 1) (by omega)
  rw [hcc] at hcf
  obtain ⟨hfE, hcE, hlE⟩ := hcf
  rw [Prod.mk.injEq] at heq
  obtain ⟨heq1, heq2⟩ := heq
  subst heq2
  subst heq1
  have hnodeE : ∀ x, ({ rng := rE.rng, rngIdx := rE.rngIdx, numBytes := rE.numBytes + contents.length, heap := rE.heap } : JumpRope).node x = rE.node x := fun x => rfl
  have hlenE : ({ rng := rE.rng, rngIdx := rE.rngIdx, numBytes := rE.numBytes + contents.length, heap := rE.heap } : JumpRope).heap.length = rE.heap.length := rfl
  refine ⟨?_, ?_, ?_, ?_, ?_, ?_, ?_, ?_, ?_⟩
  · rw [hlenE, hfE.1, e1, hfA.1, hr0len]
  · rw [hcE, e7]
  · rw [hlE, e8, hlA]
  · intro x hx
    rw [hnodeE, hfE.2.1 x, e2 x, hfA.2.1 x, hr0node x hx]
  · intro x hx hxa
    rw [hnodeE, hfE.2.2.1 x, e3 x hxa (by omega), hfA.2.2.1 x]
    have hx2 := hr0node x hx
    rw [hx2]
  · rw [hnodeE, hfE.2.2.1 a, e4]
  · rw [hnodeE, hfE.2.1 A, e2 A, hfA.2.1 A, hr0new]
    simp [Node.newWithHeight]
  · rw [hnodeE, hfE.2.2.1 A, e5, hfA.2.2.1 a, hr0node a ha]
  · intro x hx
    rw [hlenE, hfE.1, e1, hfA.1, hr0len] at hx
    rw [hnodeE, hfE.2.2.2 x, e6 x, hfA.2.2.2 x]
    rcases Nat.lt_or_ge x A with hxA | hxA
    · rw [hr0node x hxA]
      exact hlen x hxA
    · have hxeq : x = A := by omega
      subst hxeq
      rw [hr0new]
      simp [Node.newWithHeight]

theorem chainOk_iff_seg (r : JumpRope) (p : List Nat) (o : Option Nat) :
    chainOk r p o ↔ chainSeg r p o none := by
  induction p generalizing o with
  | nil => exact Iff.rfl
  | cons a rest ih =>
    simp only [chainOk, chainSeg]
    exact and_congr_right fun _ => and_congr_right fun _ => ih _

theorem chainSeg_append (r : JumpRope) (p1 p2 : List Nat)
    (o e : Option Nat) :
    chainSeg r (p1 ++ p2) o e ↔
      ∃ mid, chainSeg r p1 o mid ∧ chainSeg r p2 mid e := by
  induction p1 generalizing o with
  | nil =>
    simp only [List.nil_append, chainSeg]
    constructor
    · intro h; exact ⟨o, rfl, h⟩
    · rintro ⟨mid, rfl, h⟩; exact h
  | cons a rest ih =>
    constructor
    · rintro ⟨h1, h2, h3⟩
      obtain ⟨mid, h4, h5⟩ := (ih _).mp h3
      exact ⟨mid, ⟨h1, h2, h4⟩, h5⟩
    · rintro ⟨mid, ⟨h1, h2, h4⟩, h5⟩
      exact ⟨h1, h2, (ih _).mpr ⟨mid, h4, h5⟩⟩

theorem chainSeg_ext (r r2 : JumpRope)
    (hL : r.heap.length ≤ r2.heap.length) (p : List Nat) (o e : Option Nat)
    (hN : ∀ x ∈ p, ((r2.node x).nexts.getD 0 ⟨none, 0, 0⟩).node =
      ((r.node x).nexts.getD 0 ⟨none, 0, 0⟩).node)
    (h : chainSeg r p o e) : chainSeg r2 p o e := by
  induction p generalizing o with
  | nil => exact h
  | cons a rest ih =>
    obtain ⟨h1, h2, h3⟩ := h
    refine ⟨h1, by omega, ?_⟩
    rw [hN a (List.mem_cons_self a rest)]
    exact ih _ (fun x hx => hN x (List.mem_cons_of_mem a hx)) h3

theorem spell_ext (r r2 : JumpRope) (p : List Nat)
    (hS : ∀ x ∈ p, (r2.node x).str = (r.node x).str) :
    spell r2 p = spell r p := by
  induction p with
  | nil => rfl
  | cons a rest ih =>
    simp only [spell, List.map_cons, List.flatten_cons]
    rw [show nodeStr r2 a = nodeStr r a from by
      simp only [nodeStr, hS a (List.mem_cons_self a rest)]]
    have := ih fun x hx => hS x (List.mem_cons_of_mem a hx)
    simp only [spell] at this
    rw [this]

theorem spell_append (r : JumpRope) (p1 p2 : List Nat) :
    spell r (p1 ++ p2) = spell r p1 ++ spell r p2 := by
  simp [spell]

theorem GapBuffer.newFromStr_content (s : List Nat)
    (h : s.length ≤ NODE_STR_SIZE) :
    (GapBuffer.newFromStr NODE_STR_SIZE s).startAsStr = s ∧
    (GapBuffer.newFromStr NODE_STR_SIZE s).endAsStr = [] := by
  have hng : ¬s.length > (GapBuffer.new NODE_STR_SIZE).gapLen := by
    simp only [GapBuffer.new]
    omega
  have hmv : (GapBuffer.new NODE_STR_SIZE).moveGap 0 =
      GapBuffer.new NODE_STR_SIZE := by
    rw [GapBuffer.moveGap]
    rw [if_pos (show (0 : Nat) =
      (GapBuffer.new NODE_STR_SIZE).gapStartBytes from rfl)]
  simp only [GapBuffer.newFromStr, GapBuffer.tryInsert]
  rw [if_neg hng, hmv, Option.getD_some]
  simp only [GapBuffer.insertInGap, GapBuffer.new, GapBuffer.startAsStr,
    GapBuffer.endAsStr]
  simp only [List.take_zero, List.nil_append, Nat.zero_add,
    List.drop_replicate]
  constructor
  · rw [List.take_left]
  · rw [List.drop_eq_nil_of_le]
    rw [List.length_append, List.length_replicate]

/-! ### UTF-8 boundaries and the chunking slide -/

theorem isCharBoundary_utf8Str_getD (t : List Nat) (ht : InRangeStr t)
    (k : Nat) (hk : k < (utf8Str t).length) :
    isCharBoundary ((utf8Str t).getD k 0) = true ↔
      ∃ t1 t2, t = t1 ++ t2 ∧ (utf8Str t1).length = k := by
  induction t generalizing k with
  | nil => simp [utf8Str] at hk
  | cons c t' ih =>
    have hc : c < 0x110000 := ht c (List.mem_cons_self c t')
    obtain ⟨b, tail, hshape, hb, htail⟩ := utf8Encode_boundary_shape c hc
    rw [utf8Str_cons] at hk ⊢
    rcases Nat.lt_or_ge k (utf8Encode c).length with hlt | hge
    · rw [List.getD_append _ _ _ _ hlt]
      rcases Nat.eq_zero_or_pos k with rfl | hkpos
      · rw [hshape]
        simp only [List.getD_cons_zero, hb, true_iff]
        exact ⟨[], c :: t', rfl, rfl⟩
      · have hfalse : isCharBoundary ((utf8Encode c).getD k 0) = false := by
          rw [hshape]
          obtain ⟨j, rfl⟩ : ∃ j, k = j + 1 := ⟨k - 1, by omega⟩
          rw [List.getD_cons_succ]
          have hj2 : j < tail.length := by
            rw [hshape] at hlt
            simp only [List.length_cons] at hlt
            omega
          rw [List.getD_eq_getElem _ _ hj2]
          exact htail _ (List.getElem_mem hj2)
        rw [hfalse]
        simp only [Bool.false_eq_true, false_iff]
        rintro ⟨t1, t2, heq, hlen⟩
        cases t1 with
        | nil => simp [utf8Str] at hlen; omega
        | cons d t1' =>
          rw [List.cons_append] at heq
          injection heq with h1 h2
          subst h1
          subst h2
          rw [utf8Str_cons, List.length_append] at hlen
          omega
    · rw [List.getD_append_right _ _ _ _ hge]
      have hk2 : k - (utf8Encode c).length < (utf8Str t').length := by
        rw [List.length_append] at hk
        omega
      rw [ih (fun x hx => ht x (List.mem_cons_of_mem c hx)) _ hk2]
      constructor
      · rintro ⟨t1', t2', rfl, hlen⟩
        refine ⟨c :: t1', t2', rfl, ?_⟩
        rw [utf8Str_cons, List.length_append]
        omega
      · rintro ⟨t1, t2, heq, hlen⟩
        cases t1 with
        | nil =>
          simp only [utf8Str, List.map_nil, List.flatten_nil,
            List.length_nil] at hlen
          have := utf8Encode_len_pos c
          omega
        | cons d t1' =>
          rw [List.cons_append] at heq
          injection heq with h1 h2
          subst h1
          subst h2
          refine ⟨t1', t2, rfl, ?_⟩
          rw [utf8Str_cons, List.length_append] at hlen
          omega

theorem slideBack_spec (bytes : List Nat) (n : Nat) :
    (isCharBoundary (bytes.getD (slideBack bytes n) 0) = true ∨
      slideBack bytes n = 0) ∧
    slideBack bytes n ≤ n ∧
    ∀ j, slideBack bytes n < j → j ≤ n →
      isCharBoundary (bytes.getD j 0) = false := by
  induction n with
  | zero => exact ⟨Or.inr rfl, Nat.le_refl 0, fun j h1 h2 => by omega⟩
  | succ p ih =>
    rw [slideBack]
    split
    · refine ⟨Or.inl (by assumption), Nat.le_refl _, ?_⟩
      intro j h1 h2
      omega
    · obtain ⟨ih1, ih2, ih3⟩ := ih
      refine ⟨ih1, by omega, ?_⟩
      intro j h1 h2
      rcases Nat.lt_or_ge j (p + 1) with hj | hj
      · exact ih3 j h1 (by omega)
      · have hj2 : j = p + 1 := by omega
        subst hj2
        simp only [Bool.not_eq_true] at *
        assumption

theorem slideBack_utf8 (t : List Nat) (ht : InRangeStr t) (n : Nat)
    (hn4 : 4 ≤ n) (hlen : n < (utf8Str t).length) :
    ∃ t1 t2, t = t1 ++ t2 ∧
      slideBack (utf8Str t) n = (utf8Str t1).length ∧
      1 ≤ (utf8Str t1).length ∧ (utf8Str t1).length ≤ n := by
  obtain ⟨hs1, hs2, hs3⟩ := slideBack_spec (utf8Str t) n
  cases t with
  | nil => simp [utf8Str] at hlen
  | cons c t' =>
    have hc : c < 0x110000 := ht c (List.mem_cons_self c t')
    have hte : t' ≠ [] := by
      intro h
      subst h
      have := utf8Encode_len_le c
      rw [show utf8Str [c] = utf8Encode c from by
        simp [utf8Str]] at hlen
      omega
    have hclen : (utf8Encode c).length < (utf8Str (c :: t')).length := by
      rw [utf8Str_cons, List.length_append]
      have := utf8Str_length_pos hte
      omega
    have hbc : isCharBoundary ((utf8Str (c :: t')).getD
        (utf8Encode c).length 0) = true := by
      rw [isCharBoundary_utf8Str_getD _ ht _ hclen]
      exact ⟨[c], t', rfl, by simp [utf8Str]⟩
    have hk0 : slideBack (utf8Str (c :: t')) n ≠ 0 := by
      intro h0
      have hle : (utf8Encode c).length ≤ n :=
        Nat.le_trans (utf8Encode_len_le c) hn4
      have := hs3 (utf8Encode c).length
        (by rw [h0]; exact utf8Encode_len_pos c) hle
      rw [hbc] at this
      cases this
    have hbk : isCharBoundary ((utf8Str (c :: t')).getD
        (slideBack (utf8Str (c :: t')) n) 0) = true := by
      rcases hs1 with h | h
      · exact h
      · exact absurd h hk0
    rw [isCharBoundary_utf8Str_getD _ ht _ (by omega)] at hbk
    obtain ⟨t1, t2, heq, hlen1⟩ := hbk
    exact ⟨t1, t2, heq, hlen1.symm, by omega, by omega⟩

theorem getLast?_eq_append (p : List Nat) (l : Nat)
    (h : p.getLast? = some l) : ∃ p', p = p' ++ [l] := by
  induction p with
  | nil => cases h
  | cons a rest ih =>
    cases rest with
    | nil =>
      simp only [List.getLast?_singleton, Option.some.injEq] at h
      exact ⟨[], by simp [h]⟩
    | cons b rest' =>
      rw [List.getLast?_cons_cons] at h
      obtain ⟨p', hp'⟩ := ih h
      exact ⟨a :: p', by rw [hp', List.cons_append]⟩

theorem chainOk_getLast (r : JumpRope) (p : List Nat) (l : Nat)
    (h : chainOk r p (some 0)) (hl : p.getLast? = some l) :
    l < r.heap.length ∧
    ((r.node l).nexts.getD 0 ⟨none, 0, 0⟩).node = none := by
  obtain ⟨p', rfl⟩ := getLast?_eq_append p l hl
  rw [chainOk_iff_seg, chainSeg_append] at h
  obtain ⟨mid, -, h2⟩ := h
  obtain ⟨-, hlt, h3⟩ := h2
  exact ⟨hlt, h3⟩

/-- Splicing a fresh node `A` after the chain's last node `l` extends the
chain by `A` and appends `A`'s contribution to the spelled string. -/
theorem chain_splice (r r2 : JumpRope) (p : List Nat) (l A : Nat)
    (hA : A = r.heap.length)
    (hchain : chainOk r p (some 0))
    (hnd : p.Nodup)
    (hlast : p.getLast? = some l)
    (hlen2 : r2.heap.length = r.heap.length + 1)
    (hstr : ∀ x, x < r.heap.length → (r2.node x).str = (r.node x).str)
    (hnx : ∀ x, x < r.heap.length → x ≠ l →
      ((r2.node x).nexts.getD 0 ⟨none, 0, 0⟩).node =
        ((r.node x).nexts.getD 0 ⟨none, 0, 0⟩).node)
    (hl2 : ((r2.node l).nexts.getD 0 ⟨none, 0, 0⟩).node = some A)
    (hA2 : ((r2.node A).nexts.getD 0 ⟨none, 0, 0⟩).node =
      ((r.node l).nexts.getD 0 ⟨none, 0, 0⟩).node) :
    chainOk r2 (p ++ [A]) (some 0) ∧ (p ++ [A]).Nodup ∧
    spell r2 (p ++ [A]) = spell r p ++ nodeStr r2 A := by
  obtain ⟨hllt, hlnone⟩ := chainOk_getLast r p l hchain hlast
  have hmem : ∀ x ∈ p, x < r.heap.length := chainOk_mem_lt r p _ hchain
  obtain ⟨p', rfl⟩ := getLast?_eq_append p l hlast
  have hlnotp : l ∉ p' := by
    intro hmem2
    have := List.nodup_append.mp hnd
    exact this.2.2 hmem2 (List.mem_singleton_self l)
  refine ⟨?_, ?_, ?_⟩
  · rw [chainOk_iff_seg]
    rw [chainOk_iff_seg, chainSeg_append] at hchain
    obtain ⟨mid, hseg1, hseg2⟩ := hchain
    have hmid : mid = some l := hseg2.1
    subst hmid
    rw [List.append_assoc, chainSeg_append]
    refine ⟨some l, ?_, ?_⟩
    · refine chainSeg_ext r r2 (by omega) p' _ _ ?_ hseg1
      intro x hx
      exact hnx x (hmem x (List.mem_append_left _ hx))
        (fun hxl => hlnotp (hxl ▸ hx))
    · show chainSeg r2 ([l] ++ [A]) (some l) none
      rw [List.singleton_append]
      refine ⟨rfl, by omega, ?_⟩
      rw [hl2]
      refine ⟨rfl, by omega, ?_⟩
      show chainSeg r2 [] ((r2.node A).nexts.getD 0 ⟨none, 0, 0⟩).node none
      rw [hA2, hlnone]
      rfl
  · rw [List.nodup_append]
    refine ⟨hnd, List.nodup_singleton A, ?_⟩
    intro x hx hx2
    rw [List.mem_singleton] at hx2
    subst hx2
    have := hmem x hx
    omega
  · rw [spell_append, spell_append]
    have hsp : spell r2 (p' ++ [l]) = spell r (p' ++ [l]) :=
      spell_ext r r2 _ fun x hx => hstr x (hmem x hx)
    rw [← spell_append, hsp]
    congr 1
    simp [spell]

/-- The chunk-splitting loop of `insert_at_cursor` appends exactly the
inserted text to the string spelled by the level-0 chain. -/
theorem insertChunksLoop_spell (fuel : Nat) :
    ∀ (r : JumpRope) (cursor : List CursorEntry) (t : List Nat)
      (nc np : Nat) (p : List Nat),
    InRangeStr t →
    (utf8Str t).length < fuel →
    chainOk r p (some 0) →
    p.Nodup →
    p.getLast? = some ((cursor.getD 0 ⟨0, 0, 0⟩).node) →
    0 < cursor.length →
    (∀ x, x < r.heap.length → (r.node x).nexts.length = MAX_HEIGHT + 1) →
    ∃ p2,
      chainOk (insertChunksLoop r cursor (utf8Str t) nc np fuel).1 p2
        (some 0) ∧
      p2.Nodup ∧
      spell (insertChunksLoop r cursor (utf8Str t) nc np fuel).1 p2 =
        spell r p ++ utf8Str t := by
  induction fuel with
  | zero =>
    intro r cursor t nc np p hrng hf
    omega
  | succ f ih =>
    intro r cursor t nc np p hrng hf hchain hnd hlast hcur hlen
    obtain ⟨ha, -⟩ := chainOk_getLast r p _ hchain hlast
    by_cases hle : (utf8Str t).length ≤ NODE_STR_SIZE
    · rcases heqI : insertNodeAt r cursor (utf8Str t) nc true np
        with ⟨r2, cursor2⟩
      obtain ⟨h1, h2, h3, h4, h5, h6, h7, h8, h9⟩ :=
        insertNodeAt_effect r cursor (utf8Str t) nc np r2 cursor2 heqI
          hlen ha hcur
      obtain ⟨hc1, hc2, hc3⟩ := chain_splice r r2 p
        ((cursor.getD 0 ⟨0, 0, 0⟩).node) r.heap.length rfl hchain hnd
        hlast h1 h4 h5 h6 h8
      have hres : insertChunksLoop r cursor (utf8Str t) nc np (f + 1) =
          (r2, cursor2) := by
        rw [insertChunksLoop, if_pos hle, heqI]
      refine ⟨p ++ [r.heap.length], ?_, ?_, ?_⟩
      · rw [hres]
        exact hc1
      · exact hc2
      · rw [hres]
        rw [hc3]
        congr 1
        unfold nodeStr
        rw [h7]
        obtain ⟨hs, he⟩ := GapBuffer.newFromStr_content (utf8Str t) hle
        rw [hs, he, List.append_nil]
    · push_neg at hle
      obtain ⟨t1, t2, ht12, hbp, hb1, hb2⟩ :=
        slideBack_utf8 t hrng NODE_STR_SIZE (by decide) hle
      have hE : utf8Str t = utf8Str t1 ++ utf8Str t2 := by
        rw [ht12, utf8Str_append]
      have htake : (utf8Str t).take ((utf8Str t1).length) = utf8Str t1 := by
        rw [hE]
        exact List.take_left _ _
      have hdrop : (utf8Str t).drop ((utf8Str t1).length) = utf8Str t2 := by
        rw [hE]
        exact List.drop_left _ _
      rcases heqI : insertNodeAt r cursor (utf8Str t1)
          (countCharsInBytes (utf8Str t1)) true
          (countUtf16SurrogatesInBytes (utf8Str t1)) with ⟨r2, cursor2⟩
      obtain ⟨h1, h2, h3, h4, h5, h6, h7, h8, h9⟩ :=
        insertNodeAt_effect r cursor (utf8Str t1)
          (countCharsInBytes (utf8Str t1))
          (countUtf16SurrogatesInBytes (utf8Str t1)) r2 cursor2 heqI
          hlen ha hcur
      obtain ⟨hc1, hc2, hc3⟩ := chain_splice r r2 p
        ((cursor.getD 0 ⟨0, 0, 0⟩).node) r.heap.length rfl hchain hnd
        hlast h1 h4 h5 h6 h8
      have hsp2 : spell r2 (p ++ [r.heap.length]) =
          spell r p ++ utf8Str t1 := by
        rw [hc3]
        congr 1
        unfold nodeStr
        rw [h7]
        obtain ⟨hs, he⟩ := GapBuffer.newFromStr_content (utf8Str t1) hb2
        rw [hs, he, List.append_nil]
      have hstep : insertChunksLoop r cursor (utf8Str t) nc np (f + 1) =
          insertChunksLoop r2 cursor2 (utf8Str t2)
            (nc - countCharsInBytes (utf8Str t1))
            (np - countUtf16SurrogatesInBytes (utf8Str t1)) f := by
        rw [insertChunksLoop, if_neg (by omega)]
        simp only [hbp, htake, hdrop, heqI]
      have hrng2 : InRangeStr t2 := by
        intro c hc
        exact hrng c (ht12 ▸ List.mem_append_right t1 hc)
      have hf2 : (utf8Str t2).length < f := by
        have : (utf8Str t).length = (utf8Str t1).length +
            (utf8Str t2).length := by
          rw [hE, List.length_append]
        omega
      have hlast2 : (p ++ [r.heap.length]).getLast? =
          some ((cursor2.getD 0 ⟨0, 0, 0⟩).node) := by
        rw [h2]
        simp [List.getLast?_concat]
      have hcur2 : 0 < cursor2.length := by
        rw [h3]
        exact hcur
      obtain ⟨p3, hp3a, hp3b, hp3c⟩ := ih r2 cursor2 t2
        (nc - countCharsInBytes (utf8Str t1))
        (np - countUtf16SurrogatesInBytes (utf8Str t1))
        (p ++ [r.heap.length]) hrng2 hf2 hc1 hc2 hlast2 hcur2 h9
      refine ⟨p3, ?_, hp3b, ?_⟩
      · rw [hstep]
        exact hp3a
      · rw [hstep, hp3c, hsp2, hE, List.append_assoc]

/-- On the empty single-node rope, inserting a string longer than one
node's capacity takes the chunk-splitting path of `insert_at_cursor`:
the gap branch fails, the hop finds no next node, `move_gap 0` and the
trailing-bytes bookkeeping are no-ops, and the call reduces to
`insertChunksLoop`. -/
theorem insertAtCursor_empty_split (rng : Nat → Nat)
    (contents : List Nat) (hlong : NODE_STR_SIZE < contents.length) :
    insertAtCursor
      (JumpRope.single rng 0 0 (GapBuffer.new NODE_STR_SIZE) 0 0)
      (singleCursor 0) contents =
    insertChunksLoop
      (JumpRope.single rng 0 0 (GapBuffer.new NODE_STR_SIZE) 0 0)
      (singleCursor 0) contents (countCharsInBytes contents)
      (if contents.length ≠ countCharsInBytes contents then
        countUtf16SurrogatesInBytes contents else 0)
      (contents.length + 1) := by
  have hne : ¬contents.isEmpty = true := by
    cases contents with
    | nil => simp [NODE_STR_SIZE] at hlong
    | cons a l => simp
  have hnode :
      (JumpRope.single rng 0 0 (GapBuffer.new NODE_STR_SIZE) 0 0).node 0 =
      ⟨GapBuffer.new NODE_STR_SIZE, 1, (⟨none, 0, 0⟩ : SkipEntry) ::
        List.replicate MAX_HEIGHT ⟨none, 0, 0⟩⟩ := rfl
  have hc0 : (singleCursor 0).getD 0 ⟨0, 0, 0⟩ = ⟨0, 0, 0⟩ := rfl
  have hcM : (singleCursor 0).getD MAX_HEIGHT ⟨0, 0, 0⟩ = ⟨0, 0, 0⟩ := rfl
  have hlb : GapBuffer.lenBytes (GapBuffer.new NODE_STR_SIZE) = 0 := by
    decide
  simp only [insertAtCursor, hc0, hcM, hnode]
  rw [if_neg hne]
  rw [if_neg (by
    intro h
    have h2 := h.2
    have h392 : (GapBuffer.new NODE_STR_SIZE).gapLen = NODE_STR_SIZE := by
      decide
    omega)]
  rw [if_neg (by omega : ¬(0 : Nat) > 0)]
  rw [hlb]
  rw [decide_eq_false
    (by omega : ¬(0 + contents.length ≤ NODE_STR_SIZE))]
  rw [if_pos (show false = false ∧ (0 : Nat) = 0 from ⟨rfl, rfl⟩)]
  simp only [List.getD_cons_zero]
  rw [if_neg (by simp : ¬false = true)]
  simp only [hnode, Node.numChars, Node.numSurrogatePairs,
    List.getD_cons_zero]
  rw [show (GapBuffer.new NODE_STR_SIZE).moveGap 0 =
    GapBuffer.new NODE_STR_SIZE from by decide]
  rw [hlb]
  simp only [Nat.sub_zero]
  rw [if_neg (by omega : ¬(0 : Nat) > 0)]
  rw [if_neg (by omega : ¬(0 : Nat) > 0)]
  rw [show (JumpRope.single rng 0 0 (GapBuffer.new NODE_STR_SIZE) 0
      0).setNode 0 ⟨GapBuffer.new NODE_STR_SIZE, 1,
      (⟨none, 0, 0⟩ : SkipEntry) ::
        List.replicate MAX_HEIGHT ⟨none, 0, 0⟩⟩ =
    JumpRope.single rng 0 0 (GapBuffer.new NODE_STR_SIZE) 0 0 from rfl]

theorem insertInGap_new_content (s : List Nat)
    (h : s.length ≤ NODE_STR_SIZE) :
    ((GapBuffer.new NODE_STR_SIZE).insertInGap s).startAsStr = s ∧
    ((GapBuffer.new NODE_STR_SIZE).insertInGap s).endAsStr = [] := by
  have heq : GapBuffer.newFromStr NODE_STR_SIZE s =
      (GapBuffer.new NODE_STR_SIZE).insertInGap s := by
    have hng : ¬s.length > (GapBuffer.new NODE_STR_SIZE).gapLen := by
      simp only [GapBuffer.new]
      omega
    have hmv : (GapBuffer.new NODE_STR_SIZE).moveGap 0 =
        GapBuffer.new NODE_STR_SIZE := by
      rw [GapBuffer.moveGap]
      rw [if_pos (show (0 : Nat) =
        (GapBuffer.new NODE_STR_SIZE).gapStartBytes from rfl)]
    simp only [GapBuffer.newFromStr, GapBuffer.tryInsert]
    rw [if_neg hng, hmv, Option.getD_some]
  rw [← heq]
  exact GapBuffer.newFromStr_content s h

/-- `from(s).to_string() == s`: the round trip through construction and
`Display`, for every rng stream and every scalar string, including the
multi-node splitting path for strings longer than one node. -/
theorem JumpRope.fromStr_toString (rng : Nat → Nat) (t : List Nat)
    (ht : ValidStr t) :
    (JumpRope.fromStr rng (utf8Str t)).toStringBytes = utf8Str t := by
  by_cases hnil : utf8Str t = []
  · rw [hnil]
    rw [show JumpRope.fromStr rng [] = JumpRope.new rng from by
      simp [JumpRope.fromStr, JumpRope.insert]]
    rw [JumpRope.new_eq_single, JumpRope.toStringBytes_single]
    decide
  · have hne : ¬(utf8Str t).isEmpty = true := by
      cases hE : utf8Str t with
      | nil => exact absurd hE hnil
      | cons a l => simp
    by_cases hlen : (utf8Str t).length ≤ NODE_STR_SIZE
    · rw [JumpRope.fromStr_short rng (utf8Str t) hne hlen]
      rw [JumpRope.toStringBytes_single]
      obtain ⟨h1, h2⟩ := insertInGap_new_content (utf8Str t) hlen
      rw [h1, h2, List.append_nil]
    · push_neg at hlen
      have hcs : (GapBuffer.new NODE_STR_SIZE).countSurrogatePairs 0 = 0 :=
        by decide
      rw [JumpRope.fromStr, JumpRope.new_eq_single]
      simp only [JumpRope.insert]
      rw [if_neg hne]
      rw [JumpRope.lenChars_single, Nat.min_self]
      rw [JumpRope.mutCursorAtChar_single rng 0 0
        (GapBuffer.new NODE_STR_SIZE) 0 0 0 (Nat.le_refl 0) hcs]
      rw [insertAtCursor_empty_split rng (utf8Str t) hlen]
      have hch0 : chainOk
          (JumpRope.single rng 0 0 (GapBuffer.new NODE_STR_SIZE) 0 0)
          [0] (some 0) := ⟨rfl, Nat.zero_lt_one, rfl⟩
      have hlen0 : ∀ x,
          x < (JumpRope.single rng 0 0 (GapBuffer.new NODE_STR_SIZE) 0
            0).heap.length →
          ((JumpRope.single rng 0 0 (GapBuffer.new NODE_STR_SIZE) 0
            0).node x).nexts.length = MAX_HEIGHT + 1 := by
        intro x hx
        have hx0 : x = 0 := by
          have h1 : (JumpRope.single rng 0 0 (GapBuffer.new NODE_STR_SIZE)
            0 0).heap.length = 1 := rfl
          omega
        subst hx0
        rfl
      obtain ⟨p2, hch, hnd2, hsp⟩ := insertChunksLoop_spell
        ((utf8Str t).length + 1)
        (JumpRope.single rng 0 0 (GapBuffer.new NODE_STR_SIZE) 0 0)
        (singleCursor 0) t (countCharsInBytes (utf8Str t))
        (if (utf8Str t).length ≠ countCharsInBytes (utf8Str t) then
          countUtf16SurrogatesInBytes (utf8Str t) else 0)
        [0] ht.inRange (by omega) hch0 (by simp) rfl (by decide) hlen0
      rw [toStringBytes_of_chain _ p2 hch hnd2, hsp]
      rw [show spell
        (JumpRope.single rng 0 0 (GapBuffer.new NODE_STR_SIZE) 0 0) [0] =
        [] from rfl]
      rw [List.nil_append]

end Jumprope

/-- C3: for every valid UTF-8 string (here: every list of Unicode scalar
values that are valid, encoded to UTF-8 bytes), constructing a rope with
`JumpRope::from` and reading it back with `to_string` returns exactly that
string, for every random stream. -/
theorem C3_from_roundtrip (rng : Nat → Nat) (t : List Nat)
    (ht : Jumprope.ValidStr t) :
    (Jumprope.JumpRope.fromStr rng (Jumprope.utf8Str t)).toStringBytes =
      Jumprope.utf8Str t :=
  Jumprope.JumpRope.fromStr_toString rng t ht

theorem C3_from_roundtrip_witness :
    Jumprope.ValidStr [0x3BA, 0x3CC, 0x3C3, 0x3BC, 0x3B5] ∧
    (Jumprope.JumpRope.fromStr (fun _ => 0)
        (Jumprope.utf8Str [0x3BA, 0x3CC, 0x3C3, 0x3BC, 0x3B5])).toStringBytes =
      Jumprope.utf8Str [0x3BA, 0x3CC, 0x3C3, 0x3BC, 0x3B5] :=
  ⟨by decide, C3_from_roundtrip (fun _ => 0) [0x3BA, 0x3CC, 0x3C3, 0x3BC, 0x3B5]
    (by decide)⟩

/-- C8: `count_utf16_surrogates` counts exactly the scalars with a 4-byte
UTF-8 encoding, equivalently the scalars whose UTF-16 encoding needs two
code units, on every valid UTF-8 string — even though the implementation
tests `(byte & 0xf0) == 0xf0` instead of the five-bit lead `11110`. -/
theorem C8_count_surrogates (s : List Nat) (hs : Jumprope.ValidStr s) :
    Jumprope.countUtf16SurrogatesInBytes (Jumprope.utf8Str s) =
      s.countP (fun c => (Jumprope.utf8Encode c).length == 4) ∧
    Jumprope.countUtf16SurrogatesInBytes (Jumprope.utf8Str s) =
      s.countP (fun c => Jumprope.utf16Len c == 2) := by
  have hbase := Jumprope.countSurr_utf8Str s hs.inRange
  constructor
  · rw [hbase]
    apply List.countP_congr
    intro c _
    simp only [decide_eq_true_eq, beq_iff_eq]
    exact (Jumprope.utf8Encode_length_eq_four c).symm
  · rw [hbase]
    apply List.countP_congr
    intro c _
    simp only [decide_eq_true_eq, beq_iff_eq]
    exact (Jumprope.utf16Len_eq_two c).symm

theorem C8_count_surrogates_witness :
    Jumprope.ValidStr [0x61, 0x1D550, 0x3C3] ∧
    Jumprope.countUtf16SurrogatesInBytes
      (Jumprope.utf8Str [0x61, 0x1D550, 0x3C3]) =
      [0x61, 0x1D550, 0x3C3].countP
        (fun c => (Jumprope.utf8Encode c).length == 4) :=
  ⟨by decide, (C8_count_surrogates [0x61, 0x1D550, 0x3C3] (by decide)).1⟩

/-- C9: for every gap buffer satisfying the leaf invariants (`GapBuffer.WF`)
holding content `pre ++ suf` around the gap, and every `pos`, `n` with
`n ≥ 1` and `pos + n ≤` the character length, `remove_chars(pos, n)` leaves
the buffer well-formed and holding exactly the original content with the `n`
scalars at character offsets `[pos, pos+n)` deleted, and returns the number
of UTF-8 bytes those `n` scalars occupied.  The proof covers all three
branches of the source: deletion straddling the gap, entirely before it, and
entirely after it. -/
theorem C9_remove_chars (b : Jumprope.GapBuffer) (pre suf : List Nat)
    (pos n : Nat) (hwf : b.WF pre suf) (hn : 1 ≤ n)
    (hle : pos + n ≤ pre.length + suf.length) :
    ∃ p2 s2, (b.removeChars pos n).1.WF p2 s2 ∧
      p2 ++ s2 = (pre ++ suf).take pos ++ (pre ++ suf).drop (pos + n) ∧
      (b.removeChars pos n).2 =
        (Jumprope.utf8Str (((pre ++ suf).drop pos).take n)).length := by
  obtain ⟨p2, s2, h1, h2, h3, -, -⟩ :=
    Jumprope.GapBuffer.removeChars_spec hwf pos n hn hle
  exact ⟨p2, s2, h1, h2, h3⟩

/-- Witness for C9: the buffer `"a" ⟨gap⟩ "bc"` with `remove_chars(1, 1)`
deleting the `b`. -/
theorem C9_remove_chars_witness :
    (⟨[0x61, 0, 0, 0x62, 0x63], 1, 1, 0, 2, true⟩ :
        Jumprope.GapBuffer).WF [0x61] [0x62, 0x63] ∧
    1 ≤ 1 ∧ 1 + 1 ≤ [0x61].length + [0x62, 0x63].length ∧
    ∃ p2 s2,
      ((⟨[0x61, 0, 0, 0x62, 0x63], 1, 1, 0, 2, true⟩ :
          Jumprope.GapBuffer).removeChars 1 1).1.WF p2 s2 ∧
      p2 ++ s2 = ([0x61] ++ [0x62, 0x63]).take 1 ++
        ([0x61] ++ [0x62, 0x63]).drop (1 + 1) ∧
      ((⟨[0x61, 0, 0, 0x62, 0x63], 1, 1, 0, 2, true⟩ :
          Jumprope.GapBuffer).removeChars 1 1).2 =
        (Jumprope.utf8Str ((([0x61] ++ [0x62, 0x63]).drop 1).take 1)).length :=
  ⟨by decide, by decide, by decide,
    C9_remove_chars ⟨[0x61, 0, 0, 0x62, 0x63], 1, 1, 0, 2, true⟩
      [0x61] [0x62, 0x63] 1 1 (by decide) (by decide) (by decide)⟩
